import Mathlib

/-!
# Journaled EVM state cache of ethermint

A shallow embedding of `x/evm/statedb/state_object.go` and
`x/evm/keeper/statedb.go`, together with a model of the orchestrating
state cache (`StateDB`) and its journal, followed by theorems about them.

Go maps are association lists with unique-key update, byte slices are lists
of bytes, a `nil` slice or map is `none`, and a Go panic is `none` in the
result of the operation that panics.
-/

namespace Ethermint

/-! ## Bytes, hashes and addresses -/

abbrev Byte := Fin 256

abbrev Bytes := List Byte

/-- Lexicographic strict order on byte strings (`bytes.Compare(a, b) < 0`). -/
def bytesLt : Bytes → Bytes → Bool
  | [], [] => false
  | [], _ :: _ => true
  | _ :: _, [] => false
  | a :: as, b :: bs => if a < b then true else if b < a then false else bytesLt as bs

/-- Whether the byte string `p` is an initial segment of `b`. -/
def hasPfx (p b : Bytes) : Bool := p.isPrefixOf b

/-- The go-ethereum `common.Hash`: exactly 32 bytes. -/
structure Hash where
  bytes : List Byte
  len : bytes.length = 32
deriving DecidableEq

/-- The go-ethereum `common.Address`: exactly 20 bytes. -/
structure Address where
  bytes : List Byte
  len : bytes.length = 20
deriving DecidableEq

/-- Right-aligned copy of `b` into `n` bytes, cropping from the left when `b`
is longer (`SetBytes` of go-ethereum). -/
def setBytes (n : Nat) (b : Bytes) : Bytes :=
  List.replicate (n - (b.drop (b.length - n)).length) 0 ++ b.drop (b.length - n)

/-- The go-ethereum `common.BytesToHash`. -/
def BytesToHash (b : Bytes) : Hash :=
  ⟨setBytes 32 b, by
    simp only [setBytes, List.length_append, List.length_replicate, List.length_drop]
    omega⟩

/-- The go-ethereum `common.BytesToAddress`. -/
def BytesToAddress (b : Bytes) : Address :=
  ⟨setBytes 20 b, by
    simp only [setBytes, List.length_append, List.length_replicate, List.length_drop]
    omega⟩

/-- The zero value `common.Hash{}`. -/
def zeroHash : Hash := ⟨List.replicate 32 0, by simp⟩

/-- The constant `types.EmptyCodeHash`, the Keccak-256 digest of the empty
byte string. -/
def EmptyCodeHash : Bytes :=
  [0xc5, 0xd2, 0x46, 0x01, 0x86, 0xf7, 0x23, 0x3c, 0x92, 0x7e, 0x7d, 0xb2, 0xdc, 0xc7, 0x03, 0xc0,
   0xe5, 0x00, 0xb6, 0x53, 0xca, 0x82, 0x27, 0x3b, 0x7b, 0xfa, 0xd8, 0x04, 0x5d, 0x85, 0xa4, 0x70]

/-! ## Go maps as association lists -/

/-- A Go map: at most the first binding of a key is visible, and updates keep
one binding per key. -/
def AMap (κ ν : Type) := List (κ × ν)

namespace AMap

variable {κ ν : Type}

def empty : AMap κ ν := []

/-- Map lookup `m[k]` with the `ok` flag as `Option`. -/
def get [DecidableEq κ] : AMap κ ν → κ → Option ν
  | [], _ => none
  | (k', v) :: rest, k => if k' = k then some v else get rest k

/-- Map assignment `m[k] = v`. -/
def set [DecidableEq κ] : AMap κ ν → κ → ν → AMap κ ν
  | [], k, v => [(k, v)]
  | (k', v') :: rest, k, v => if k' = k then (k, v) :: rest else (k', v') :: set rest k v

/-- Map deletion `delete(m, k)`. -/
def erase [DecidableEq κ] : AMap κ ν → κ → AMap κ ν
  | [], _ => []
  | (k', v') :: rest, k => if k' = k then erase rest k else (k', v') :: erase rest k

/-- The keys bound in the map, in storage order. -/
def keys (m : AMap κ ν) : List κ := List.map Prod.fst m

instance [DecidableEq κ] [DecidableEq ν] : DecidableEq (AMap κ ν) :=
  inferInstanceAs (DecidableEq (List (κ × ν)))

end AMap

/-! ## `x/evm/statedb/state_object.go`: accounts and storage -/

/-- Account is the Ethereum consensus representation of accounts. -/
structure Account where
  Nonce : Nat
  CodeHash : Bytes
deriving DecidableEq

/-- NewEmptyAccount returns an empty account. -/
def NewEmptyAccount : Account := { Nonce := 0, CodeHash := EmptyCodeHash }

/-- IsContract returns if the account contains contract code. -/
def Account.IsContract (acct : Account) : Bool := !decide (acct.CodeHash = EmptyCodeHash)

/-- Storage represents in-memory cache/buffer of contract storage. -/
abbrev Storage := AMap Hash Hash

/-- Insertion of a key into a list sorted by `bytes.Compare`. -/
def insertKey (k : Hash) : List Hash → List Hash
  | [] => [k]
  | h :: t => if bytesLt h.bytes k.bytes then h :: insertKey k t else k :: h :: t

/-- SortedKeys sort the keys for deterministic iteration. -/
def Storage.SortedKeys (s : Storage) : List Hash :=
  (AMap.keys s).foldr insertKey []

/-- The state of an account (`stateObject`); the back pointer `db` is passed
explicitly to the methods that use it. -/
structure stateObject where
  originalAccount : Option Account
  account : Account
  code : Option Bytes
  originStorage : Storage
  dirtyStorage : Storage
  overrideStorage : Option Storage
  address : Address
  selfDestructed : Bool
  newContract : Bool
deriving DecidableEq

/-- newObject creates a state object. -/
def newObject (address : Address) (acct : Option Account) : stateObject :=
  { address := address
    originalAccount := acct
    account := match acct with
      | some a => a
      | none => NewEmptyAccount
    code := none
    originStorage := AMap.empty
    dirtyStorage := AMap.empty
    overrideStorage := none
    selfDestructed := false
    newContract := false }

/-! ## Journal records and execution logs -/

/-- An execution log (`ethtypes.Log`). -/
structure Log where
  Address : Address
  Topics : List Hash
  Data : Bytes
  BlockNumber : Nat
  TxHash : Hash
  TxIndex : Nat
  BlockHash : Hash
  Index : Nat
deriving DecidableEq

/-- Modelled from the spec: the journal (`journal.go`) is not in the source
tree. One tagged record per reversible mutation (spec 4.2 and design note 2):
account-creation, self-destruct-mark, balance-change-via-native-ledger,
nonce-change, storage-change, code-change, refund-change,
execution-log-append and access-list-addition. The fields of
`nonceChange`, `storageChange` and `codeChange` are those written by
`state_object.go`. -/
inductive journalEntry where
  | createObjectChange (account : Address) (prev : Option stateObject)
  | selfDestructChange (account : Address) (prev : Bool)
  | balanceChange (account : Address) (prev : Nat)
  | nonceChange (account : Address) (prev : Nat)
  | storageChange (account : Address) (key : Hash) (prevalue : Hash)
  | codeChange (account : Address) (prevhash : Bytes) (prevcode : Option Bytes)
  | refundChange (prev : Nat)
  | addLogChange
  | accessListAddAccountChange (address : Address)
  | accessListAddSlotChange (address : Address) (slot : Hash)
deriving DecidableEq

/-- Modelled from the spec: the journal is an ordered, append-only sequence
of mutation records. -/
abbrev journal := List journalEntry

/-- Modelled from the spec: appending a record puts it at the end of the
sequence. -/
def journal.append (j : journal) (e : journalEntry) : journal := j ++ [e]

/-! ## The backing store behind `x/evm/keeper/statedb.go` -/

/-- A key-value store of the SDK: `Get` of an absent key is `nil`. -/
abbrev KVStore := AMap Bytes Bytes

/-- Modelled from the spec: the key-prefix constants of `x/evm/types` are not
in the source tree; code blobs and storage slots live in two namespaces of the
module store, each tagged by one byte. -/
def KeyPrefixCode : Bytes := [1]

/-- Modelled from the spec: see `KeyPrefixCode`. -/
def KeyPrefixStorage : Bytes := [2]

/-- Modelled from the spec: `types.AddressStoragePrefix` is not in the source
tree; the storage namespace of an address is the storage tag followed by the
20 address bytes. -/
def AddressStoragePrefix (addr : Address) : Bytes := KeyPrefixStorage ++ addr.bytes

/-- An account of the auth module: `isEth` tells whether it implements
`ethermint.EthAccountI` and so carries a code hash. -/
structure AuthAccount where
  isEth : Bool
  sequence : Nat
  codeHash : Hash
deriving DecidableEq

/-- The state reachable through `sdk.Context` and the keepers: the EVM module
store, the accounts of the account keeper and the EVM-denom balances of the
bank keeper. -/
structure Ctx where
  store : KVStore
  accounts : AMap Address AuthAccount
  balances : AMap Address Nat
deriving DecidableEq

/-- GetState loads contract state from database. -/
def Keeper.GetState (ctx : Ctx) (addr : Address) (key : Hash) : Hash :=
  match AMap.get ctx.store (AddressStoragePrefix addr ++ key.bytes) with
  | none => zeroHash
  | some value => if value.length = 0 then zeroHash else BytesToHash value

/-- GetCode loads contract code from database. -/
def Keeper.GetCode (ctx : Ctx) (codeHash : Hash) : Option Bytes :=
  AMap.get ctx.store (KeyPrefixCode ++ codeHash.bytes)

/-! ## `x/evm/statedb/state_object.go`: methods -/

/-- codeDirty returns whether the codeHash is modified. -/
def stateObject.codeDirty (s : stateObject) : Bool :=
  match s.originalAccount with
  | none => true
  | some o => !decide (s.account.CodeHash = o.CodeHash)

/-- nonceDirty returns whether the nonce is modified. -/
def stateObject.nonceDirty (s : stateObject) : Bool :=
  match s.originalAccount with
  | none => true
  | some o => decide (s.account.Nonce ≠ o.Nonce)

/-- The method `empty` returns whether the account is considered empty. -/
def stateObject.empty (s : stateObject) : Bool :=
  decide (s.account.Nonce = 0) && decide (s.account.CodeHash = EmptyCodeHash)

def stateObject.markSelfDestructed (s : stateObject) : stateObject :=
  { s with selfDestructed := true }

/-- Returns the address of the contract/account. -/
def stateObject.Address (s : stateObject) : Address := s.address

/-- CodeHash returns the code hash of account. -/
def stateObject.CodeHash (s : stateObject) : Bytes := s.account.CodeHash

/-- Nonce returns the nonce of account. -/
def stateObject.Nonce (s : stateObject) : Nat := s.account.Nonce

/-- Code returns the contract code associated with this object, if any; the
second component is the object with its code cache filled. -/
def stateObject.Code (ctx : Ctx) (s : stateObject) : Option Bytes × stateObject :=
  match s.code with
  | some c => (some c, s)
  | none =>
    if s.CodeHash = EmptyCodeHash then (none, s)
    else
      let code := Keeper.GetCode ctx (BytesToHash s.CodeHash)
      (code, { s with code := code })

/-- CodeSize returns the size of the contract code associated with this
object, or zero if none. -/
def stateObject.CodeSize (ctx : Ctx) (s : stateObject) : Nat × stateObject :=
  match s.Code ctx with
  | (none, s1) => (0, s1)
  | (some c, s1) => (c.length, s1)

def stateObject.setCode (s : stateObject) (codeHash : Hash) (code : Option Bytes) : stateObject :=
  { s with code := code, account := { s.account with CodeHash := codeHash.bytes } }

/-- SetCode set contract code to account. -/
def stateObject.SetCode (ctx : Ctx) (j : journal) (s : stateObject) (codeHash : Hash)
    (code : Option Bytes) : stateObject × journal :=
  let r := s.Code ctx
  let j1 := j.append (journalEntry.codeChange r.2.address r.2.CodeHash r.1)
  (r.2.setCode codeHash code, j1)

def stateObject.setNonce (s : stateObject) (nonce : Nat) : stateObject :=
  { s with account := { s.account with Nonce := nonce } }

/-- SetNonce set nonce to account. -/
def stateObject.SetNonce (j : journal) (s : stateObject) (nonce : Nat) : stateObject × journal :=
  (s.setNonce nonce, j.append (journalEntry.nonceChange s.address s.account.Nonce))

/-- GetCommittedState query the committed state; the second component is the
object with its origin cache filled. -/
def stateObject.GetCommittedState (ctx : Ctx) (s : stateObject) (key : Hash) :
    Hash × stateObject :=
  match s.overrideStorage with
  | some ov =>
    match AMap.get ov key with
    | some value => (value, s)
    | none => (zeroHash, s)
  | none =>
    match AMap.get s.originStorage key with
    | some value => (value, s)
    | none =>
      let value := Keeper.GetState ctx s.Address key
      (value, { s with originStorage := AMap.set s.originStorage key value })

/-- GetState query the current state (including dirty state). -/
def stateObject.GetState (ctx : Ctx) (s : stateObject) (key : Hash) : Hash × stateObject :=
  match AMap.get s.dirtyStorage key with
  | some value => (value, s)
  | none => s.GetCommittedState ctx key

def stateObject.setState (s : stateObject) (key value : Hash) : stateObject :=
  { s with dirtyStorage := AMap.set s.dirtyStorage key value }

/-- SetState sets the contract state. -/
def stateObject.SetState (ctx : Ctx) (j : journal) (s : stateObject) (key value : Hash) :
    stateObject × journal :=
  let r := s.GetState ctx key
  if r.1 = value then (r.2, j)
  else (r.2.setState key value, j.append (journalEntry.storageChange r.2.address key r.1))

/-- SetStorage installs a full storage override; a nil map is `none`. -/
def stateObject.SetStorage (s : stateObject) (storage : Option Storage) : stateObject :=
  { s with overrideStorage := storage, originStorage := AMap.empty, dirtyStorage := AMap.empty }

/-! ## `x/evm/keeper/statedb.go`: writes -/

/-- Errors returned by the keeper. -/
inductive KeeperError where
  | ErrInvalidAccount
deriving DecidableEq

/-- Insertion of a binding into a list of bindings sorted by key, replacing a
binding of the same key. -/
def insertEntry (e : Bytes × Bytes) : List (Bytes × Bytes) → List (Bytes × Bytes)
  | [] => [e]
  | h :: t =>
    if bytesLt h.1 e.1 then h :: insertEntry e t
    else if h.1 = e.1 then e :: t
    else e :: h :: t

/-- The visible bindings of a store in ascending key order, which is the order
in which an SDK iterator yields them. -/
def sortedEntries (st : KVStore) : List (Bytes × Bytes) :=
  List.foldr insertEntry [] st

/-- The bindings yielded by `storetypes.KVStorePrefixIterator(store, p)`: those
whose key starts with `p`, in ascending key order, with their full keys. -/
def KVStorePrefixIterator (st : KVStore) (p : Bytes) : List (Bytes × Bytes) :=
  (sortedEntries st).filter (fun e => hasPfx p e.1)

/-- The loop of `ForEachStorage` over the bindings an iterator yields; the
callback threads the state `σ` it works on and returns false to stop. -/
def forEachLoop {σ : Type} (cb : Hash → Hash → σ → Bool × σ) : List (Bytes × Bytes) → σ → σ
  | [], acc => acc
  | e :: rest, acc =>
    let r := cb (BytesToHash e.1) (BytesToHash e.2) acc
    if r.1 then forEachLoop cb rest r.2 else r.2

/-- ForEachStorage iterate contract storage, callback return false to break
early. The iterator ranges over the store as it is when the iteration
starts. -/
def Keeper.ForEachStorage {σ : Type} (ctx : Ctx) (addr : Address)
    (cb : Hash → Hash → σ → Bool × σ) (init : σ) : σ :=
  forEachLoop cb (KVStorePrefixIterator ctx.store (AddressStoragePrefix addr)) init

/-- SetState update contract storage, delete if value is empty. -/
def Keeper.SetState (ctx : Ctx) (addr : Address) (key : Hash) (value : Bytes) : Ctx :=
  if value.length = 0 then
    { ctx with store := AMap.erase ctx.store (AddressStoragePrefix addr ++ key.bytes) }
  else
    { ctx with store := AMap.set ctx.store (AddressStoragePrefix addr ++ key.bytes) value }

/-- SetCode set contract code, delete if code is empty. -/
def Keeper.SetCode (ctx : Ctx) (codeHash : Bytes) (code : Bytes) : Ctx :=
  if code.length = 0 then
    { ctx with store := AMap.erase ctx.store (KeyPrefixCode ++ codeHash) }
  else
    { ctx with store := AMap.set ctx.store (KeyPrefixCode ++ codeHash) code }

/-- The account keeper's `NewAccountWithAddress` with the prototype
`ethermint.ProtoAccount`: a fresh Ethereum account with sequence zero and
the empty code hash. -/
def NewAccountWithAddress : AuthAccount :=
  { isEth := true, sequence := 0, codeHash := BytesToHash EmptyCodeHash }

/-- SetAccount updates nonce/balance/codeHash together. The setters
`SetSequence` and `SetCodeHash` of the SDK account types do not fail. -/
def Keeper.SetAccount (ctx : Ctx) (addr : Address) (account : Account) :
    Except KeeperError Ctx :=
  let acct := match AMap.get ctx.accounts addr with
    | some a => a
    | none => NewAccountWithAddress
  let acct1 := { acct with sequence := account.Nonce }
  let codeHash := BytesToHash account.CodeHash
  let acct2 := if acct1.isEth then { acct1 with codeHash := codeHash } else acct1
  Except.ok { ctx with accounts := AMap.set ctx.accounts addr acct2 }

/-- DeleteAccount handles contract's suicide call: remove states and the auth
account. The Go method writes through `ctx` and returns only the error: each
`return` is paired here with the context the statements executed before it
have left. -/
def Keeper.DeleteAccountCtx (ctx : Ctx) (addr : Address) : Ctx × Option KeeperError :=
  match AMap.get ctx.accounts addr with
  | none => (ctx, none)
  | some acct =>
    if acct.isEth then
      let ctx1 := Keeper.ForEachStorage ctx addr
        (fun key _ c => (true, Keeper.SetState c addr key [])) ctx
      ({ ctx1 with accounts := AMap.erase ctx1.accounts addr }, none)
    else (ctx, some KeeperError.ErrInvalidAccount)

/-- The result of `DeleteAccount` as its callers use it: the error, or the
context the call has left when it returns nil. -/
def Keeper.DeleteAccount (ctx : Ctx) (addr : Address) : Except KeeperError Ctx :=
  match Keeper.DeleteAccountCtx ctx addr with
  | (c, none) => Except.ok c
  | (_, some e) => Except.error e

/-- Modelled from the spec: `Keeper.GetAccount` (`keeper.go`) is not in the
source tree. "GetAccount(addr) -> Account or absent": the nonce and code hash
of the auth account, where an account that is not an Ethereum account has
the empty code hash. -/
def Keeper.GetAccount (ctx : Ctx) (addr : Address) : Option Account :=
  match AMap.get ctx.accounts addr with
  | none => none
  | some acct =>
    some { Nonce := acct.sequence
           CodeHash := if acct.isEth then acct.codeHash.bytes else EmptyCodeHash }

/-- Modelled from the spec: the ledger's balance of an address in the EVM
denomination, zero when it holds none. -/
def Keeper.GetBalance (ctx : Ctx) (addr : Address) : Nat :=
  match AMap.get ctx.balances addr with
  | none => 0
  | some b => b

/-! ## The state cache (`StateDB`) -/

/-- Modelled from the spec: the execution-context configuration supplied at
State Cache construction (block hash, transaction hash, transaction index,
starting log index offset). -/
structure TxConfig where
  BlockHash : Hash
  TxHash : Hash
  TxIndex : Nat
  LogIndex : Nat

/-- Modelled from the spec: the access list, a set of addresses and of
(address, slot) pairs marking warm accesses. -/
structure accessList where
  addresses : List Address
  slots : List (Address × Hash)

/-- Modelled from the spec: a Snapshot is an index into the journal plus the
log count at that point. -/
structure SnapshotId where
  journalLength : Nat
  logCount : Nat
deriving DecidableEq

/-- Modelled from the spec: `statedb.go` is not in the source tree. The State
Cache owns the live State Objects keyed by address, the journal, the
execution logs, the refund counter and the access list, and works on the
backing store `ctx`. It remembers the snapshots it has handed out and that
have not been passed since, so that an id "never returned by `Snapshot()` on
this cache instance" can be told from a valid one. -/
structure StateDB where
  ctx : Ctx
  journal : journal
  validRevisions : List SnapshotId
  stateObjects : AMap Address stateObject
  txConfig : TxConfig
  refund : Nat
  logs : List Log
  accessList : accessList

/-- Modelled from the spec: `statedb.New`, a fresh cache on a backing store:
no live objects, an empty journal, no snapshots, no logs, refund zero. -/
def New (ctx : Ctx) (txConfig : TxConfig) : StateDB :=
  { ctx := ctx
    journal := []
    validRevisions := []
    stateObjects := AMap.empty
    txConfig := txConfig
    refund := 0
    logs := []
    accessList := { addresses := [], slots := [] } }

/-- Modelled from the spec: the State Cache lazily materializes State Objects
from the backing store on first touch. A live object is preferred; otherwise
the account is loaded from the backing store and inserted into the live set;
an address with neither has no object. -/
def StateDB.getStateObject (s : StateDB) (addr : Address) : Option stateObject × StateDB :=
  match AMap.get s.stateObjects addr with
  | some obj => (some obj, s)
  | none =>
    match Keeper.GetAccount s.ctx addr with
    | none => (none, s)
    | some account =>
      let obj := newObject addr (some account)
      (some obj, { s with stateObjects := AMap.set s.stateObjects addr obj })

/-- Modelled from the spec: a fresh State Object for `addr` replaces the one
that was there, and an account-creation record holding the prior object is
journaled so that a revert restores it. -/
def StateDB.createObject (s : StateDB) (addr : Address) : stateObject × StateDB :=
  let r := s.getStateObject addr
  let newobj := newObject addr none
  (newobj, { r.2 with
    journal := r.2.journal.append (journalEntry.createObjectChange addr r.1)
    stateObjects := AMap.set r.2.stateObjects addr newobj })

/-- Modelled from the spec: the object a write works on: the existing one, or
a newly created (and journaled) one for an address that has none. -/
def StateDB.getOrNewStateObject (s : StateDB) (addr : Address) : stateObject × StateDB :=
  match s.getStateObject addr with
  | (some obj, s1) => (obj, s1)
  | (none, s1) => s1.createObject addr

/-- Modelled from the spec: `Exist(addr)`: true if a State Object exists for
`addr` or the backing store has an account at that address. -/
def StateDB.Exist (s : StateDB) (addr : Address) : Bool :=
  (AMap.get s.stateObjects addr).isSome || (Keeper.GetAccount s.ctx addr).isSome

/-- Modelled from the spec: `Empty(addr)`: `empty()` of the object, treating a
non-existent account as empty. -/
def StateDB.Empty (s : StateDB) (addr : Address) : Bool × StateDB :=
  match s.getStateObject addr with
  | (some obj, s1) => (obj.empty, s1)
  | (none, s1) => (true, s1)

/-- Modelled from the spec: `GetNonce(addr)`, zero for a non-existent
account. -/
def StateDB.GetNonce (s : StateDB) (addr : Address) : Nat × StateDB :=
  match s.getStateObject addr with
  | (some obj, s1) => (obj.Nonce, s1)
  | (none, s1) => (0, s1)

/-- Modelled from the spec: `GetCode(addr)`, no code for a non-existent
account. -/
def StateDB.GetCode (s : StateDB) (addr : Address) : Option Bytes × StateDB :=
  match s.getStateObject addr with
  | (some obj, s1) =>
    let r := obj.Code s1.ctx
    (r.1, { s1 with stateObjects := AMap.set s1.stateObjects addr r.2 })
  | (none, s1) => (none, s1)

/-- Modelled from the spec: `GetCodeHash(addr)`, the zero hash for a
non-existent account (as `TestAccount` and `TestCode` expect). -/
def StateDB.GetCodeHash (s : StateDB) (addr : Address) : Hash × StateDB :=
  match s.getStateObject addr with
  | (some obj, s1) => (BytesToHash obj.CodeHash, s1)
  | (none, s1) => (zeroHash, s1)

/-- Modelled from the spec: `GetState(addr, key)`, the zero hash for a
non-existent account. -/
def StateDB.GetState (s : StateDB) (addr : Address) (key : Hash) : Hash × StateDB :=
  match s.getStateObject addr with
  | (some obj, s1) =>
    let r := obj.GetState s1.ctx key
    (r.1, { s1 with stateObjects := AMap.set s1.stateObjects addr r.2 })
  | (none, s1) => (zeroHash, s1)

/-- Modelled from the spec: `GetCommittedState(addr, key)`, the zero hash for
a non-existent account. -/
def StateDB.GetCommittedState (s : StateDB) (addr : Address) (key : Hash) : Hash × StateDB :=
  match s.getStateObject addr with
  | (some obj, s1) =>
    let r := obj.GetCommittedState s1.ctx key
    (r.1, { s1 with stateObjects := AMap.set s1.stateObjects addr r.2 })
  | (none, s1) => (zeroHash, s1)

/-- Modelled from the spec: `SetState(addr, key, value)` writes through the
State Object of `addr`. -/
def StateDB.SetState (s : StateDB) (addr : Address) (key value : Hash) : StateDB :=
  let r := s.getOrNewStateObject addr
  let w := r.1.SetState r.2.ctx r.2.journal key value
  { r.2 with stateObjects := AMap.set r.2.stateObjects addr w.1, journal := w.2 }

/-- Modelled from the spec: `SetNonce(addr, n)` writes through the State
Object of `addr`. -/
def StateDB.SetNonce (s : StateDB) (addr : Address) (nonce : Nat) : StateDB :=
  let r := s.getOrNewStateObject addr
  let w := r.1.SetNonce r.2.journal nonce
  { r.2 with stateObjects := AMap.set r.2.stateObjects addr w.1, journal := w.2 }

/-- Modelled from the spec: `SetCode(addr, hash, bytes)` writes through the
State Object of `addr` (spec 8.6 passes the hash of the code with it). -/
def StateDB.SetCode (s : StateDB) (addr : Address) (codeHash : Hash) (code : Option Bytes) :
    StateDB :=
  let r := s.getOrNewStateObject addr
  let w := r.1.SetCode r.2.ctx r.2.journal codeHash code
  { r.2 with stateObjects := AMap.set r.2.stateObjects addr w.1, journal := w.2 }

/-- Modelled from the spec: `GetRefund()`. -/
def StateDB.GetRefund (s : StateDB) : Nat := s.refund

/-- Modelled from the spec: `Logs()`, the execution logs recorded so far in
log-index order. -/
def StateDB.Logs (s : StateDB) : List Log := s.logs

/-- Modelled from the spec: `AddRefund(gas)` journals a refund-change record
and adds to the refund counter, the unsigned counter of gas to be refunded. -/
def StateDB.AddRefund (s : StateDB) (gas : Nat) : StateDB :=
  { s with
    journal := s.journal.append (journalEntry.refundChange s.refund)
    refund := s.refund + gas }

/-- Modelled from the spec: `SubRefund(gas)` journals a refund-change record
and subtracts from the refund counter; subtracting more than present is a
fatal invariant violation (`none`). -/
def StateDB.SubRefund (s : StateDB) (gas : Nat) : Option StateDB :=
  if gas > s.refund then none
  else some { s with
    journal := s.journal.append (journalEntry.refundChange s.refund)
    refund := s.refund - gas }

/-- Modelled from the spec: `SelfDestruct(addr)`: for a non-existent account,
no-op; for an existing account, journals the self-destruct mark, clears its
balance via the ledger (journaled as a balance change), and marks the object
self-destructed. -/
def StateDB.SelfDestruct (s : StateDB) (addr : Address) : StateDB :=
  match s.getStateObject addr with
  | (none, s1) => s1
  | (some obj, s1) =>
    let j1 := s1.journal.append (journalEntry.selfDestructChange addr obj.selfDestructed)
    let s2 : StateDB :=
      { s1 with
        journal := j1
        stateObjects := AMap.set s1.stateObjects addr obj.markSelfDestructed }
    let balance := Keeper.GetBalance s2.ctx addr
    if 0 < balance then
      { s2 with
        journal := s2.journal.append (journalEntry.balanceChange addr balance)
        ctx := { s2.ctx with balances := AMap.set s2.ctx.balances addr 0 } }
    else s2

/-- Modelled from the spec: `HasSelfDestructed(addr)`. -/
def StateDB.HasSelfDestructed (s : StateDB) (addr : Address) : Bool × StateDB :=
  match s.getStateObject addr with
  | (some obj, s1) => (obj.selfDestructed, s1)
  | (none, s1) => (false, s1)

/-- Modelled from the spec: `Snapshot()` returns `(journalLength, logCount)`;
the cache remembers the id as one it has handed out. -/
def StateDB.Snapshot (s : StateDB) : SnapshotId × StateDB :=
  let id : SnapshotId := { journalLength := s.journal.length, logCount := s.logs.length }
  (id, { s with validRevisions := s.validRevisions ++ [id] })

/-- Modelled from the spec: the change an undo action makes to the State
Object of the named account, if the account has one. -/
def StateDB.updateObject (s : StateDB) (addr : Address) (f : stateObject → stateObject) :
    StateDB :=
  match s.getStateObject addr with
  | (some obj, s1) => { s1 with stateObjects := AMap.set s1.stateObjects addr (f obj) }
  | (none, s1) => s1

/-- Modelled from the spec: each record type knows how to undo itself given
the State Cache: an account-creation record restores the prior object, a
storage-change record writes the saved previous value back into the named
account's `dirtyStorage`, an execution-log-append record truncates the log
list back to its prior length, and so on for each kind. -/
def journalEntry.revert (e : journalEntry) (s : StateDB) : StateDB :=
  match e with
  | createObjectChange account prev =>
    match prev with
    | some p => { s with stateObjects := AMap.set s.stateObjects account p }
    | none => { s with stateObjects := AMap.erase s.stateObjects account }
  | selfDestructChange account prev =>
    s.updateObject account (fun o => { o with selfDestructed := prev })
  | balanceChange account prev =>
    { s with ctx := { s.ctx with balances := AMap.set s.ctx.balances account prev } }
  | nonceChange account prev => s.updateObject account (fun o => o.setNonce prev)
  | storageChange account key prevalue =>
    s.updateObject account (fun o => o.setState key prevalue)
  | codeChange account prevhash prevcode =>
    s.updateObject account (fun o =>
      { o with code := prevcode, account := { o.account with CodeHash := prevhash } })
  | refundChange prev => { s with refund := prev }
  | addLogChange => { s with logs := s.logs.dropLast }
  | accessListAddAccountChange address =>
    { s with accessList :=
        { s.accessList with addresses := s.accessList.addresses.erase address } }
  | accessListAddSlotChange address slot =>
    { s with accessList :=
        { s.accessList with slots := s.accessList.slots.erase (address, slot) } }

/-- Modelled from the spec: the undo actions of a run of journal records, in
strict reverse order (later mutations undone before earlier ones). -/
def revertEntries (es : List journalEntry) (s : StateDB) : StateDB :=
  List.foldr journalEntry.revert s es

/-- Modelled from the spec: `RevertToSnapshot(s)`: (1) validate `s`: an id
that `Snapshot()` never returned on this cache, or that points to "a point
that was never taken or already passed", or that lies outside the journal or
the log list, is a fatal invariant violation (`none`); (2) undo the journal
records from the current end down to `s.journalLength` in reverse order;
(3) truncate the journal to `s.journalLength` and the log list to
`s.logCount`. The snapshots taken at later points are passed from then on. -/
def StateDB.RevertToSnapshot (s : StateDB) (id : SnapshotId) : Option StateDB :=
  if id ∈ s.validRevisions ∧ id.journalLength ≤ s.journal.length ∧
      id.logCount ≤ s.logs.length then
    let s1 := revertEntries (s.journal.drop id.journalLength) s
    some { s1 with
      journal := s.journal.take id.journalLength
      logs := s1.logs.take id.logCount
      validRevisions := s.validRevisions.filter (fun r =>
        decide (r.journalLength ≤ id.journalLength ∧ r.logCount ≤ id.logCount)) }
  else none

/-- Insertion of an address into a list sorted by address bytes. -/
def insertAddr (a : Address) : List Address → List Address
  | [] => [a]
  | h :: t => if bytesLt h.bytes a.bytes then h :: insertAddr a t else a :: h :: t

/-- Modelled from the spec: the touched addresses "in a stable order":
ascending address bytes. -/
def StateDB.sortedAddresses (s : StateDB) : List Address :=
  (AMap.keys s.stateObjects).foldr insertAddr []

/-- Modelled from the spec: the bytes handed to the backing store for a dirty
value: "empty value ⇒ delete the key", so the zero hash is written as the
empty byte string. -/
def commitValue (v : Hash) : Bytes := if v = zeroHash then [] else v.bytes

/-- Modelled from the spec: commit of one State Object. An object with a
storage override installed is a fatal invariant violation (`none`); a
self-destructed one is deleted from the backing store; otherwise every key in
`dirtyStorage` is written (sorted by key), and if nonce or code changed the
code blob and the updated Account Record are persisted. -/
def commitObject (ctx : Ctx) (obj : stateObject) : Option (Except KeeperError Ctx) :=
  match obj.overrideStorage with
  | some _ => none
  | none =>
    if obj.selfDestructed then some (Keeper.DeleteAccount ctx obj.Address)
    else
      let ctx1 := (Storage.SortedKeys obj.dirtyStorage).foldl
        (fun c key =>
          match AMap.get obj.dirtyStorage key with
          | some v => Keeper.SetState c obj.Address key (commitValue v)
          | none => c) ctx
      if obj.nonceDirty || obj.codeDirty then
        let ctx2 := match obj.codeDirty, obj.code with
          | true, some c => Keeper.SetCode ctx1 obj.CodeHash c
          | _, _ => ctx1
        some (Keeper.SetAccount ctx2 obj.Address obj.account)
      else some (Except.ok ctx1)

/-- The loop of `Commit` over the touched addresses. -/
def commitLoop (objs : AMap Address stateObject) :
    List Address → Ctx → Option (Except KeeperError Ctx)
  | [], ctx => some (Except.ok ctx)
  | a :: rest, ctx =>
    match AMap.get objs a with
    | none => commitLoop objs rest ctx
    | some obj =>
      match commitObject ctx obj with
      | none => none
      | some (Except.error e) => some (Except.error e)
      | some (Except.ok ctx1) => commitLoop objs rest ctx1

/-- Modelled from the spec: `Commit()`: for every touched State Object, in a
stable order, flush it to the backing store; returns an error if an
underlying write fails, and the resulting backing store on success. -/
def StateDB.Commit (s : StateDB) : Option (Except KeeperError Ctx) :=
  commitLoop s.stateObjects s.sortedAddresses s.ctx

/-! ## Sequences of mutations, and the relations used to compare caches -/

/-- A call of `SetState`, `SetNonce` or `SetCode` on the State Cache. -/
inductive Mutation where
  | setState (addr : Address) (key value : Hash)
  | setNonce (addr : Address) (nonce : Nat)
  | setCode (addr : Address) (codeHash : Hash) (code : Option Bytes)

/-- The effect of one call on the State Cache. -/
def StateDB.apply (s : StateDB) : Mutation → StateDB
  | Mutation.setState addr key value => s.SetState addr key value
  | Mutation.setNonce addr nonce => s.SetNonce addr nonce
  | Mutation.setCode addr codeHash code => s.SetCode addr codeHash code

/-- The effect of a finite sequence of calls, first call first. -/
def StateDB.applyAll (s : StateDB) (ms : List Mutation) : StateDB :=
  List.foldl StateDB.apply s ms

/-- A call on the State Cache by the interpreter. -/
inductive Call where
  | snapshot
  | revertToSnapshot (id : SnapshotId)
  | mutate (m : Mutation)
  | addRefund (gas : Nat)
  | subRefund (gas : Nat)
  | selfDestruct (addr : Address)

/-- A run of calls on the State Cache, first call first: the resulting cache
and the ids that the `Snapshot()` calls of the run returned, or `none` when a
call panics. -/
def StateDB.run (s : StateDB) : List Call → Option (StateDB × List SnapshotId)
  | [] => some (s, [])
  | Call.snapshot :: rest =>
    match (s.Snapshot).2.run rest with
    | some (t, ids) => some (t, (s.Snapshot).1 :: ids)
    | none => none
  | Call.revertToSnapshot id :: rest =>
    match s.RevertToSnapshot id with
    | some s1 => s1.run rest
    | none => none
  | Call.mutate m :: rest => (s.apply m).run rest
  | Call.addRefund gas :: rest => (s.AddRefund gas).run rest
  | Call.subRefund gas :: rest =>
    match s.SubRefund gas with
    | some s1 => s1.run rest
    | none => none
  | Call.selfDestruct addr :: rest => (s.SelfDestruct addr).run rest

/-- The State Object an address stands for, given the live objects and the
backing store: the live one, else the one loaded from the backing store. -/
def resolveIn (ctx : Ctx) (objs : AMap Address stateObject) (addr : Address) :
    Option stateObject :=
  match AMap.get objs addr with
  | some obj => some obj
  | none =>
    match Keeper.GetAccount ctx addr with
    | none => none
    | some account => some (newObject addr (some account))

/-- The State Object an address stands for in a cache. -/
def StateDB.resolve (s : StateDB) (addr : Address) : Option stateObject :=
  resolveIn s.ctx s.stateObjects addr

/-- Two State Objects that no getter tells apart: they agree on every field
but the caches, and on what `Code`, `GetCommittedState` and `GetState`
return. -/
def ObjEq (ctx : Ctx) (o o' : stateObject) : Prop :=
  o.address = o'.address ∧ o.account = o'.account ∧
  o.originalAccount = o'.originalAccount ∧ o.selfDestructed = o'.selfDestructed ∧
  o.newContract = o'.newContract ∧ o.overrideStorage = o'.overrideStorage ∧
  (o.Code ctx).1 = (o'.Code ctx).1 ∧
  (∀ k, (o.GetCommittedState ctx k).1 = (o'.GetCommittedState ctx k).1) ∧
  (∀ k, (o.GetState ctx k).1 = (o'.GetState ctx k).1)

/-- `ObjEq` lifted to addresses that may have no object. -/
def OptObjEq (ctx : Ctx) : Option stateObject → Option stateObject → Prop
  | none, none => True
  | some o, some o' => ObjEq ctx o o'
  | _, _ => False

/-- Two caches that no getter tells apart (the journals are not compared). -/
def DbEq (s s' : StateDB) : Prop :=
  s.ctx = s'.ctx ∧ s.refund = s'.refund ∧ s.logs = s'.logs ∧
  ∀ a, OptObjEq s.ctx (s.resolve a) (s'.resolve a)

/-- Every live State Object is filed under its own address. -/
def StateDB.WF (s : StateDB) : Prop :=
  ∀ a o, AMap.get s.stateObjects a = some o → o.address = a

/-- The journal records written on behalf of a State Object or of its
creation. -/
def journalEntry.isObjectChange : journalEntry → Prop
  | createObjectChange _ _ => True
  | nonceChange _ _ => True
  | storageChange _ _ _ => True
  | codeChange _ _ _ => True
  | _ => False

/-- A sequence of `SetState` calls on the State Cache, first call first; each
call is (address, key, value). -/
def StateDB.writeAll (s : StateDB) : List (Address × Hash × Hash) → StateDB
  | [] => s
  | w :: rest => (s.SetState w.1 w.2.1 w.2.2).writeAll rest

/-- The last value a sequence of `SetState` calls writes to the slot `k` of
`a`, if it writes to it at all. -/
def lastWrite : List (Address × Hash × Hash) → Address → Hash → Option Hash
  | [], _, _ => none
  | w :: rest, a, k =>
    match lastWrite rest a k with
    | some v => some v
    | none => if w.1 = a ∧ w.2.1 = k then some w.2.2 else none

/-- What holds of a live State Object of address `a` in a cache on the backing
store `ctx` that only `SetState` has touched: it is filed under its address,
has no override and is not self-destructed, its origin cache agrees with the
backing store, and it has an original account only if the backing store has an
account for it. -/
def ObjInv (ctx : Ctx) (a : Address) (o : stateObject) : Prop :=
  o.address = a ∧ o.overrideStorage = none ∧ o.selfDestructed = false ∧
  (∀ k v, AMap.get o.originStorage k = some v → v = Keeper.GetState ctx a k) ∧
  (o.originalAccount ≠ none → (AMap.get ctx.accounts a).isSome = true)

/-- `ObjInv` for every live object of a cache on the backing store `ctx`. -/
def CacheInv (ctx : Ctx) (s : StateDB) : Prop :=
  s.ctx = ctx ∧ ∀ a o, AMap.get s.stateObjects a = some o → ObjInv ctx a o

/-- The cache has a live object for `a` whose current value of slot `k` is
`v`. -/
def SlotIs (ctx : Ctx) (s : StateDB) (a : Address) (k v : Hash) : Prop :=
  ∃ o, AMap.get s.stateObjects a = some o ∧ (o.GetState ctx k).1 = v

/-- The order `bytes.Compare(a, b) <= 0` on hashes, by which `SortedKeys`
sorts. -/
def hashLe (a b : Hash) : Prop := bytesLt b.bytes a.bytes = false

instance : DecidableRel hashLe := fun a b =>
  inferInstanceAs (Decidable (bytesLt b.bytes a.bytes = false))

/-! ## Execution logs -/

/-- Modelled from the spec: `AddLog(log)` (`statedb.go`) is not in the source
tree. It journals an execution-log-append record and records the log with the
transaction index of the execution context and with the next log index, "at
the moment the log is recorded": the starting log index offset plus the number
of logs recorded so far. The other fields are left as passed (`TestLog`
expects no transaction hash or block hash). -/
def StateDB.AddLog (s : StateDB) (log : Log) : StateDB :=
  { s with
    journal := s.journal.append journalEntry.addLogChange
    logs := s.logs ++ [{ log with
      TxIndex := s.txConfig.TxIndex
      Index := s.txConfig.LogIndex + s.logs.length }] }

/-- A sequence of `AddLog` calls, first call first. -/
def StateDB.addLogs (s : StateDB) : List Log → StateDB
  | [] => s
  | l :: rest => (s.AddLog l).addLogs rest

/-- The logs of a list as the claim about `AddLog` describes their recording:
the log at position `i` gets the transaction index `T` and the index
`L + n + i`, where `n` is the position of the first of them. -/
def stampFrom (cfg : TxConfig) (n : Nat) : List Log → List Log
  | [] => []
  | l :: rest =>
    { l with TxIndex := cfg.TxIndex, Index := cfg.LogIndex + n }
      :: stampFrom cfg (n + 1) rest

/-! ## Observing the visitor of `ForEachStorage` -/

/-- A visitor instrumented to record each of its invocations: the key and the
value it is passed and the result it returns. The visitor itself runs
unchanged on its own state. -/
def recordCb {σ : Type} (cb : Hash → Hash → σ → Bool × σ) :
    Hash → Hash → σ × List (Hash × Hash × Bool) → Bool × (σ × List (Hash × Hash × Bool)) :=
  fun key value st =>
    let r := cb key value st.1
    (r.1, (r.2, st.2 ++ [(key, value, r.1)]))

/-- The invocations of the visitor made by `ForEachStorage(a, cb)`, in the
order they are made. -/
def visits {σ : Type} (ctx : Ctx) (addr : Address) (cb : Hash → Hash → σ → Bool × σ)
    (init : σ) : List (Hash × Hash × Bool) :=
  (Keeper.ForEachStorage ctx addr (recordCb cb) (init, [])).2

/-- The visitor that always returns true. -/
def alwaysTrue : Hash → Hash → Unit → Bool × Unit := fun _ _ u => (true, u)

/-- The visitor that always returns false. -/
def alwaysFalse : Hash → Hash → Unit → Bool × Unit := fun _ _ u => (false, u)

/-- The invocations that result from calling a visitor on the slots of a list
in order and stopping immediately after the first invocation that returns
false. -/
def visitList {σ : Type} (cb : Hash → Hash → σ → Bool × σ) :
    List (Hash × Hash) → σ → List (Hash × Hash × Bool)
  | [], _ => []
  | e :: rest, s =>
    (e.1, e.2, (cb e.1 e.2 s).1)
      :: (if (cb e.1 e.2 s).1 then visitList cb rest (cb e.1 e.2 s).2 else [])

/-- The bindings a store holds, as a list. -/
def storeEntries (st : KVStore) : List (Bytes × Bytes) := st

/-- The keys of the storage section of a store have the form that
`Keeper.SetState`, the only writer of that section, gives them: the storage
prefix, a 20-byte address and a 32-byte slot key. -/
def StoreWF (st : KVStore) : Prop :=
  ∀ e ∈ storeEntries st, hasPfx KeyPrefixStorage e.1 = true → e.1.length = 53

instance (st : KVStore) : Decidable (StoreWF st) := by
  unfold StoreWF
  infer_instance

/-- The key and the value `ForEachStorage` makes of a binding of the store
before it calls the visitor. -/
def entryHashes (e : Bytes × Bytes) : Hash × Hash := (BytesToHash e.1, BytesToHash e.2)

/-! ## Sequences of writes to the module store -/

/-- A write to the module store through the keeper. -/
inductive StoreWrite where
  | setState (addr : Address) (key : Hash) (value : Bytes)
  | setCode (codeHash code : Bytes)
deriving DecidableEq

/-- The effect of one write. -/
def StoreWrite.apply (ctx : Ctx) : StoreWrite → Ctx
  | StoreWrite.setState addr key value => Keeper.SetState ctx addr key value
  | StoreWrite.setCode codeHash code => Keeper.SetCode ctx codeHash code

/-- The effect of a sequence of writes, first write first. -/
def applyWrites (ctx : Ctx) (ws : List StoreWrite) : Ctx := ws.foldl StoreWrite.apply ctx

/-! ## `x/evm/keeper/statedb.go`: balances -/

/-- A coin of the SDK: a denomination and an amount. `sdk.NewCoin` panics on a
negative amount, so the amount of a coin is a natural number. -/
structure Coin where
  Denom : String
  Amount : Nat
deriving DecidableEq

/-- The SDK's `sdk.Coins`. -/
abbrev Coins := List Coin

/-- The call `sdk.NewCoins(coin)` with one coin: a coin of amount zero is
dropped. -/
def NewCoins (c : Coin) : Coins := if c.Amount = 0 then [] else [c]

/-- The amount the coins hold of a denomination, zero when they hold none
(`Coins.AmountOf`). -/
def Coins.AmountOf (coins : Coins) (denom : String) : Nat :=
  match coins.find? (fun c => decide (c.Denom = denom)) with
  | some c => c.Amount
  | none => 0

/-- The name under which the EVM module holds its module account
(`types.ModuleName`). -/
def ModuleName : String := "evm"

/-- The bank keeper the EVM keeper is given (the field `bankKeeper`, an
interface of the SDK): each primitive returns the error, if any, and the
ledger state it leaves. -/
structure BankKeeper (ε : Type) where
  SendCoins : Ctx → Address → Address → Coins → Option ε × Ctx
  MintCoins : Ctx → String → Coins → Option ε × Ctx
  SendCoinsFromModuleToAccount : Ctx → String → Address → Coins → Option ε × Ctx
  SendCoinsFromAccountToModule : Ctx → Address → String → Coins → Option ε × Ctx
  BurnCoins : Ctx → String → Coins → Option ε × Ctx

/-- The function `Keeper.Transfer`. -/
def Keeper.Transfer {ε : Type} (bk : BankKeeper ε) (ctx : Ctx) (sender recipient : Address)
    (coins : Coins) : Option ε × Ctx :=
  bk.SendCoins ctx sender recipient coins

/-- The function `Keeper.AddBalance`: mint to the module account, then send
from the module account to the address. -/
def Keeper.AddBalance {ε : Type} (bk : BankKeeper ε) (ctx : Ctx) (addr : Address)
    (coins : Coins) : Option ε × Ctx :=
  match bk.MintCoins ctx ModuleName coins with
  | (some err, ctx1) => (some err, ctx1)
  | (none, ctx1) => bk.SendCoinsFromModuleToAccount ctx1 ModuleName addr coins

/-- The function `Keeper.SubBalance`: send from the address to the module
account, then burn from the module account. -/
def Keeper.SubBalance {ε : Type} (bk : BankKeeper ε) (ctx : Ctx) (addr : Address)
    (coins : Coins) : Option ε × Ctx :=
  match bk.SendCoinsFromAccountToModule ctx addr ModuleName coins with
  | (some err, ctx1) => (some err, ctx1)
  | (none, ctx1) => bk.BurnCoins ctx1 ModuleName coins

/-- Whether a character may follow the first of a denomination. -/
def isDenomChar (c : Char) : Bool :=
  c.isAlphanum || c == '/' || c == ':' || c == '.' || c == '_' || c == '-'

/-- Whether the SDK accepts a denomination (`sdk.ValidateDenom`): a letter
followed by 2 to 127 letters, digits or characters among `/ : . _ -`. -/
def validDenom (denom : String) : Bool :=
  match denom.toList with
  | [] => false
  | c :: rest => c.isAlpha && decide (2 ≤ rest.length) && decide (rest.length ≤ 127)
      && rest.all isDenomChar

/-- The SDK's `sdkmath.NewIntFromBigInt`: an `sdkmath.Int` holds at most 256
bits, and the conversion panics (`none`) on an integer of a greater bit
length. -/
def NewIntFromBigInt (i : Int) : Option Int :=
  if 2 ^ 256 ≤ Int.natAbs i then none else some i

/-- The SDK's `sdk.NewCoin`: it panics (`none`) on a denomination that is not
valid and on a negative amount. -/
def NewCoin (denom : String) (amount : Int) : Option Coin :=
  if validDenom denom = true ∧ 0 ≤ amount then some { Denom := denom, Amount := Int.toNat amount }
  else none

/-- SetBalance reset the account's balance, mainly used by unit tests. The
amounts are arbitrary-precision integers (`big.Int`); the outer `none` is a
panic of `sdkmath.NewIntFromBigInt` or of `sdk.NewCoin`. -/
def Keeper.SetBalance {ε : Type} (bk : BankKeeper ε) (ctx : Ctx) (addr : Address)
    (amount : Int) (evmDenom : String) : Option (Option ε × Ctx) :=
  let cosmosAddr := addr
  let balance : Int := (Keeper.GetBalance ctx cosmosAddr : Nat)
  let delta := amount - balance
  if Int.sign delta = 1 then
    match NewIntFromBigInt delta with
    | none => none
    | some d =>
      match NewCoin evmDenom d with
      | none => none
      | some coin => some (Keeper.AddBalance bk ctx cosmosAddr (NewCoins coin))
  else if Int.sign delta = -1 then
    match NewIntFromBigInt (Int.natAbs delta) with
    | none => none
    | some d =>
      match NewCoin evmDenom d with
      | none => none
      | some coin => some (Keeper.SubBalance bk ctx cosmosAddr (NewCoins coin))
  else
    some (none, ctx)

/-! ## The ledger behind the bank keeper -/

/-- Errors of the ledger. -/
inductive BankError where
  | ErrInsufficientFunds
  | ErrUnknownAddress
deriving DecidableEq

/-- Crediting an account of the ledger. -/
def credit (ctx : Ctx) (a : Address) (n : Nat) : Ctx :=
  { ctx with balances := AMap.set ctx.balances a (Keeper.GetBalance ctx a + n) }

/-- Debiting an account of the ledger: an error, and no change, when the
account holds less than the amount. -/
def debit (ctx : Ctx) (a : Address) (n : Nat) : Option BankError × Ctx :=
  if Keeper.GetBalance ctx a < n then (some BankError.ErrInsufficientFunds, ctx)
  else (none, { ctx with balances := AMap.set ctx.balances a (Keeper.GetBalance ctx a - n) })

/-- Moving an amount between two accounts of the ledger. -/
def move (ctx : Ctx) (sender recipient : Address) (n : Nat) : Option BankError × Ctx :=
  match debit ctx sender n with
  | (some err, ctx1) => (some err, ctx1)
  | (none, ctx1) => (none, credit ctx1 recipient n)

/-- Modelled from the spec: the balance-transfer, mint and burn primitives of
the underlying ledger are an external collaborator, specified at its interface
only: they mint to and burn from the module account and send between
accounts, and "insufficient balance on subtract/transfer" is a recoverable
error propagated to the caller. The ledger of the model tracks the EVM
denomination only; `moduleAddr` is the address of the EVM module account, the
only module account it knows. -/
def sdkBank (moduleAddr : Address) (evmDenom : String) : BankKeeper BankError where
  SendCoins ctx sender recipient coins := move ctx sender recipient (coins.AmountOf evmDenom)
  MintCoins ctx moduleName coins :=
    if moduleName = ModuleName then (none, credit ctx moduleAddr (coins.AmountOf evmDenom))
    else (some BankError.ErrUnknownAddress, ctx)
  SendCoinsFromModuleToAccount ctx moduleName recipient coins :=
    if moduleName = ModuleName then move ctx moduleAddr recipient (coins.AmountOf evmDenom)
    else (some BankError.ErrUnknownAddress, ctx)
  SendCoinsFromAccountToModule ctx sender moduleName coins :=
    if moduleName = ModuleName then move ctx sender moduleAddr (coins.AmountOf evmDenom)
    else (some BankError.ErrUnknownAddress, ctx)
  BurnCoins ctx moduleName coins :=
    if moduleName = ModuleName then debit ctx moduleAddr (coins.AmountOf evmDenom)
    else (some BankError.ErrUnknownAddress, ctx)

/-! ## Decimals and coins of the SDK used by `app/ante/fees.go` -/

/-- The SDK's `sdkmath.LegacyDec` (outside the repository): a fixed-point
decimal with 18 fractional digits, held as its numerator over 10^18. -/
structure LegacyDec where
  i : Int
deriving DecidableEq

/-- The greatest bit length of the numerator of a decimal that the arithmetic
of the SDK accepts (`maxDecBitLen`): the 256 bits of an `sdkmath.Int` and 59
bits for the 18 fractional digits. -/
@[irreducible]
def maxDecBitLen : Nat := 315

/-- The scale 10^18 of a decimal. -/
def precisionReuse : Int := 10 ^ 18

/-- Half of the scale. -/
def fivePrecision : Int := 5 * 10 ^ 17

/-- The rational number a decimal stands for. -/
def LegacyDec.toRat (d : LegacyDec) : ℚ := (d.i : ℚ) / 10 ^ 18

/-- The decimal of an integer (`LegacyNewDecFromBigInt`). -/
def LegacyNewDecFromBigInt (x : Int) : LegacyDec := ⟨x * precisionReuse⟩

/-- Whether a decimal is zero. -/
def LegacyDec.IsZero (d : LegacyDec) : Bool := decide (d.i = 0)

/-- Whether a decimal is less than another. -/
def LegacyDec.LT (a b : LegacyDec) : Bool := decide (a.i < b.i)

/-- Removal of the 18 rightmost digits of a non-negative numerator with
banker's rounding on what is removed. -/
def chopRound (d : Int) : Int :=
  let quo := Int.tdiv d precisionReuse
  let rem := Int.tmod d precisionReuse
  if rem = 0 then quo
  else if rem < fivePrecision then quo
  else if fivePrecision < rem then quo + 1
  else if quo % 2 = 0 then quo
  else quo + 1

/-- The SDK's `chopPrecisionAndRound`: a negative numerator is negated,
chopped and negated back. -/
def chopPrecisionAndRound (d : Int) : Int :=
  if d < 0 then -(chopRound (-d)) else chopRound d

/-- Multiplication of decimals, rounded to 18 digits (`LegacyDec.Mul`). It
panics ("Int overflow", `none`) when the rounded numerator has more than
`maxDecBitLen` bits. -/
def LegacyDec.Mul (a b : LegacyDec) : Option LegacyDec :=
  let chopped := chopPrecisionAndRound (a.i * b.i)
  if 2 ^ maxDecBitLen ≤ Int.natAbs chopped then none else some ⟨chopped⟩

/-- The loop of `Coins.IsAnyGTE` over the coins of `coins`. The call
`coinsB.AmountOf(coin.Denom)` validates the denomination it is asked about and
panics (`none`) on one that is not valid. -/
def isAnyGTELoop (coinsB : Coins) : Coins → Option Bool
  | [] => some false
  | coin :: rest =>
    if validDenom coin.Denom = true then
      let amt := coinsB.AmountOf coin.Denom
      if amt ≤ coin.Amount ∧ ¬ amt = 0 then some true
      else isAnyGTELoop coinsB rest
    else none

/-- The SDK's `Coins.IsAnyGTE`: whether some coin of `coins` holds at least
the amount `coinsB` holds of its denomination, an amount of zero in `coinsB`
not counting; false when `coinsB` has no coin. -/
def Coins.IsAnyGTE (coins coinsB : Coins) : Option Bool :=
  if coinsB.length = 0 then some false
  else isAnyGTELoop coinsB coins

/-! ## `app/ante/fees.go` -/

/-- The message `evmtypes.MsgEthereumTx` (its file is not in the source tree),
given by what its methods `GetGas` and `GetEffectiveFee(baseFee)` return. -/
structure MsgEthereumTx where
  GetGas : Nat
  GetEffectiveFee : Option Int → Int

/-- A message of a transaction: an Ethereum transaction message or a message
of another type. -/
inductive Msg where
  | ethereumTx (m : MsgEthereumTx)
  | other (typeName : String)

/-- What a transaction that implements `sdk.FeeTx` declares. -/
structure FeeTx where
  GetFee : Coins
  GetGas : Nat

/-- A transaction (`sdk.Tx`): its messages, and its fee declaration when it
implements `sdk.FeeTx`. -/
structure Tx where
  GetMsgs : List Msg
  feeTx : Option FeeTx

/-- The errors the fee checks return. -/
inductive AnteError where
  | ErrInvalidType
  | ErrInsufficientFee
  | ErrUnknownRequest
deriving DecidableEq

/-- The loop of `CheckEthMinGasPrice` over the messages; the outer `none` is
a panic of `LegacyDec.Mul`. -/
def checkEthMinGasPriceLoop (minGasPrice : LegacyDec) (baseFee : Option Int) :
    List Msg → Option (Option AnteError)
  | [] => some none
  | Msg.other _ :: _ => some (some AnteError.ErrUnknownRequest)
  | Msg.ethereumTx ethMsg :: rest =>
    let feeAmt := ethMsg.GetEffectiveFee baseFee
    let gasLimit := LegacyNewDecFromBigInt (ethMsg.GetGas : Int)
    match minGasPrice.Mul gasLimit with
    | none => none
    | some requiredFee =>
      let fee := LegacyNewDecFromBigInt feeAmt
      if fee.LT requiredFee then some (some AnteError.ErrInsufficientFee)
      else checkEthMinGasPriceLoop minGasPrice baseFee rest

/-- CheckEthMinGasPrice ensures that the effective fee from the transaction is
at least the minimum global fee, MinGasPrice * GasLimit. The outer `none` is a
panic of `LegacyDec.Mul`. -/
def CheckEthMinGasPrice (tx : Tx) (minGasPrice : LegacyDec) (baseFee : Option Int) :
    Option (Option AnteError) :=
  if minGasPrice.IsZero then some none
  else checkEthMinGasPriceLoop minGasPrice baseFee tx.GetMsgs

/-! ## `x/evm/types/chain_config.go` -/

/-- ChainConfig defines the Ethereum ChainConfig parameters using `*sdkmath.Int`
values: a fork block or fork time that is nil is `none`. -/
structure ChainConfig where
  HomesteadBlock : Option Int
  DAOForkBlock : Option Int
  DAOForkSupport : Bool
  EIP150Block : Option Int
  EIP150Hash : String
  EIP155Block : Option Int
  EIP158Block : Option Int
  ByzantiumBlock : Option Int
  ConstantinopleBlock : Option Int
  PetersburgBlock : Option Int
  IstanbulBlock : Option Int
  MuirGlacierBlock : Option Int
  BerlinBlock : Option Int
  LondonBlock : Option Int
  ArrowGlacierBlock : Option Int
  GrayGlacierBlock : Option Int
  MergeNetsplitBlock : Option Int
  ShanghaiTime : Option Int
  CancunTime : Option Int
  PragueTime : Option Int
deriving DecidableEq

/-- The go-ethereum `params.ChainConfig`, with the fields `EthereumConfig`
fills: fork blocks are `*big.Int`, fork times are `*uint64`. -/
structure params.ChainConfig where
  ChainID : Option Int
  HomesteadBlock : Option Int
  DAOForkBlock : Option Int
  DAOForkSupport : Bool
  EIP150Block : Option Int
  EIP155Block : Option Int
  EIP158Block : Option Int
  ByzantiumBlock : Option Int
  ConstantinopleBlock : Option Int
  PetersburgBlock : Option Int
  IstanbulBlock : Option Int
  MuirGlacierBlock : Option Int
  BerlinBlock : Option Int
  LondonBlock : Option Int
  ArrowGlacierBlock : Option Int
  GrayGlacierBlock : Option Int
  MergeNetsplitBlock : Option Int
  TerminalTotalDifficulty : Option Int
  Ethash : Option Unit
  Clique : Option Unit
  ShanghaiTime : Option Nat
  CancunTime : Option Nat
  PragueTime : Option Nat
deriving DecidableEq

/-- The conversion of a fork block: nil for a nil or negative value. -/
def getBlockValue (block : Option Int) : Option Int :=
  match block with
  | none => none
  | some b => if b < 0 then none else some b

/-- The conversion of a fork time: `Uint64()` of a big integer keeps its low 64
bits. -/
def getTimeValue (time : Option Int) : Option Nat :=
  match time with
  | none => none
  | some t => if t < 0 then none else some (Int.toNat t % 2 ^ 64)

/-- EthereumConfig returns an Ethereum ChainConfig for EVM state transitions.
All the negative or nil values are converted to nil. -/
def ChainConfig.EthereumConfig (cc : ChainConfig) (chainID : Option Int) : params.ChainConfig :=
  { ChainID := chainID
    HomesteadBlock := getBlockValue cc.HomesteadBlock
    DAOForkBlock := getBlockValue cc.DAOForkBlock
    DAOForkSupport := cc.DAOForkSupport
    EIP150Block := getBlockValue cc.EIP150Block
    EIP155Block := getBlockValue cc.EIP155Block
    EIP158Block := getBlockValue cc.EIP158Block
    ByzantiumBlock := getBlockValue cc.ByzantiumBlock
    ConstantinopleBlock := getBlockValue cc.ConstantinopleBlock
    PetersburgBlock := getBlockValue cc.PetersburgBlock
    IstanbulBlock := getBlockValue cc.IstanbulBlock
    MuirGlacierBlock := getBlockValue cc.MuirGlacierBlock
    BerlinBlock := getBlockValue cc.BerlinBlock
    LondonBlock := getBlockValue cc.LondonBlock
    ArrowGlacierBlock := getBlockValue cc.ArrowGlacierBlock
    GrayGlacierBlock := getBlockValue cc.GrayGlacierBlock
    MergeNetsplitBlock := getBlockValue cc.MergeNetsplitBlock
    TerminalTotalDifficulty := none
    Ethash := none
    Clique := none
    ShanghaiTime := getTimeValue cc.ShanghaiTime
    CancunTime := getTimeValue cc.CancunTime
    PragueTime := getTimeValue cc.PragueTime }

/-- The errors of the validation of a chain configuration: the invalid chain
configuration errors, an error of the fork order check, and an error wrapped
with a description (`errorsmod.Wrap`). -/
inductive ConfigError where
  | blockNegative (block : Int)
  | timeNegative (time : Int)
  | blankHash
  | forkOrder (description : String)
  | wrap (err : ConfigError) (description : String)
deriving DecidableEq

/-- Whether a character is white space for Go's `strings.TrimSpace`. -/
def isSpace (c : Char) : Bool :=
  c.toNat ∈ [0x09, 0x0A, 0x0B, 0x0C, 0x0D, 0x20, 0x85, 0xA0, 0x1680, 0x2028, 0x2029, 0x202F,
    0x205F, 0x3000] || (0x2000 ≤ c.toNat && c.toNat ≤ 0x200A)

/-- The check of the EIP150 hash: a hash that is not empty must not be blank. -/
def ValidateHash (hex : String) : Option ConfigError :=
  if hex ≠ "" ∧ hex.toList.all isSpace then some ConfigError.blankHash else none

/-- The check of a fork block: nil value means that the fork has not yet been
applied; a negative value is an error. -/
def ValidateBlock (block : Option Int) : Option ConfigError :=
  match block with
  | none => none
  | some b => if b < 0 then some (ConfigError.blockNegative b) else none

/-- The check of a fork time: nil value means that the fork has not yet been
applied; a negative value is an error. -/
def ValidateTime (time : Option Int) : Option ConfigError :=
  match time with
  | none => none
  | some t => if t < 0 then some (ConfigError.timeNegative t) else none

/-- A fork of go-ethereum's fork order check: its name, its block or its
timestamp, and whether it may be left out. -/
structure fork where
  name : String
  block : Option Int
  timestamp : Option Nat
  optional : Bool
deriving DecidableEq

/-- The forks in the order go-ethereum's `CheckConfigForkOrder` goes through
them. -/
def params.ChainConfig.forks (c : params.ChainConfig) : List fork :=
  [{ name := "homesteadBlock", block := c.HomesteadBlock, timestamp := none, optional := false },
   { name := "daoForkBlock", block := c.DAOForkBlock, timestamp := none, optional := true },
   { name := "eip150Block", block := c.EIP150Block, timestamp := none, optional := false },
   { name := "eip155Block", block := c.EIP155Block, timestamp := none, optional := false },
   { name := "eip158Block", block := c.EIP158Block, timestamp := none, optional := false },
   { name := "byzantiumBlock", block := c.ByzantiumBlock, timestamp := none, optional := false },
   { name := "constantinopleBlock", block := c.ConstantinopleBlock, timestamp := none, optional := false },
   { name := "petersburgBlock", block := c.PetersburgBlock, timestamp := none, optional := false },
   { name := "istanbulBlock", block := c.IstanbulBlock, timestamp := none, optional := false },
   { name := "muirGlacierBlock", block := c.MuirGlacierBlock, timestamp := none, optional := true },
   { name := "berlinBlock", block := c.BerlinBlock, timestamp := none, optional := false },
   { name := "londonBlock", block := c.LondonBlock, timestamp := none, optional := false },
   { name := "arrowGlacierBlock", block := c.ArrowGlacierBlock, timestamp := none, optional := true },
   { name := "grayGlacierBlock", block := c.GrayGlacierBlock, timestamp := none, optional := true },
   { name := "mergeNetsplitBlock", block := c.MergeNetsplitBlock, timestamp := none, optional := true },
   { name := "shanghaiTime", block := none, timestamp := c.ShanghaiTime, optional := false },
   { name := "cancunTime", block := none, timestamp := c.CancunTime, optional := true },
   { name := "pragueTime", block := none, timestamp := c.PragueTime, optional := true }]

/-- One step of go-ethereum's `CheckConfigForkOrder` (outside the repository):
a fork that is not optional must be set when a later fork is, and the blocks
and the timestamps of the forks that are set must not decrease. -/
def checkFork (lastFork cur : fork) : Option String :=
  if lastFork.block = none ∧ lastFork.timestamp = none ∧
      (cur.block ≠ none ∨ cur.timestamp ≠ none) then
    some "unsupported fork ordering: fork not enabled, but a later fork enabled"
  else if (lastFork.block ≠ none ∧ cur.block ≠ none) ∨
      (lastFork.timestamp ≠ none ∧ cur.timestamp ≠ none) then
    if (match lastFork.block, cur.block with
        | some a, some b => decide (b < a)
        | _, _ => false) then
      some "unsupported fork ordering: blocks out of order"
    else if (match lastFork.timestamp, cur.timestamp with
        | some a, some b => decide (b < a)
        | _, _ => false) then
      some "unsupported fork ordering: timestamps out of order"
    else if lastFork.timestamp ≠ none ∧ cur.block ≠ none then
      some "unsupported fork ordering: reverted to block ordering"
    else none
  else none

/-- The loop of `CheckConfigForkOrder`: `lastFork` is the last fork that is
not optional or is set. -/
def forkOrderLoop (lastFork : Option fork) : List fork → Option String
  | [] => none
  | cur :: rest =>
    match (match lastFork with
           | none => none
           | some lf => checkFork lf cur) with
    | some err => some err
    | none =>
      forkOrderLoop
        (if !cur.optional || (cur.block.isSome || cur.timestamp.isSome) then some cur
         else lastFork) rest

/-- go-ethereum's `CheckConfigForkOrder` on the forks `EthereumConfig` fills. -/
def params.ChainConfig.CheckConfigForkOrder (c : params.ChainConfig) : Option String :=
  forkOrderLoop none c.forks

/-- The first error of two checks made one after the other. -/
def orErr (a b : Option ConfigError) : Option ConfigError :=
  match a with
  | some err => some err
  | none => b

/-- The error of a check wrapped with a description, as `errorsmod.Wrap`
does. -/
def wrapErr (a : Option ConfigError) (description : String) : Option ConfigError :=
  match a with
  | some err => some (ConfigError.wrap err description)
  | none => none

/-- Validate performs a basic validation of the ChainConfig params: the checks
are made in the order of the source and the first error is returned. -/
def ChainConfig.Validate (cc : ChainConfig) : Option ConfigError :=
  orErr (wrapErr (ValidateBlock cc.HomesteadBlock) "homesteadBlock") <|
  orErr (wrapErr (ValidateBlock cc.DAOForkBlock) "daoForkBlock") <|
  orErr (wrapErr (ValidateBlock cc.EIP150Block) "eip150Block") <|
  orErr (ValidateHash cc.EIP150Hash) <|
  orErr (wrapErr (ValidateBlock cc.EIP155Block) "eip155Block") <|
  orErr (wrapErr (ValidateBlock cc.EIP158Block) "eip158Block") <|
  orErr (wrapErr (ValidateBlock cc.ByzantiumBlock) "byzantiumBlock") <|
  orErr (wrapErr (ValidateBlock cc.ConstantinopleBlock) "constantinopleBlock") <|
  orErr (wrapErr (ValidateBlock cc.PetersburgBlock) "petersburgBlock") <|
  orErr (wrapErr (ValidateBlock cc.IstanbulBlock) "istanbulBlock") <|
  orErr (wrapErr (ValidateBlock cc.MuirGlacierBlock) "muirGlacierBlock") <|
  orErr (wrapErr (ValidateBlock cc.BerlinBlock) "berlinBlock") <|
  orErr (wrapErr (ValidateBlock cc.LondonBlock) "londonBlock") <|
  orErr (wrapErr (ValidateBlock cc.ArrowGlacierBlock) "arrowGlacierBlock") <|
  orErr (wrapErr (ValidateBlock cc.GrayGlacierBlock) "GrayGlacierBlock") <|
  orErr (wrapErr (ValidateBlock cc.MergeNetsplitBlock) "MergeNetsplitBlock") <|
  orErr (wrapErr (ValidateTime cc.ShanghaiTime) "ShanghaiTime") <|
  orErr (wrapErr (ValidateTime cc.CancunTime) "CancunTime") <|
  orErr (wrapErr (ValidateTime cc.PragueTime) "PragueTime") <|
  wrapErr
    (match (cc.EthereumConfig none).CheckConfigForkOrder with
     | some description => some (ConfigError.forkOrder description)
     | none => none)
    "invalid config fork order"

/-- The fork block values of a chain configuration, HomesteadBlock to
MergeNetsplitBlock. -/
def ChainConfig.forkBlocks (cc : ChainConfig) : List (Option Int) :=
  [cc.HomesteadBlock, cc.DAOForkBlock, cc.EIP150Block, cc.EIP155Block, cc.EIP158Block,
   cc.ByzantiumBlock, cc.ConstantinopleBlock, cc.PetersburgBlock, cc.IstanbulBlock,
   cc.MuirGlacierBlock, cc.BerlinBlock, cc.LondonBlock, cc.ArrowGlacierBlock,
   cc.GrayGlacierBlock, cc.MergeNetsplitBlock]

/-- The fork time values of a chain configuration. -/
def ChainConfig.forkTimes (cc : ChainConfig) : List (Option Int) :=
  [cc.ShanghaiTime, cc.CancunTime, cc.PragueTime]

/-- A fork value of the converted configuration as the claim about
`EthereumConfig` describes it: nil exactly when the source value is nil or
negative. -/
def nilWhenUnset {α : Type} (src : Option Int) (dst : Option α) : Prop :=
  dst = none ↔ (src = none ∨ ∃ x, src = some x ∧ x < 0)

/-- A fork block of the converted configuration as the claim about
`EthereumConfig` describes it: a non-negative source value is converted to the
same integer. -/
def sameBlock (src dst : Option Int) : Prop :=
  ∀ x, src = some x → 0 ≤ x → dst = some x

/-- DefaultChainConfig returns default evm parameters. -/
def DefaultChainConfig : ChainConfig :=
  { HomesteadBlock := some 0
    DAOForkBlock := some 0
    DAOForkSupport := true
    EIP150Block := some 0
    EIP150Hash := "0x0000000000000000000000000000000000000000000000000000000000000000"
    EIP155Block := some 0
    EIP158Block := some 0
    ByzantiumBlock := some 0
    ConstantinopleBlock := some 0
    PetersburgBlock := some 0
    IstanbulBlock := some 0
    MuirGlacierBlock := some 0
    BerlinBlock := some 0
    LondonBlock := some 0
    ArrowGlacierBlock := some 0
    GrayGlacierBlock := some 0
    MergeNetsplitBlock := some 0
    ShanghaiTime := some 0
    CancunTime := none
    PragueTime := none }

/-- The fork values of a chain configuration in the order in which the fork
order check goes through them, each with the flag that tells whether
go-ethereum treats the fork as optional. -/
def ChainConfig.forkValues (cc : ChainConfig) : List (Option Int × Bool) :=
  [(cc.HomesteadBlock, false), (cc.DAOForkBlock, true), (cc.EIP150Block, false),
   (cc.EIP155Block, false), (cc.EIP158Block, false), (cc.ByzantiumBlock, false),
   (cc.ConstantinopleBlock, false), (cc.PetersburgBlock, false), (cc.IstanbulBlock, false),
   (cc.MuirGlacierBlock, true), (cc.BerlinBlock, false), (cc.LondonBlock, false),
   (cc.ArrowGlacierBlock, true), (cc.GrayGlacierBlock, true), (cc.MergeNetsplitBlock, true),
   (cc.ShanghaiTime, false), (cc.CancunTime, true), (cc.PragueTime, true)]

/-- How a fork of the converted configuration relates to the fork value it
comes from: the same flag, unset when the value is nil, set when the value is
not negative. -/
def forkOf (v : Option Int × Bool) (f : fork) : Prop :=
  f.optional = v.2 ∧
  (v.1 = none → f.block = none ∧ f.timestamp = none) ∧
  (∀ x, v.1 = some x → 0 ≤ x → f.block ≠ none ∨ f.timestamp ≠ none)

/-! ## `x/feemarket/keeper/keeper.go`: block gas wanted -/

/-- The key of the block gas wanted in the fee market store
(`types.KeyPrefixBlockGasWanted`, the byte `prefixBlockGasWanted = iota + 1`). -/
def KeyPrefixBlockGasWanted : Bytes := [1]

/-- The byte of a natural number, its remainder modulo 256. -/
def byteOf (n : Nat) : Byte := ⟨n % 256, Nat.mod_lt _ (by decide)⟩

/-- The SDK's `sdk.Uint64ToBigEndian`: the 8 bytes of a 64-bit unsigned
integer, most significant first. -/
def Uint64ToBigEndian (i : Nat) : Bytes :=
  [byteOf (i / 2 ^ 56), byteOf (i / 2 ^ 48), byteOf (i / 2 ^ 40), byteOf (i / 2 ^ 32),
   byteOf (i / 2 ^ 24), byteOf (i / 2 ^ 16), byteOf (i / 2 ^ 8), byteOf i]

/-- The SDK's `sdk.BigEndianToUint64`: zero for no bytes, else the integer of
the first 8 bytes (`binary.BigEndian.Uint64`), which panics on fewer than 8. -/
def BigEndianToUint64 (bz : Bytes) : Option Nat :=
  match bz with
  | [] => some 0
  | b0 :: b1 :: b2 :: b3 :: b4 :: b5 :: b6 :: b7 :: _ =>
    some (b0.val * 2 ^ 56 + b1.val * 2 ^ 48 + b2.val * 2 ^ 40 + b3.val * 2 ^ 32 +
      b4.val * 2 ^ 24 + b5.val * 2 ^ 16 + b6.val * 2 ^ 8 + b7.val)
  | _ => none

/-- SetBlockGasWanted sets the block gas wanted to the store. -/
def feemarket.Keeper.SetBlockGasWanted (store : KVStore) (gas : Nat) : KVStore :=
  let gasBz := Uint64ToBigEndian gas
  AMap.set store KeyPrefixBlockGasWanted gasBz

/-- GetBlockGasWanted returns the last block gas wanted value from the store;
`none` is the panic of the decoding. -/
def feemarket.Keeper.GetBlockGasWanted (store : KVStore) : Option Nat :=
  match AMap.get store KeyPrefixBlockGasWanted with
  | none => some 0
  | some bz => if bz.length = 0 then some 0 else BigEndianToUint64 bz

/-! ## Sequences of operations on a state object -/

/-- The operations of `state_object.go` on a state object other than
`SetStorage`, each with the backing store it runs over. -/
inductive ObjectOp where
  | getCommittedState (ctx : Ctx) (key : Hash)
  | getState (ctx : Ctx) (key : Hash)
  | setState (ctx : Ctx) (key value : Hash)
  | code (ctx : Ctx)
  | codeSize (ctx : Ctx)
  | setCode (ctx : Ctx) (codeHash : Hash) (code : Option Bytes)
  | setNonce (nonce : Nat)
  | markSelfDestructed

/-- The state object an operation leaves. -/
def ObjectOp.apply (s : stateObject) : ObjectOp → stateObject
  | ObjectOp.getCommittedState ctx key => (stateObject.GetCommittedState ctx s key).2
  | ObjectOp.getState ctx key => (stateObject.GetState ctx s key).2
  | ObjectOp.setState ctx key value => (stateObject.SetState ctx [] s key value).1
  | ObjectOp.code ctx => (stateObject.Code ctx s).2
  | ObjectOp.codeSize ctx => (stateObject.CodeSize ctx s).2
  | ObjectOp.setCode ctx codeHash c => (stateObject.SetCode ctx [] s codeHash c).1
  | ObjectOp.setNonce nonce => (stateObject.SetNonce [] s nonce).1
  | ObjectOp.markSelfDestructed => stateObject.markSelfDestructed s

/-- The state object a sequence of operations leaves, first operation first. -/
def applyOps (s : stateObject) (ops : List ObjectOp) : stateObject := ops.foldl ObjectOp.apply s

/-! ## `x/evm/tracers/firehose.go` -/

/-- The value of an integer as a Go `int64` (and `int`), in two's
complement. -/
def toInt64 (x : Int) : Int := (x + 2 ^ 63) % 2 ^ 64 - 2 ^ 63

/-- The call `pbeth.Call` of the Firehose model (its declaration is not in the
source tree), with the fields the call stack and `populateStateReverted` read
and write. -/
structure pbeth.Call where
  Index : Nat
  ParentIndex : Nat
  Depth : Nat
  StatusFailed : Bool
  StateReverted : Bool
deriving DecidableEq

/-- One iteration of the loop of `populateStateReverted`, on the call at
position `i`; `none` is the panic of an index out of range. -/
def populateStep (calls : List pbeth.Call) (i : Nat) : Option (List pbeth.Call) :=
  match calls[i]? with
  | none => none
  | some call =>
    if 0 < call.ParentIndex then
      match calls[call.ParentIndex - 1]? with
      | none => none
      | some parent =>
        some (calls.set i { call with StateReverted := parent.StateReverted || call.StatusFailed })
    else
      some (calls.set i { call with StateReverted := false || call.StatusFailed })

/-- The loop of `populateStateReverted` from position `i` over the `n` calls
that remain. The calls are held by pointer, so a call sees what the loop wrote
to its parent. -/
def populateLoop : List pbeth.Call → Nat → Nat → Option (List pbeth.Call)
  | calls, _, 0 => some calls
  | calls, i, n + 1 =>
    match populateStep calls i with
    | none => none
    | some calls1 => populateLoop calls1 (i + 1) n

/-- The method `Firehose.populateStateReverted` on the calls of the
transaction. -/
def populateStateReverted (calls : List pbeth.Call) : Option (List pbeth.Call) :=
  populateLoop calls 0 calls.length

/-- A call reverts its state, as the claim about `populateStateReverted`
describes it: the call at position `i` has failed itself, or an ancestor of
it, following `ParentIndex` up to the root, has. -/
inductive Reverting (calls : List pbeth.Call) : Nat → Prop where
  | self (i : Nat) (c : pbeth.Call) : calls[i]? = some c → c.StatusFailed = true →
      Reverting calls i
  | parent (i : Nat) (c : pbeth.Call) : calls[i]? = some c → 0 < c.ParentIndex →
      Reverting calls (c.ParentIndex - 1) → Reverting calls i

/-- The call stack of the tracer: `index` is a `uint32`, `depth` an `int`. -/
structure CallStack where
  index : Nat
  stack : List pbeth.Call
  depth : Int
deriving DecidableEq

def NewCallStack : CallStack := { index := 0, stack := [], depth := 0 }

def CallStack.Reset (s : CallStack) : CallStack :=
  { index := 0, stack := s.stack.take 0, depth := 0 }

def CallStack.HasActiveCall (s : CallStack) : Bool := decide (0 < s.stack.length)

/-- Peek returns the top of the stack without removing it, nil on an empty
stack. -/
def CallStack.Peek (s : CallStack) : Option pbeth.Call := s.stack.getLast?

/-- Push a call onto the stack. The `Index` and `ParentIndex` of this call are
assigned by this method. -/
def CallStack.Push (s : CallStack) (call : pbeth.Call) : CallStack :=
  let index := (s.index + 1) % 2 ^ 32
  let call1 := { call with Index := index, Depth := Int.toNat (s.depth % 2 ^ 32) }
  let depth := toInt64 (s.depth + 1)
  let call2 := match s.Peek with
    | some parent => { call1 with ParentIndex := parent.Index }
    | none => call1
  { index := index, stack := s.stack ++ [call2], depth := depth }

def CallStack.ActiveIndex (s : CallStack) : Nat :=
  match s.stack.getLast? with
  | none => 0
  | some c => c.Index

def CallStack.NextIndex (s : CallStack) : Nat := (s.index + 1) % 2 ^ 32

/-- Pop removes and returns the top of the stack; `none` is the panic "pop
from empty call stack". -/
def CallStack.Pop (s : CallStack) : Option (pbeth.Call × CallStack) :=
  match s.stack.getLast? with
  | none => none
  | some out => some (out, { s with stack := s.stack.dropLast, depth := toInt64 (s.depth - 1) })

/-- An operation on the call stack. -/
inductive StackOp where
  | push (call : pbeth.Call)
  | pop
deriving DecidableEq

/-- The call stack after a sequence of operations, first operation first;
`none` when a `Pop` panics. -/
def CallStack.run (s : CallStack) : List StackOp → Option CallStack
  | [] => some s
  | StackOp.push call :: rest => CallStack.run (s.Push call) rest
  | StackOp.pop :: rest =>
    match s.Pop with
    | none => none
    | some r => CallStack.run r.2 rest

/-- The number of pushes in a sequence of operations. -/
def pushes : List StackOp → Nat
  | [] => 0
  | StackOp.push _ :: rest => pushes rest + 1
  | StackOp.pop :: rest => pushes rest

/-- A push of a call followed by a pop. -/
def pushPop (call : pbeth.Call) (s : CallStack) : CallStack :=
  match (s.Push call).Pop with
  | some r => r.2
  | none => s

/-- The type `Memory` of the tracer, a byte slice. -/
abbrev Memory := Bytes

/-- The built-in `make([]byte, n)`: a slice of `n` zero bytes. The runtime
panics ("makeslice: len out of range") on a negative length and on a length
beyond `maxAlloc`, the largest number of bytes it allocates. -/
def makeBytes (maxAlloc : Nat) (n : Int) : Option Bytes :=
  if n < 0 ∨ (maxAlloc : Int) < n then none
  else some (List.replicate (Int.toNat n) 0)

/-- The built-in `append(a, b...)` on byte slices. The runtime panics
("growslice: len out of range") when the result is longer than `maxAlloc`
bytes: no slice has the capacity for it. -/
def appendBytes (maxAlloc : Nat) (a b : Bytes) : Option Bytes :=
  if maxAlloc < a.length + b.length then none else some (a ++ b)

/-- The method `Memory.GetPtr` with `int64` arguments, on a runtime that
allocates at most `maxAlloc` bytes: the outer `none` is a panic (a slice bound
out of range, a negative length, a length out of range), the inner `none` the
nil slice. -/
def Memory.GetPtr (maxAlloc : Nat) (m : Memory) (offset size : Int) : Option (Option Bytes) :=
  if size = 0 then some none
  else if 0 ≤ offset ∧ 0 ≤ size ∧ toInt64 (offset + size) ≤ (m.length : Int) then
    if offset ≤ toInt64 (offset + size) then
      some (some ((m.drop (Int.toNat offset)).take (Int.toNat (toInt64 (offset + size) - offset))))
    else none
  else if (m.length : Int) ≤ offset then
    match makeBytes maxAlloc size with
    | none => none
    | some zeros => some (some zeros)
  else if offset < 0 then none
  else
    let reminder := m.drop (Int.toNat offset)
    match makeBytes maxAlloc (size - (reminder.length : Int)) with
    | none => none
    | some zeros =>
      match appendBytes maxAlloc reminder zeros with
      | none => none
      | some out => some (some out)

/-- The method `Memory.GetPtrUint256`: the low 64 bits of the 256-bit offset
and size, read as `int64`. -/
def Memory.GetPtrUint256 (maxAlloc : Nat) (m : Memory) (offset size : Nat) :
    Option (Option Bytes) :=
  Memory.GetPtr maxAlloc m (toInt64 (offset % 2 ^ 64)) (toInt64 (size % 2 ^ 64))

/-! ## Sample data for the concrete instances -/

/-- The address 101 of the tests. -/
def sampleAddress : Address := BytesToAddress [101]

/-- The address 102 of the tests. -/
def sampleAddress2 : Address := BytesToAddress [102]

/-- The hash `common.BigToHash(big.NewInt(1))`. -/
def hash1 : Hash := BytesToHash [1]

/-- The hash `common.BigToHash(big.NewInt(2))`. -/
def hash2 : Hash := BytesToHash [2]

/-- The hash `common.BigToHash(big.NewInt(3))`. -/
def hash3 : Hash := BytesToHash [3]

/-- An empty backing store. -/
def emptyCtx : Ctx := { store := AMap.empty, accounts := AMap.empty, balances := AMap.empty }

/-- The transaction configuration `NewEmptyTxConfig`. -/
def emptyTxConfig : TxConfig :=
  { BlockHash := zeroHash, TxHash := zeroHash, TxIndex := 0, LogIndex := 0 }

/-- A state object of address 101 whose dirty storage holds 1 at slot 1, over
a committed value that is the zero hash. -/
def dirtyObject : stateObject :=
  { newObject sampleAddress none with dirtyStorage := AMap.set AMap.empty hash1 hash1 }

/-- The code hash under which the sample contract code is stored. -/
def sampleCodeHash : Hash := BytesToHash [0xaa]

/-- A backing store holding the contract account 101 (nonce 1) with code
`[1, 2, 3]`, the value 2 at slot 1 and a balance of 100, and a storage slot of
account 102. -/
def contractCtx : Ctx :=
  { store :=
      [(KeyPrefixCode ++ sampleCodeHash.bytes, [1, 2, 3]),
       (AddressStoragePrefix sampleAddress ++ hash1.bytes, hash2.bytes),
       (AddressStoragePrefix sampleAddress2 ++ hash1.bytes, hash3.bytes)]
    accounts := [(sampleAddress, { isEth := true, sequence := 1, codeHash := sampleCodeHash })]
    balances := [(sampleAddress, 100)] }

/-- A storage map holding the keys 2 and 1, inserted in that order. -/
def sampleStorage : Storage := AMap.set (AMap.set AMap.empty hash2 hash3) hash1 hash3

/-- The log of `TestLog` before it is recorded. -/
def sampleLog : Log :=
  { Address := sampleAddress, Topics := [], Data := [104, 105], BlockNumber := 1,
    TxHash := zeroHash, TxIndex := 0, BlockHash := zeroHash, Index := 0 }

/-- The transaction configuration of `TestLog`: transaction index 1 and log
index offset 1. -/
def testLogTxConfig : TxConfig :=
  { BlockHash := zeroHash, TxHash := zeroHash, TxIndex := 1, LogIndex := 1 }

/-- A backing store written through `Keeper.SetState`: account 101 holds 3 at
slot 2 and 2 at slot 1, written in that order, and account 102 holds 1 at
slot 3. -/
def twoSlotCtx : Ctx :=
  Keeper.SetState
    (Keeper.SetState
      (Keeper.SetState emptyCtx sampleAddress hash2 hash3.bytes)
      sampleAddress2 hash3 hash1.bytes)
    sampleAddress hash1 hash2.bytes

/-- The minimum gas price 0.5. -/
def halfPrice : LegacyDec := ⟨5 * 10 ^ 17⟩

/-- A transaction of one Ethereum message with gas limit 10 and effective
fee 5, whatever the base fee. -/
def sampleEthTx : Tx :=
  { GetMsgs := [Msg.ethereumTx { GetGas := 10, GetEffectiveFee := fun _ => 5 }]
    feeTx := none }

/-- The minimum gas price 2^200. -/
def hugePrice : LegacyDec := ⟨2 ^ 200 * 10 ^ 18⟩

/-- A transaction of gas limit 2^60 that pays 5 `aevm`, with one Ethereum
message of gas limit 2^60 and effective fee 0, whatever the base fee. -/
def hugeGasTx : Tx :=
  { GetMsgs := [Msg.ethereumTx { GetGas := 2 ^ 60, GetEffectiveFee := fun _ => 0 }]
    feeTx := some { GetFee := [{ Denom := "aevm", Amount := 5 }], GetGas := 2 ^ 60 } }

/-- The chain configuration whose fork values are all nil (`ChainConfig{}`). -/
def nilChainConfig : ChainConfig :=
  { HomesteadBlock := none
    DAOForkBlock := none
    DAOForkSupport := false
    EIP150Block := none
    EIP150Hash := ""
    EIP155Block := none
    EIP158Block := none
    ByzantiumBlock := none
    ConstantinopleBlock := none
    PetersburgBlock := none
    IstanbulBlock := none
    MuirGlacierBlock := none
    BerlinBlock := none
    LondonBlock := none
    ArrowGlacierBlock := none
    GrayGlacierBlock := none
    MergeNetsplitBlock := none
    ShanghaiTime := none
    CancunTime := none
    PragueTime := none }

/-- Four calls in execution order: a root, its failed child, the child of that
child, and a second child of the root. -/
def sampleCalls : List pbeth.Call :=
  [{ Index := 1, ParentIndex := 0, Depth := 0, StatusFailed := false, StateReverted := false },
   { Index := 2, ParentIndex := 1, Depth := 1, StatusFailed := true, StateReverted := false },
   { Index := 3, ParentIndex := 2, Depth := 2, StatusFailed := false, StateReverted := false },
   { Index := 4, ParentIndex := 1, Depth := 1, StatusFailed := false, StateReverted := true }]

/-- A call as it is passed to `Push`, with no parent index. -/
def rootCall : pbeth.Call :=
  { Index := 0, ParentIndex := 0, Depth := 0, StatusFailed := false, StateReverted := false }

/-- A backing store in which address 101 holds an account that is not an
Ethereum account, and a storage slot. -/
def plainAccountCtx : Ctx :=
  { store := [(AddressStoragePrefix sampleAddress ++ hash1.bytes, hash2.bytes)]
    accounts := [(sampleAddress, { isEth := false, sequence := 0, codeHash := zeroHash })]
    balances := [] }

/-- The allocation limit of the Go runtime on 64-bit platforms
(`runtime.maxAlloc`): 2^48 bytes. -/
def maxAlloc64 : Nat := 2 ^ 48

/-! ## Association lists -/

theorem AMap.get_set {κ ν : Type} [DecidableEq κ] (m : AMap κ ν) (k k' : κ) (v : ν) :
    AMap.get (AMap.set m k v) k' = if k = k' then some v else AMap.get m k' := by
  induction m with
  | nil => simp [AMap.set, AMap.get]
  | cons hd tl ih =>
    obtain ⟨k0, v0⟩ := hd
    simp only [AMap.set]
    by_cases h0 : k0 = k
    · subst h0
      simp only [if_true, AMap.get]
      by_cases h : k0 = k' <;> simp [h]
    · simp only [h0, if_false, AMap.get, ih]
      by_cases h1 : k0 = k'
      · subst h1
        simp [Ne.symm h0]
      · simp [h1]

theorem AMap.get_erase {κ ν : Type} [DecidableEq κ] (m : AMap κ ν) (k k' : κ) :
    AMap.get (AMap.erase m k) k' = if k = k' then none else AMap.get m k' := by
  induction m with
  | nil => simp [AMap.erase, AMap.get]
  | cons hd tl ih =>
    obtain ⟨k0, v0⟩ := hd
    simp only [AMap.erase]
    by_cases h0 : k0 = k
    · subst h0
      simp only [if_true, AMap.get, ih]
      by_cases h : k0 = k'
      · simp [h]
      · simp [h]
    · simp only [h0, if_false, AMap.get, ih]
      by_cases h1 : k0 = k'
      · subst h1
        simp [Ne.symm h0]
      · simp [h1]
theorem AMap.get_set_same {κ ν : Type} [DecidableEq κ] (m : AMap κ ν) (k : κ) (v : ν) :
    AMap.get (AMap.set m k v) k = some v := by
  simp [AMap.get_set]

theorem AMap.get_set_other {κ ν : Type} [DecidableEq κ] (m : AMap κ ν) (k k' : κ) (v : ν)
    (h : k ≠ k') : AMap.get (AMap.set m k v) k' = AMap.get m k' := by
  simp [AMap.get_set, h]

/-! ## State objects: reads and writes of storage -/

theorem GetCommittedState_address (ctx : Ctx) (s : stateObject) (k : Hash) :
    (s.GetCommittedState ctx k).2.address = s.address := by
  unfold stateObject.GetCommittedState
  split
  · split <;> rfl
  · split <;> rfl

theorem GetCommittedState_dirtyStorage (ctx : Ctx) (s : stateObject) (k : Hash) :
    (s.GetCommittedState ctx k).2.dirtyStorage = s.dirtyStorage := by
  unfold stateObject.GetCommittedState
  split
  · split <;> rfl
  · split <;> rfl

theorem GetState_address (ctx : Ctx) (s : stateObject) (k : Hash) :
    (s.GetState ctx k).2.address = s.address := by
  unfold stateObject.GetState
  split
  · rfl
  · exact GetCommittedState_address ctx s k

theorem GetState_dirtyStorage (ctx : Ctx) (s : stateObject) (k : Hash) :
    (s.GetState ctx k).2.dirtyStorage = s.dirtyStorage := by
  unfold stateObject.GetState
  split
  · rfl
  · exact GetCommittedState_dirtyStorage ctx s k

theorem GetState_of_dirty (ctx : Ctx) (s : stateObject) (k v : Hash)
    (h : AMap.get s.dirtyStorage k = some v) : s.GetState ctx k = (v, s) := by
  simp [stateObject.GetState, h]

theorem GetState_of_clean (ctx : Ctx) (s : stateObject) (k : Hash)
    (h : AMap.get s.dirtyStorage k = none) :
    s.GetState ctx k = s.GetCommittedState ctx k := by
  simp [stateObject.GetState, h]

theorem GetCommittedState_stable (ctx : Ctx) (s : stateObject) (k k' : Hash) :
    ((s.GetCommittedState ctx k).2.GetCommittedState ctx k').1
      = (s.GetCommittedState ctx k').1 := by
  unfold stateObject.GetCommittedState
  cases hov : s.overrideStorage with
  | some ov =>
    simp only []
    cases AMap.get ov k <;> simp only [hov]
  | none =>
    simp only []
    cases ho : AMap.get s.originStorage k with
    | some value => simp only [hov]
    | none =>
      simp only [hov, AMap.get_set, stateObject.Address]
      by_cases hk : k = k'
      · subst hk
        simp only [if_true, ho]
      · simp only [if_neg hk]
        cases AMap.get s.originStorage k' <;> rfl

theorem GetState_stable (ctx : Ctx) (s : stateObject) (k k' : Hash) :
    ((s.GetState ctx k).2.GetState ctx k').1 = (s.GetState ctx k').1 := by
  unfold stateObject.GetState
  cases hd : AMap.get s.dirtyStorage k with
  | some v => simp only []
  | none =>
    simp only [GetCommittedState_dirtyStorage]
    cases AMap.get s.dirtyStorage k' with
    | some v => simp only []
    | none => exact GetCommittedState_stable ctx s k k'

theorem GetState_setState_same (ctx : Ctx) (s : stateObject) (k v : Hash) :
    ((s.setState k v).GetState ctx k).1 = v := by
  simp [stateObject.GetState, stateObject.setState, AMap.get_set_same]

/-- C3: a dirty entry for `k` is what `GetState(k)` returns, whatever the
override, the origin cache and the backing store hold; without a dirty entry
`GetState(k)` returns exactly what `GetCommittedState(k)` returns. -/
theorem C3_GetState_dirty_first (ctx : Ctx) (s : stateObject) (k : Hash) :
    (∀ v, AMap.get s.dirtyStorage k = some v → (s.GetState ctx k).1 = v) ∧
    (AMap.get s.dirtyStorage k = none → s.GetState ctx k = s.GetCommittedState ctx k) := by
  constructor
  · intro v h
    rw [GetState_of_dirty ctx s k v h]
  · exact GetState_of_clean ctx s k

theorem C3_GetState_dirty_first_witness :
    (∀ v, AMap.get dirtyObject.dirtyStorage hash1 = some v →
      (dirtyObject.GetState emptyCtx hash1).1 = v) ∧
    (AMap.get dirtyObject.dirtyStorage hash2 = none →
      dirtyObject.GetState emptyCtx hash2 = dirtyObject.GetCommittedState emptyCtx hash2) :=
  ⟨(C3_GetState_dirty_first emptyCtx dirtyObject hash1).1,
   (C3_GetState_dirty_first emptyCtx dirtyObject hash2).2⟩

/-- C4: when `GetState(k)` returns `p` and `p ≠ v`, `SetState(k, v)` appends
exactly one storage-change record, for the object's address, the key `k` and
the previous value `p`, and afterwards `GetState(k)` returns `v`. -/
theorem C4_SetState_journals_change (ctx : Ctx) (j : journal) (s : stateObject) (k v p : Hash)
    (hp : (s.GetState ctx k).1 = p) (hne : p ≠ v) :
    (s.SetState ctx j k v).2 = j ++ [journalEntry.storageChange s.address k p] ∧
    ((s.SetState ctx j k v).1.GetState ctx k).1 = v := by
  subst hp
  constructor
  · simp only [stateObject.SetState, if_neg hne, journal.append, GetState_address]
  · simp only [stateObject.SetState, if_neg hne]
    exact GetState_setState_same ctx _ k v

theorem C4_SetState_journals_change_witness :
    ((newObject sampleAddress none).SetState emptyCtx [] hash1 hash2).2
      = [] ++ [journalEntry.storageChange (newObject sampleAddress none).address hash1 zeroHash] ∧
    ((((newObject sampleAddress none).SetState emptyCtx [] hash1 hash2).1).GetState
      emptyCtx hash1).1 = hash2 :=
  C4_SetState_journals_change emptyCtx [] (newObject sampleAddress none) hash1 hash2 zeroHash
    (by decide) (by decide)

/-- C5: when `GetState(k)` already returns `v` (the zero hash of a
never-written slot included), `SetState(k, v)` appends no journal record and
leaves `dirtyStorage` unchanged. -/
theorem C5_SetState_same_value_noop (ctx : Ctx) (j : journal) (s : stateObject) (k v : Hash)
    (h : (s.GetState ctx k).1 = v) :
    (s.SetState ctx j k v).2 = j ∧ (s.SetState ctx j k v).1.dirtyStorage = s.dirtyStorage := by
  simp only [stateObject.SetState, h, if_true, GetState_dirtyStorage, and_self]

theorem C5_SetState_same_value_noop_witness :
    ((newObject sampleAddress none).SetState emptyCtx [] hash1 zeroHash).2 = [] ∧
    ((newObject sampleAddress none).SetState emptyCtx [] hash1 zeroHash).1.dirtyStorage
      = (newObject sampleAddress none).dirtyStorage :=
  C5_SetState_same_value_noop emptyCtx [] (newObject sampleAddress none) hash1 zeroHash
    (by decide)

/-- C6, as stated, fails: the object `dirtyObject` holds the dirty value 1 at
slot 1 over the committed value zero, so 1 differs from the committed value,
yet two consecutive `SetState(1, 1)` append no journal record at all. -/
theorem C6_counterexample :
    (dirtyObject.GetCommittedState emptyCtx hash1).1 ≠ hash1 ∧
    (((dirtyObject.SetState emptyCtx [] hash1 hash1).1.SetState emptyCtx
      (dirtyObject.SetState emptyCtx [] hash1 hash1).2 hash1 hash1).2).length = 0 := by
  decide

/-- C6, amended: two consecutive calls `SetState(k, v); SetState(k, v)` append
in total exactly one journal record when `v` differs from the current value
`GetState(k)` before the calls, and none when `v` equals it; the current
value is the committed value when `dirtyStorage` has no entry for `k`. -/
theorem C6_SetState_twice (ctx : Ctx) (j : journal) (s : stateObject) (k v : Hash) :
    ((s.SetState ctx j k v).1.SetState ctx (s.SetState ctx j k v).2 k v).2
      = (if (s.GetState ctx k).1 = v then j
         else j ++ [journalEntry.storageChange s.address k (s.GetState ctx k).1]) ∧
    (AMap.get s.dirtyStorage k = none →
      (s.GetState ctx k).1 = (s.GetCommittedState ctx k).1) := by
  constructor
  · by_cases h : (s.GetState ctx k).1 = v
    · have h2 : ((s.GetState ctx k).2.GetState ctx k).1 = v := by
        rw [GetState_stable]; exact h
      simp only [stateObject.SetState, if_pos h, if_pos h2]
    · have h2 : (((s.GetState ctx k).2.setState k v).GetState ctx k).1 = v :=
        GetState_setState_same ctx _ k v
      simp only [stateObject.SetState, if_neg h, if_pos h2, journal.append, GetState_address]
  · intro h
    rw [GetState_of_clean ctx s k h]

theorem C6_SetState_twice_witness :
    ((dirtyObject.SetState emptyCtx [] hash1 hash2).1.SetState emptyCtx
        (dirtyObject.SetState emptyCtx [] hash1 hash2).2 hash1 hash2).2
      = (if (dirtyObject.GetState emptyCtx hash1).1 = hash2 then []
         else [] ++ [journalEntry.storageChange dirtyObject.address hash1
           (dirtyObject.GetState emptyCtx hash1).1]) ∧
    (AMap.get dirtyObject.dirtyStorage hash1 = none →
      (dirtyObject.GetState emptyCtx hash1).1
        = (dirtyObject.GetCommittedState emptyCtx hash1).1) :=
  C6_SetState_twice emptyCtx [] dirtyObject hash1 hash2

/-! ## The object an address stands for -/

theorem resolveIn_set (ctx : Ctx) (objs : AMap Address stateObject) (a b : Address)
    (o : stateObject) :
    resolveIn ctx (AMap.set objs a o) b = if a = b then some o else resolveIn ctx objs b := by
  unfold resolveIn
  rw [AMap.get_set]
  by_cases h : a = b <;> simp [h]

theorem resolveIn_erase (ctx : Ctx) (objs : AMap Address stateObject) (a b : Address) :
    resolveIn ctx (AMap.erase objs a) b
      = if a = b then resolveIn ctx AMap.empty a else resolveIn ctx objs b := by
  unfold resolveIn
  rw [AMap.get_erase]
  by_cases h : a = b
  · subst h
    simp [AMap.get, AMap.empty]
  · simp [h]

theorem getStateObject_fst (s : StateDB) (a : Address) :
    (s.getStateObject a).1 = s.resolve a := by
  unfold StateDB.getStateObject StateDB.resolve resolveIn
  cases AMap.get s.stateObjects a with
  | some o => rfl
  | none => cases Keeper.GetAccount s.ctx a <;> rfl

theorem getStateObject_ctx (s : StateDB) (a : Address) : (s.getStateObject a).2.ctx = s.ctx := by
  unfold StateDB.getStateObject
  cases AMap.get s.stateObjects a with
  | some o => rfl
  | none => cases Keeper.GetAccount s.ctx a <;> rfl

theorem getStateObject_journal (s : StateDB) (a : Address) :
    (s.getStateObject a).2.journal = s.journal := by
  unfold StateDB.getStateObject
  cases AMap.get s.stateObjects a with
  | some o => rfl
  | none => cases Keeper.GetAccount s.ctx a <;> rfl

theorem getStateObject_refund (s : StateDB) (a : Address) :
    (s.getStateObject a).2.refund = s.refund := by
  unfold StateDB.getStateObject
  cases AMap.get s.stateObjects a with
  | some o => rfl
  | none => cases Keeper.GetAccount s.ctx a <;> rfl

theorem getStateObject_logs (s : StateDB) (a : Address) :
    (s.getStateObject a).2.logs = s.logs := by
  unfold StateDB.getStateObject
  cases AMap.get s.stateObjects a with
  | some o => rfl
  | none => cases Keeper.GetAccount s.ctx a <;> rfl

theorem getStateObject_resolve (s : StateDB) (a b : Address) :
    (s.getStateObject a).2.resolve b = s.resolve b := by
  unfold StateDB.getStateObject StateDB.resolve
  cases h : AMap.get s.stateObjects a with
  | some o => rfl
  | none =>
    cases hk : Keeper.GetAccount s.ctx a with
    | none => rfl
    | some acct =>
      simp only [resolveIn_set]
      by_cases hab : a = b
      · subst hab
        simp [resolveIn, h, hk]
      · simp [hab]

theorem getStateObject_live (s : StateDB) (a : Address) (o : stateObject)
    (h : s.resolve a = some o) : AMap.get (s.getStateObject a).2.stateObjects a = some o := by
  unfold StateDB.resolve resolveIn at h
  unfold StateDB.getStateObject
  cases hg : AMap.get s.stateObjects a with
  | some o1 =>
    rw [hg] at h
    simpa [hg] using h
  | none =>
    rw [hg] at h
    cases hk : Keeper.GetAccount s.ctx a with
    | none => rw [hk] at h; cases h
    | some acct =>
      rw [hk] at h
      simp only [AMap.get_set_same]
      exact h

theorem resolve_address (s : StateDB) (hwf : s.WF) (a : Address) (o : stateObject)
    (h : s.resolve a = some o) : o.address = a := by
  unfold StateDB.resolve resolveIn at h
  cases hg : AMap.get s.stateObjects a with
  | some o1 =>
    rw [hg] at h
    cases h
    exact hwf a _ hg
  | none =>
    rw [hg] at h
    cases hk : Keeper.GetAccount s.ctx a with
    | none => rw [hk] at h; cases h
    | some acct =>
      rw [hk] at h
      cases h
      rfl

theorem getStateObject_WF (s : StateDB) (hwf : s.WF) (a : Address) :
    (s.getStateObject a).2.WF := by
  unfold StateDB.getStateObject
  cases hg : AMap.get s.stateObjects a with
  | some o1 => exact hwf
  | none =>
    cases hk : Keeper.GetAccount s.ctx a with
    | none => exact hwf
    | some acct =>
      intro b o hb
      simp only [AMap.get_set] at hb
      by_cases hab : a = b
      · subst hab
        simp only [if_true] at hb
        cases hb
        rfl
      · simp only [if_neg hab] at hb
        exact hwf b o hb

theorem getStateObject_eq (s : StateDB) (a : Address) :
    s.getStateObject a = (s.resolve a, (s.getStateObject a).2) := by
  rw [← getStateObject_fst]

/-! ## What the getters return, in terms of the object an address stands for -/

theorem StateDB.GetState_fst (s : StateDB) (a : Address) (k : Hash) :
    (s.GetState a k).1 = match s.resolve a with
      | some o => (o.GetState s.ctx k).1
      | none => zeroHash := by
  unfold StateDB.GetState
  rw [getStateObject_eq]
  cases s.resolve a with
  | some o => simp only [getStateObject_ctx]
  | none => rfl

theorem StateDB.GetCommittedState_fst (s : StateDB) (a : Address) (k : Hash) :
    (s.GetCommittedState a k).1 = match s.resolve a with
      | some o => (o.GetCommittedState s.ctx k).1
      | none => zeroHash := by
  unfold StateDB.GetCommittedState
  rw [getStateObject_eq]
  cases s.resolve a with
  | some o => simp only [getStateObject_ctx]
  | none => rfl

theorem StateDB.GetNonce_fst (s : StateDB) (a : Address) :
    (s.GetNonce a).1 = match s.resolve a with
      | some o => o.account.Nonce
      | none => 0 := by
  unfold StateDB.GetNonce
  rw [getStateObject_eq]
  cases s.resolve a with
  | some o => rfl
  | none => rfl

theorem StateDB.GetCode_fst (s : StateDB) (a : Address) :
    (s.GetCode a).1 = match s.resolve a with
      | some o => (o.Code s.ctx).1
      | none => none := by
  unfold StateDB.GetCode
  rw [getStateObject_eq]
  cases s.resolve a with
  | some o => simp only [getStateObject_ctx]
  | none => rfl

theorem StateDB.GetCodeHash_fst (s : StateDB) (a : Address) :
    (s.GetCodeHash a).1 = match s.resolve a with
      | some o => BytesToHash o.account.CodeHash
      | none => zeroHash := by
  unfold StateDB.GetCodeHash
  rw [getStateObject_eq]
  cases s.resolve a with
  | some o => rfl
  | none => rfl

/-! ## Caches that no getter tells apart -/

theorem ObjEq_refl (ctx : Ctx) (o : stateObject) : ObjEq ctx o o :=
  ⟨rfl, rfl, rfl, rfl, rfl, rfl, rfl, fun _ => rfl, fun _ => rfl⟩

theorem ObjEq_symm {ctx : Ctx} {o o' : stateObject} (h : ObjEq ctx o o') : ObjEq ctx o' o := by
  obtain ⟨h1, h2, h3, h4, h5, h6, h7, h8, h9⟩ := h
  exact ⟨h1.symm, h2.symm, h3.symm, h4.symm, h5.symm, h6.symm, h7.symm,
    fun k => (h8 k).symm, fun k => (h9 k).symm⟩

theorem ObjEq_trans {ctx : Ctx} {o o' o'' : stateObject} (h : ObjEq ctx o o')
    (h' : ObjEq ctx o' o'') : ObjEq ctx o o'' := by
  obtain ⟨h1, h2, h3, h4, h5, h6, h7, h8, h9⟩ := h
  obtain ⟨g1, g2, g3, g4, g5, g6, g7, g8, g9⟩ := h'
  exact ⟨h1.trans g1, h2.trans g2, h3.trans g3, h4.trans g4, h5.trans g5, h6.trans g6,
    h7.trans g7, fun k => (h8 k).trans (g8 k), fun k => (h9 k).trans (g9 k)⟩

theorem OptObjEq_refl (ctx : Ctx) (o : Option stateObject) : OptObjEq ctx o o := by
  cases o with
  | none => trivial
  | some o => exact ObjEq_refl ctx o

theorem OptObjEq_symm {ctx : Ctx} {o o' : Option stateObject} (h : OptObjEq ctx o o') :
    OptObjEq ctx o' o := by
  cases o <;> cases o' <;> first | trivial | exact h.elim | exact ObjEq_symm h

theorem OptObjEq_trans {ctx : Ctx} {o o' o'' : Option stateObject} (h : OptObjEq ctx o o')
    (h' : OptObjEq ctx o' o'') : OptObjEq ctx o o'' := by
  cases o <;> cases o' <;> cases o'' <;>
    first | trivial | exact h.elim | exact h'.elim | exact ObjEq_trans h h'

theorem DbEq_refl (s : StateDB) : DbEq s s :=
  ⟨rfl, rfl, rfl, fun _ => OptObjEq_refl _ _⟩

theorem DbEq_symm {s s' : StateDB} (h : DbEq s s') : DbEq s' s := by
  obtain ⟨h1, h2, h3, h4⟩ := h
  refine ⟨h1.symm, h2.symm, h3.symm, fun a => ?_⟩
  rw [← h1]
  exact OptObjEq_symm (h4 a)

theorem DbEq_trans {s s' s'' : StateDB} (h : DbEq s s') (h' : DbEq s' s'') : DbEq s s'' := by
  obtain ⟨h1, h2, h3, h4⟩ := h
  obtain ⟨g1, g2, g3, g4⟩ := h'
  refine ⟨h1.trans g1, h2.trans g2, h3.trans g3, fun a => ?_⟩
  have := g4 a
  rw [← h1] at this
  exact OptObjEq_trans (h4 a) this

/-- Caches that no getter tells apart give the same answers. -/
theorem DbEq_getters {s s' : StateDB} (h : DbEq s s') (a : Address) (k : Hash) :
    (s.GetState a k).1 = (s'.GetState a k).1 ∧
    (s.GetCommittedState a k).1 = (s'.GetCommittedState a k).1 ∧
    (s.GetNonce a).1 = (s'.GetNonce a).1 ∧
    (s.GetCode a).1 = (s'.GetCode a).1 ∧
    (s.GetCodeHash a).1 = (s'.GetCodeHash a).1 ∧
    s.GetRefund = s'.GetRefund ∧ s.Logs.length = s'.Logs.length := by
  obtain ⟨h1, h2, h3, h4⟩ := h
  have ha := h4 a
  rw [StateDB.GetState_fst, StateDB.GetState_fst, StateDB.GetCommittedState_fst,
    StateDB.GetCommittedState_fst, StateDB.GetNonce_fst, StateDB.GetNonce_fst,
    StateDB.GetCode_fst, StateDB.GetCode_fst, StateDB.GetCodeHash_fst, StateDB.GetCodeHash_fst]
  unfold StateDB.GetRefund StateDB.Logs
  rw [← h1, ← h2, ← h3]
  cases hr : s.resolve a with
  | none =>
    cases hr' : s'.resolve a with
    | none => simp
    | some o' => rw [hr, hr'] at ha; exact ha.elim
  | some o =>
    cases hr' : s'.resolve a with
    | none => rw [hr, hr'] at ha; exact ha.elim
    | some o' =>
      rw [hr, hr'] at ha
      obtain ⟨g1, g2, g3, g4, g5, g6, g7, g8, g9⟩ := ha
      simp only [g9 k, g8 k, g2, g7, and_self]

/-! ## State objects: what reads leave behind, and what the undo actions respect -/

theorem GetCommittedState_congr (ctx : Ctx) (o o' : stateObject)
    (h1 : o.overrideStorage = o'.overrideStorage) (h2 : o.originStorage = o'.originStorage)
    (h3 : o.address = o'.address) (k : Hash) :
    (o.GetCommittedState ctx k).1 = (o'.GetCommittedState ctx k).1 := by
  unfold stateObject.GetCommittedState stateObject.Address
  rw [← h1, ← h2, ← h3]
  cases o.overrideStorage with
  | some ov =>
    dsimp only
    cases AMap.get ov k <;> rfl
  | none =>
    dsimp only
    cases AMap.get o.originStorage k <;> rfl

theorem GetState_val (ctx : Ctx) (o : stateObject) (k : Hash) :
    (o.GetState ctx k).1 = match AMap.get o.dirtyStorage k with
      | some v => v
      | none => (o.GetCommittedState ctx k).1 := by
  unfold stateObject.GetState
  cases AMap.get o.dirtyStorage k <;> rfl

theorem Code_val (ctx : Ctx) (o : stateObject) :
    (o.Code ctx).1 = match o.code with
      | some c => some c
      | none =>
        if o.account.CodeHash = EmptyCodeHash then none
        else Keeper.GetCode ctx (BytesToHash o.account.CodeHash) := by
  unfold stateObject.Code stateObject.CodeHash
  cases o.code with
  | some c => rfl
  | none =>
    by_cases h : o.account.CodeHash = EmptyCodeHash
    · simp only [if_pos h]
    · simp only [if_neg h]

theorem GetCommittedState_fields (ctx : Ctx) (o : stateObject) (k : Hash) :
    (o.GetCommittedState ctx k).2.account = o.account ∧
    (o.GetCommittedState ctx k).2.originalAccount = o.originalAccount ∧
    (o.GetCommittedState ctx k).2.selfDestructed = o.selfDestructed ∧
    (o.GetCommittedState ctx k).2.newContract = o.newContract ∧
    (o.GetCommittedState ctx k).2.overrideStorage = o.overrideStorage ∧
    (o.GetCommittedState ctx k).2.code = o.code := by
  unfold stateObject.GetCommittedState
  cases hov : o.overrideStorage with
  | some ov =>
    dsimp only
    cases AMap.get ov k <;> simp [hov]
  | none =>
    dsimp only
    cases AMap.get o.originStorage k <;> simp [hov]

theorem GetState_fields (ctx : Ctx) (o : stateObject) (k : Hash) :
    (o.GetState ctx k).2.account = o.account ∧
    (o.GetState ctx k).2.originalAccount = o.originalAccount ∧
    (o.GetState ctx k).2.selfDestructed = o.selfDestructed ∧
    (o.GetState ctx k).2.newContract = o.newContract ∧
    (o.GetState ctx k).2.overrideStorage = o.overrideStorage ∧
    (o.GetState ctx k).2.code = o.code := by
  unfold stateObject.GetState
  cases AMap.get o.dirtyStorage k with
  | some v => simp
  | none => exact GetCommittedState_fields ctx o k

/-- Reading a slot leaves an object that no getter tells from the one read. -/
theorem ObjEq_GetState_snd (ctx : Ctx) (o : stateObject) (k : Hash) :
    ObjEq ctx (o.GetState ctx k).2 o := by
  obtain ⟨h1, h2, h3, h4, h5, h6⟩ := GetState_fields ctx o k
  refine ⟨GetState_address ctx o k, h1, h2, h3, h4, h5, ?_, ?_, ?_⟩
  · rw [Code_val, Code_val, h1, h6]
  · intro k'
    have hs := GetState_stable ctx o k k'
    rw [GetState_val, GetState_val, GetState_dirtyStorage] at hs
    unfold stateObject.GetState
    cases hd : AMap.get o.dirtyStorage k with
    | some v => rfl
    | none => exact GetCommittedState_stable ctx o k k'
  · intro k'
    exact GetState_stable ctx o k k'

/-- Reading the code leaves an object that no getter tells from the one
read. -/
theorem ObjEq_Code_snd (ctx : Ctx) (o : stateObject) : ObjEq ctx (o.Code ctx).2 o := by
  unfold stateObject.Code
  cases hc : o.code with
  | some c => exact ObjEq_refl ctx o
  | none =>
    by_cases h : o.CodeHash = EmptyCodeHash
    · simp only [if_pos h]
      exact ObjEq_refl ctx o
    · simp only [if_neg h]
      have hcv : ∀ k, (stateObject.GetCommittedState ctx
          { o with code := Keeper.GetCode ctx (BytesToHash o.CodeHash) } k).1
          = (o.GetCommittedState ctx k).1 :=
        fun k => GetCommittedState_congr ctx
          { o with code := Keeper.GetCode ctx (BytesToHash o.CodeHash) } o rfl rfl rfl k
      refine ⟨rfl, rfl, rfl, rfl, rfl, rfl, ?_, hcv, ?_⟩
      · rw [Code_val, Code_val, hc]
        simp only
        unfold stateObject.CodeHash at h
        cases hg : Keeper.GetCode ctx (BytesToHash o.CodeHash) with
        | some c =>
          unfold stateObject.CodeHash at hg
          simp only [if_neg h, hg]
        | none =>
          unfold stateObject.CodeHash at hg
          simp only [if_neg h, hg]
      · intro k
        rw [GetState_val, GetState_val, hcv k]

theorem ObjEq_setState {ctx : Ctx} {o o' : stateObject} (h : ObjEq ctx o o') (k v : Hash) :
    ObjEq ctx (o.setState k v) (o'.setState k v) := by
  obtain ⟨h1, h2, h3, h4, h5, h6, h7, h8, h9⟩ := h
  have hc : ∀ (x : stateObject) k', ((x.setState k v).GetCommittedState ctx k').1
      = (x.GetCommittedState ctx k').1 :=
    fun x k' => GetCommittedState_congr ctx (x.setState k v) x rfl rfl rfl k'
  refine ⟨h1, h2, h3, h4, h5, h6, ?_, ?_, ?_⟩
  · have e1 : ((o.setState k v).Code ctx).1 = (o.Code ctx).1 := by
      rw [Code_val, Code_val]; rfl
    have e2 : ((o'.setState k v).Code ctx).1 = (o'.Code ctx).1 := by
      rw [Code_val, Code_val]; rfl
    rw [e1, e2, h7]
  · intro k'
    rw [hc, hc, h8]
  · intro k'
    have g := h9 k'
    rw [GetState_val, GetState_val] at g
    rw [GetState_val, GetState_val, hc, hc]
    simp only [stateObject.setState, AMap.get_set]
    by_cases hk : k = k'
    · simp only [if_pos hk]
    · simp only [if_neg hk]
      exact g

theorem ObjEq_setNonce {ctx : Ctx} {o o' : stateObject} (h : ObjEq ctx o o') (n : Nat) :
    ObjEq ctx (o.setNonce n) (o'.setNonce n) := by
  obtain ⟨h1, h2, h3, h4, h5, h6, h7, h8, h9⟩ := h
  have hc : ∀ (x : stateObject) k', ((x.setNonce n).GetCommittedState ctx k').1
      = (x.GetCommittedState ctx k').1 :=
    fun x k' => GetCommittedState_congr ctx (x.setNonce n) x rfl rfl rfl k'
  have hs : ∀ (x : stateObject) k', ((x.setNonce n).GetState ctx k').1
      = (x.GetState ctx k').1 := by
    intro x k'
    rw [GetState_val, GetState_val, hc]
    rfl
  refine ⟨h1, ?_, h3, h4, h5, h6, ?_, ?_, ?_⟩
  · simp only [stateObject.setNonce, h2]
  · have e1 : ((o.setNonce n).Code ctx).1 = (o.Code ctx).1 := by
      rw [Code_val, Code_val]; rfl
    have e2 : ((o'.setNonce n).Code ctx).1 = (o'.Code ctx).1 := by
      rw [Code_val, Code_val]; rfl
    rw [e1, e2, h7]
  · intro k'
    rw [hc, hc, h8]
  · intro k'
    rw [hs, hs, h9]

theorem ObjEq_restoreCode {ctx : Ctx} {o o' : stateObject} (h : ObjEq ctx o o')
    (prevhash : Bytes) (prevcode : Option Bytes) :
    ObjEq ctx { o with code := prevcode, account := { o.account with CodeHash := prevhash } }
      { o' with code := prevcode, account := { o'.account with CodeHash := prevhash } } := by
  obtain ⟨h1, h2, h3, h4, h5, h6, h7, h8, h9⟩ := h
  have hc : ∀ (x : stateObject) k', (stateObject.GetCommittedState ctx
      { x with code := prevcode, account := { x.account with CodeHash := prevhash } } k').1
      = (x.GetCommittedState ctx k').1 :=
    fun x k' => GetCommittedState_congr ctx
      { x with code := prevcode, account := { x.account with CodeHash := prevhash } }
      x rfl rfl rfl k'
  have hs : ∀ (x : stateObject) k', (stateObject.GetState ctx
      { x with code := prevcode, account := { x.account with CodeHash := prevhash } } k').1
      = (x.GetState ctx k').1 := by
    intro x k'
    rw [GetState_val, GetState_val, hc]
  refine ⟨h1, ?_, h3, h4, h5, h6, ?_, ?_, ?_⟩
  · simp only [h2]
  · rw [Code_val, Code_val]
  · intro k'
    rw [hc, hc, h8]
  · intro k'
    rw [hs, hs, h9]

/-! ## Undo actions on the cache -/

theorem updateObject_fields (s : StateDB) (a : Address) (f : stateObject → stateObject) :
    (s.updateObject a f).ctx = s.ctx ∧ (s.updateObject a f).refund = s.refund ∧
    (s.updateObject a f).logs = s.logs ∧ (s.updateObject a f).journal = s.journal := by
  unfold StateDB.updateObject
  rw [getStateObject_eq]
  cases s.resolve a with
  | some o =>
    exact ⟨getStateObject_ctx s a, getStateObject_refund s a, getStateObject_logs s a,
      getStateObject_journal s a⟩
  | none =>
    exact ⟨getStateObject_ctx s a, getStateObject_refund s a, getStateObject_logs s a,
      getStateObject_journal s a⟩

theorem updateObject_resolve (s : StateDB) (a b : Address) (f : stateObject → stateObject) :
    (s.updateObject a f).resolve b
      = if a = b then (s.resolve a).map f else s.resolve b := by
  unfold StateDB.updateObject
  rw [getStateObject_eq]
  cases hr : s.resolve a with
  | some o =>
    have h1 : (s.getStateObject a).2.resolve b = s.resolve b := getStateObject_resolve s a b
    unfold StateDB.resolve at h1 ⊢
    simp only [resolveIn_set, Option.map]
    by_cases hab : a = b
    · simp only [if_pos hab]
    · simp only [if_neg hab]
      exact h1
  | none =>
    simp only [Option.map]
    by_cases hab : a = b
    · subst hab
      simp only [if_true]
      rw [getStateObject_resolve, hr]
    · simp only [if_neg hab]
      rw [getStateObject_resolve]

theorem updateObject_congr {s s' : StateDB} (h : DbEq s s') (a : Address)
    (f : stateObject → stateObject)
    (hf : ∀ o o', ObjEq s.ctx o o' → ObjEq s.ctx (f o) (f o')) :
    DbEq (s.updateObject a f) (s'.updateObject a f) := by
  obtain ⟨h1, h2, h3, h4⟩ := h
  obtain ⟨e1, e2, e3, _⟩ := updateObject_fields s a f
  obtain ⟨g1, g2, g3, _⟩ := updateObject_fields s' a f
  refine ⟨by rw [e1, g1, h1], by rw [e2, g2, h2], by rw [e3, g3, h3], fun b => ?_⟩
  rw [e1, updateObject_resolve, updateObject_resolve]
  by_cases hab : a = b
  · simp only [if_pos hab]
    have ha := h4 a
    cases hr : s.resolve a with
    | none =>
      cases hr' : s'.resolve a with
      | none => trivial
      | some o' => rw [hr, hr'] at ha; exact ha.elim
    | some o =>
      cases hr' : s'.resolve a with
      | none => rw [hr, hr'] at ha; exact ha.elim
      | some o' =>
        rw [hr, hr'] at ha
        exact hf o o' ha
  · simp only [if_neg hab]
    exact h4 b

theorem revert_fields (e : journalEntry) (he : e.isObjectChange) (s : StateDB) :
    (e.revert s).ctx = s.ctx ∧ (e.revert s).refund = s.refund ∧
    (e.revert s).logs = s.logs := by
  cases e with
  | createObjectChange a prev =>
    cases prev <;> exact ⟨rfl, rfl, rfl⟩
  | nonceChange a prev =>
    obtain ⟨h1, h2, h3, _⟩ := updateObject_fields s a (fun o => o.setNonce prev)
    exact ⟨h1, h2, h3⟩
  | storageChange a k p =>
    obtain ⟨h1, h2, h3, _⟩ := updateObject_fields s a (fun o => o.setState k p)
    exact ⟨h1, h2, h3⟩
  | codeChange a ph pc =>
    obtain ⟨h1, h2, h3, _⟩ := updateObject_fields s a (fun o =>
      { o with code := pc, account := { o.account with CodeHash := ph } })
    exact ⟨h1, h2, h3⟩
  | selfDestructChange a p => exact he.elim
  | balanceChange a p => exact he.elim
  | refundChange p => exact he.elim
  | addLogChange => exact he.elim
  | accessListAddAccountChange a => exact he.elim
  | accessListAddSlotChange a sl => exact he.elim

/-- Undoing a record of an object change on two caches that no getter tells
apart gives two caches that no getter tells apart. -/
theorem revert_congr (e : journalEntry) (he : e.isObjectChange) {s s' : StateDB}
    (h : DbEq s s') : DbEq (e.revert s) (e.revert s') := by
  cases e with
  | createObjectChange a prev =>
    obtain ⟨h1, h2, h3, h4⟩ := h
    cases prev with
    | some p =>
      refine ⟨h1, h2, h3, fun b => ?_⟩
      simp only [journalEntry.revert, StateDB.resolve, resolveIn_set]
      by_cases hab : a = b
      · simp only [if_pos hab]
        exact ObjEq_refl _ _
      · simp only [if_neg hab]
        exact h4 b
    | none =>
      refine ⟨h1, h2, h3, fun b => ?_⟩
      simp only [journalEntry.revert, StateDB.resolve, resolveIn_erase]
      by_cases hab : a = b
      · simp only [if_pos hab]
        rw [← h1]
        exact OptObjEq_refl _ _
      · simp only [if_neg hab]
        exact h4 b
  | nonceChange a prev =>
    exact updateObject_congr h a _ (fun o o' ho => ObjEq_setNonce ho prev)
  | storageChange a k p =>
    exact updateObject_congr h a _ (fun o o' ho => ObjEq_setState ho k p)
  | codeChange a ph pc =>
    exact updateObject_congr h a _ (fun o o' ho => ObjEq_restoreCode ho ph pc)
  | selfDestructChange a p => exact he.elim
  | balanceChange a p => exact he.elim
  | refundChange p => exact he.elim
  | addLogChange => exact he.elim
  | accessListAddAccountChange a => exact he.elim
  | accessListAddSlotChange a sl => exact he.elim

theorem revertEntries_congr (es : List journalEntry) (hes : ∀ e ∈ es, e.isObjectChange)
    {s s' : StateDB} (h : DbEq s s') : DbEq (revertEntries es s) (revertEntries es s') := by
  induction es with
  | nil => exact h
  | cons e rest ih =>
    have hrest : ∀ e ∈ rest, e.isObjectChange := fun x hx => hes x (List.mem_cons_of_mem e hx)
    exact revert_congr e (hes e (List.mem_cons_self e rest)) (ih hrest)

theorem revertEntries_append (es es' : List journalEntry) (s : StateDB) :
    revertEntries (es ++ es') s = revertEntries es (revertEntries es' s) := by
  simp [revertEntries, List.foldr_append]

theorem revertEntries_fields (es : List journalEntry) (hes : ∀ e ∈ es, e.isObjectChange)
    (s : StateDB) :
    (revertEntries es s).ctx = s.ctx ∧ (revertEntries es s).refund = s.refund ∧
    (revertEntries es s).logs = s.logs := by
  induction es with
  | nil => exact ⟨rfl, rfl, rfl⟩
  | cons e rest ih =>
    have hrest : ∀ e ∈ rest, e.isObjectChange := fun x hx => hes x (List.mem_cons_of_mem e hx)
    obtain ⟨h1, h2, h3⟩ := ih hrest
    obtain ⟨g1, g2, g3⟩ := revert_fields e (hes e (List.mem_cons_self e rest))
      (revertEntries rest s)
    exact ⟨g1.trans h1, g2.trans h2, g3.trans h3⟩

/-! ## Writes through a State Object, and their undo -/

theorem getOrNewStateObject_spec (s : StateDB) (hwf : s.WF) (a : Address) :
    (s.getOrNewStateObject a).2.ctx = s.ctx ∧
    (s.getOrNewStateObject a).2.refund = s.refund ∧
    (s.getOrNewStateObject a).2.logs = s.logs ∧
    (s.getOrNewStateObject a).2.WF ∧
    AMap.get (s.getOrNewStateObject a).2.stateObjects a = some (s.getOrNewStateObject a).1 ∧
    (s.getOrNewStateObject a).1.address = a ∧
    (∀ b, a ≠ b → (s.getOrNewStateObject a).2.resolve b = s.resolve b) ∧
    ((s.resolve a = some (s.getOrNewStateObject a).1 ∧
        (s.getOrNewStateObject a).2.journal = s.journal) ∨
     (s.resolve a = none ∧
        (s.getOrNewStateObject a).2.journal
          = s.journal ++ [journalEntry.createObjectChange a none])) := by
  unfold StateDB.getOrNewStateObject
  rw [getStateObject_eq]
  cases hr : s.resolve a with
  | some o =>
    dsimp only
    refine ⟨getStateObject_ctx s a, getStateObject_refund s a, getStateObject_logs s a,
      getStateObject_WF s hwf a, getStateObject_live s a o hr, resolve_address s hwf a o hr,
      fun b _ => getStateObject_resolve s a b, Or.inl ⟨rfl, getStateObject_journal s a⟩⟩
  | none =>
    dsimp only
    have hs1 : (s.getStateObject a).2 = s := by
      unfold StateDB.resolve resolveIn at hr
      unfold StateDB.getStateObject
      cases hg : AMap.get s.stateObjects a with
      | some o1 => rfl
      | none =>
        rw [hg] at hr
        cases hk : Keeper.GetAccount s.ctx a with
        | none => rfl
        | some acct => rw [hk] at hr; cases hr
    rw [hs1]
    unfold StateDB.createObject
    rw [getStateObject_eq, hr, hs1]
    dsimp only
    refine ⟨rfl, rfl, rfl, ?_, AMap.get_set_same _ _ _, rfl, ?_, Or.inr ⟨rfl, rfl⟩⟩
    · intro b o hb
      simp only [AMap.get_set] at hb
      by_cases hab : a = b
      · subst hab
        simp only [if_true] at hb
        cases hb
        rfl
      · simp only [if_neg hab] at hb
        exact hwf b o hb
    · intro b hab
      simp only [StateDB.resolve, resolveIn_set, if_neg hab]

theorem resolveIn_empty_of_none (s : StateDB) (a : Address) (h : s.resolve a = none) :
    resolveIn s.ctx AMap.empty a = none := by
  unfold StateDB.resolve resolveIn at h
  unfold resolveIn
  simp only [AMap.empty, AMap.get]
  cases hg : AMap.get s.stateObjects a with
  | some o => rw [hg] at h; cases h
  | none =>
    rw [hg] at h
    cases hk : Keeper.GetAccount s.ctx a with
    | none => rfl
    | some acct => rw [hk] at h; cases h

/-- A write through the State Object of `a` that journals at most one record
whose undo restores what the getters saw: the journal grows by records of
object changes, and undoing them gives back a cache that no getter tells
from the one before the write. -/
theorem writeThrough_undo (s : StateDB) (hwf : s.WF) (a : Address) (s1 : StateDB)
    (o1 : stateObject) (es : List journalEntry)
    (hctx : s1.ctx = s.ctx) (href : s1.refund = s.refund) (hlogs : s1.logs = s.logs)
    (hobjs : s1.stateObjects = AMap.set (s.getOrNewStateObject a).2.stateObjects a o1)
    (hj : s1.journal = (s.getOrNewStateObject a).2.journal ++ es)
    (haddr : o1.address = a)
    (hU : (es = [] ∧ ObjEq s.ctx o1 (s.getOrNewStateObject a).1) ∨
      (∃ e f, es = [e] ∧ e.isObjectChange ∧ (∀ t, e.revert t = t.updateObject a f) ∧
        ObjEq s.ctx (f o1) (s.getOrNewStateObject a).1)) :
    s1.WF ∧ ∃ es', s1.journal = s.journal ++ es' ∧ (∀ e ∈ es', e.isObjectChange) ∧
      DbEq (revertEntries es' s1) s := by
  obtain ⟨c1, _, _, cwf, _, _, cother, ccase⟩ := getOrNewStateObject_spec s hwf a
  have hres : ∀ b, s1.resolve b = if a = b then some o1 else s.resolve b := by
    intro b
    unfold StateDB.resolve
    rw [hobjs, hctx, resolveIn_set]
    by_cases hab : a = b
    · simp only [if_pos hab]
    · simp only [if_neg hab]
      have := cother b hab
      unfold StateDB.resolve at this
      rw [c1] at this
      exact this
  have hwf1 : s1.WF := by
    intro b o hb
    rw [hobjs, AMap.get_set] at hb
    by_cases hab : a = b
    · subst hab
      simp only [if_true] at hb
      cases hb
      exact haddr
    · simp only [if_neg hab] at hb
      exact cwf b o hb
  have hes : ∀ e ∈ es, e.isObjectChange := by
    rcases hU with ⟨he, _⟩ | ⟨e, f, he, hoc, _, _⟩
    · rw [he]; intro e hm; cases hm
    · rw [he]
      intro x hx
      rw [List.mem_singleton] at hx
      rw [hx]; exact hoc
  have ht : ∃ o2, ObjEq s.ctx o2 (s.getOrNewStateObject a).1 ∧
      ∀ b, (revertEntries es s1).resolve b = if a = b then some o2 else s.resolve b := by
    rcases hU with ⟨he, ho⟩ | ⟨e, f, he, _, hrev, ho⟩
    · refine ⟨o1, ho, fun b => ?_⟩
      rw [he]
      exact hres b
    · refine ⟨f o1, ho, fun b => ?_⟩
      rw [he]
      simp only [revertEntries, List.foldr]
      rw [hrev, updateObject_resolve, hres, hres]
      by_cases hab : a = b
      · simp only [if_pos hab, if_true, Option.map]
      · simp only [if_neg hab]
  obtain ⟨o2, ho2, hres2⟩ := ht
  obtain ⟨f1, f2, f3⟩ := revertEntries_fields es hes s1
  refine ⟨hwf1, ?_⟩
  rcases ccase with ⟨hra, hja⟩ | ⟨hra, hja⟩
  · refine ⟨es, by rw [hj, hja], hes, ?_⟩
    refine ⟨f1.trans hctx, f2.trans href, f3.trans hlogs, fun b => ?_⟩
    rw [f1, hctx, hres2]
    by_cases hab : a = b
    · subst hab
      simp only [if_true]
      rw [hra]
      exact ho2
    · simp only [if_neg hab]
      exact OptObjEq_refl _ _
  · refine ⟨[journalEntry.createObjectChange a none] ++ es,
      by rw [hj, hja, List.append_assoc], ?_, ?_⟩
    · intro e hm
      rw [List.mem_append, List.mem_singleton] at hm
      rcases hm with hm | hm
      · rw [hm]; trivial
      · exact hes e hm
    · rw [revertEntries_append]
      simp only [revertEntries, List.foldr, journalEntry.revert]
      refine ⟨f1.trans hctx, f2.trans href, f3.trans hlogs, fun b => ?_⟩
      have hb := hres2 b
      unfold StateDB.resolve at hb ⊢
      unfold revertEntries at f1 hb
      simp only [resolveIn_erase]
      rw [f1, hctx] at hb ⊢
      by_cases hab : a = b
      · subst hab
        simp only [if_true]
        rw [resolveIn_empty_of_none s a hra]
        have : resolveIn s.ctx s.stateObjects a = none := hra
        rw [this]
        trivial
      · simp only [if_neg hab] at hb ⊢
        rw [hb]
        exact OptObjEq_refl _ _

theorem ObjEq_setState_restore (ctx : Ctx) (o : stateObject) (k v : Hash) :
    ObjEq ctx ((o.setState k v).setState k (o.GetState ctx k).1) o := by
  have hc : ∀ k', (((o.setState k v).setState k (o.GetState ctx k).1).GetCommittedState
      ctx k').1 = (o.GetCommittedState ctx k').1 :=
    fun k' => GetCommittedState_congr ctx
      ((o.setState k v).setState k (o.GetState ctx k).1) o rfl rfl rfl k'
  refine ⟨rfl, rfl, rfl, rfl, rfl, rfl, ?_, hc, ?_⟩
  · rw [Code_val, Code_val]; rfl
  · intro k'
    rw [GetState_val, hc]
    simp only [stateObject.setState, AMap.get_set]
    by_cases hk : k = k'
    · subst hk
      simp only [if_true]
    · simp only [if_neg hk]
      rw [GetState_val]

theorem Code_snd_code (ctx : Ctx) (o : stateObject) : (o.Code ctx).2.code = (o.Code ctx).1 := by
  unfold stateObject.Code
  cases hc : o.code with
  | some c => exact hc
  | none =>
    by_cases h : o.CodeHash = EmptyCodeHash
    · simp only [if_pos h]
      exact hc
    · simp only [if_neg h]

theorem Code_snd_address (ctx : Ctx) (o : stateObject) : (o.Code ctx).2.address = o.address :=
  (ObjEq_Code_snd ctx o).1

theorem StateDB.SetState_undo (s : StateDB) (hwf : s.WF) (a : Address) (k v : Hash) :
    (s.SetState a k v).WF ∧ (s.SetState a k v).logs = s.logs ∧
    ∃ es, (s.SetState a k v).journal = s.journal ++ es ∧ (∀ e ∈ es, e.isObjectChange) ∧
      DbEq (revertEntries es (s.SetState a k v)) s := by
  obtain ⟨c1, c2, c3, _, _, caddr, _, _⟩ := getOrNewStateObject_spec s hwf a
  by_cases hv : ((s.getOrNewStateObject a).1.GetState (s.getOrNewStateObject a).2.ctx k).1 = v
  · have h := writeThrough_undo s hwf a (s.SetState a k v)
      ((s.getOrNewStateObject a).1.GetState (s.getOrNewStateObject a).2.ctx k).2 []
      c1 c2 c3
      (by simp only [StateDB.SetState, stateObject.SetState, if_pos hv])
      (by simp only [StateDB.SetState, stateObject.SetState, if_pos hv, List.append_nil])
      ((GetState_address _ _ _).trans caddr)
      (Or.inl ⟨rfl, by rw [c1]; exact ObjEq_GetState_snd _ _ _⟩)
    exact ⟨h.1, c3, h.2⟩
  · have h := writeThrough_undo s hwf a (s.SetState a k v)
      (((s.getOrNewStateObject a).1.GetState (s.getOrNewStateObject a).2.ctx k).2.setState k v)
      [journalEntry.storageChange a k
        ((s.getOrNewStateObject a).1.GetState (s.getOrNewStateObject a).2.ctx k).1]
      c1 c2 c3
      (by simp only [StateDB.SetState, stateObject.SetState, if_neg hv])
      (by simp only [StateDB.SetState, stateObject.SetState, if_neg hv, journal.append,
            GetState_address, caddr])
      ((GetState_address _ _ _).trans caddr)
      (Or.inr ⟨_, fun o => o.setState k
          ((s.getOrNewStateObject a).1.GetState (s.getOrNewStateObject a).2.ctx k).1,
        rfl, trivial, fun t => rfl, by
          rw [c1]
          have e := GetState_stable s.ctx (s.getOrNewStateObject a).1 k k
          rw [← e]
          exact ObjEq_trans (ObjEq_setState_restore s.ctx _ k v) (ObjEq_GetState_snd _ _ _)⟩)
    exact ⟨h.1, c3, h.2⟩

theorem StateDB.SetNonce_undo (s : StateDB) (hwf : s.WF) (a : Address) (n : Nat) :
    (s.SetNonce a n).WF ∧ (s.SetNonce a n).logs = s.logs ∧
    ∃ es, (s.SetNonce a n).journal = s.journal ++ es ∧ (∀ e ∈ es, e.isObjectChange) ∧
      DbEq (revertEntries es (s.SetNonce a n)) s := by
  obtain ⟨c1, c2, c3, _, _, caddr, _, _⟩ := getOrNewStateObject_spec s hwf a
  have h := writeThrough_undo s hwf a (s.SetNonce a n)
    ((s.getOrNewStateObject a).1.setNonce n)
    [journalEntry.nonceChange a (s.getOrNewStateObject a).1.account.Nonce]
    c1 c2 c3
    (by simp only [StateDB.SetNonce, stateObject.SetNonce])
    (by simp only [StateDB.SetNonce, stateObject.SetNonce, journal.append, caddr])
    caddr
    (Or.inr ⟨_, fun o => o.setNonce (s.getOrNewStateObject a).1.account.Nonce,
      rfl, trivial, fun t => rfl, ObjEq_refl _ _⟩)
  exact ⟨h.1, c3, h.2⟩

theorem StateDB.SetCode_undo (s : StateDB) (hwf : s.WF) (a : Address) (ch : Hash)
    (code : Option Bytes) :
    (s.SetCode a ch code).WF ∧ (s.SetCode a ch code).logs = s.logs ∧
    ∃ es, (s.SetCode a ch code).journal = s.journal ++ es ∧ (∀ e ∈ es, e.isObjectChange) ∧
      DbEq (revertEntries es (s.SetCode a ch code)) s := by
  obtain ⟨c1, c2, c3, _, _, caddr, _, _⟩ := getOrNewStateObject_spec s hwf a
  have haddr : ((s.getOrNewStateObject a).1.Code (s.getOrNewStateObject a).2.ctx).2.address = a :=
    (Code_snd_address _ _).trans caddr
  have h := writeThrough_undo s hwf a (s.SetCode a ch code)
    (((s.getOrNewStateObject a).1.Code (s.getOrNewStateObject a).2.ctx).2.setCode ch code)
    [journalEntry.codeChange a
      ((s.getOrNewStateObject a).1.Code (s.getOrNewStateObject a).2.ctx).2.CodeHash
      ((s.getOrNewStateObject a).1.Code (s.getOrNewStateObject a).2.ctx).1]
    c1 c2 c3
    (by simp only [StateDB.SetCode, stateObject.SetCode])
    (by simp only [StateDB.SetCode, stateObject.SetCode, journal.append, haddr])
    haddr
    (Or.inr ⟨_, fun o =>
        { o with
          code := ((s.getOrNewStateObject a).1.Code (s.getOrNewStateObject a).2.ctx).1
          account := { o.account with
            CodeHash :=
              ((s.getOrNewStateObject a).1.Code (s.getOrNewStateObject a).2.ctx).2.CodeHash } },
      rfl, trivial, fun t => rfl, by
        rw [c1]
        have e := Code_snd_code s.ctx (s.getOrNewStateObject a).1
        have e2 : ({ ((s.getOrNewStateObject a).1.Code s.ctx).2.setCode ch code with
            code := ((s.getOrNewStateObject a).1.Code s.ctx).1
            account := { (((s.getOrNewStateObject a).1.Code s.ctx).2.setCode ch code).account with
              CodeHash := ((s.getOrNewStateObject a).1.Code s.ctx).2.CodeHash } } : stateObject)
            = ((s.getOrNewStateObject a).1.Code s.ctx).2 := by
          rw [← e]
          rfl
        have h3 := ObjEq_Code_snd s.ctx (s.getOrNewStateObject a).1
        rw [← e2] at h3
        exact h3⟩)
  exact ⟨h.1, c3, h.2⟩

/-! ## Snapshot and revert -/

theorem StateDB.apply_undo (s : StateDB) (hwf : s.WF) (m : Mutation) :
    (s.apply m).WF ∧ (s.apply m).logs = s.logs ∧
    ∃ es, (s.apply m).journal = s.journal ++ es ∧ (∀ e ∈ es, e.isObjectChange) ∧
      DbEq (revertEntries es (s.apply m)) s := by
  cases m with
  | setState a k v => exact StateDB.SetState_undo s hwf a k v
  | setNonce a n => exact StateDB.SetNonce_undo s hwf a n
  | setCode a ch code => exact StateDB.SetCode_undo s hwf a ch code

theorem StateDB.applyAll_undo (ms : List Mutation) :
    ∀ s : StateDB, s.WF →
      (s.applyAll ms).WF ∧ (s.applyAll ms).logs = s.logs ∧
      ∃ es, (s.applyAll ms).journal = s.journal ++ es ∧ (∀ e ∈ es, e.isObjectChange) ∧
        ∀ s', DbEq s' (s.applyAll ms) → DbEq (revertEntries es s') s := by
  induction ms with
  | nil =>
    intro s hwf
    exact ⟨hwf, rfl, [], (List.append_nil _).symm,
      fun e hm => (List.not_mem_nil e hm).elim, fun s' h => h⟩
  | cons m rest ih =>
    intro s hwf
    obtain ⟨w1, l1, es1, j1, o1, d1⟩ := StateDB.apply_undo s hwf m
    obtain ⟨w2, l2, es2, j2, o2, d2⟩ := ih (s.apply m) w1
    have happ : s.applyAll (m :: rest) = (s.apply m).applyAll rest := rfl
    rw [happ]
    refine ⟨w2, l2.trans l1, es1 ++ es2, by rw [j2, j1, List.append_assoc], ?_, ?_⟩
    · intro e hm
      rw [List.mem_append] at hm
      rcases hm with hm | hm
      · exact o1 e hm
      · exact o2 e hm
    · intro s' h
      rw [revertEntries_append]
      exact DbEq_trans (revertEntries_congr es1 o1 (d2 s' h)) d1

theorem getStateObject_validRevisions (s : StateDB) (a : Address) :
    (s.getStateObject a).2.validRevisions = s.validRevisions := by
  unfold StateDB.getStateObject
  cases AMap.get s.stateObjects a with
  | some o => rfl
  | none => cases Keeper.GetAccount s.ctx a <;> rfl

theorem getOrNewStateObject_validRevisions (s : StateDB) (a : Address) :
    (s.getOrNewStateObject a).2.validRevisions = s.validRevisions := by
  unfold StateDB.getOrNewStateObject
  rw [getStateObject_eq]
  cases s.resolve a with
  | some o => exact getStateObject_validRevisions s a
  | none =>
    dsimp only
    unfold StateDB.createObject
    dsimp only
    rw [getStateObject_validRevisions, getStateObject_validRevisions]

theorem SetState_validRevisions (s : StateDB) (a : Address) (k v : Hash) :
    (s.SetState a k v).validRevisions = s.validRevisions :=
  getOrNewStateObject_validRevisions s a

theorem apply_validRevisions (s : StateDB) (m : Mutation) :
    (s.apply m).validRevisions = s.validRevisions := by
  cases m with
  | setState a k v => exact getOrNewStateObject_validRevisions s a
  | setNonce a n => exact getOrNewStateObject_validRevisions s a
  | setCode a ch code => exact getOrNewStateObject_validRevisions s a

theorem applyAll_validRevisions (ms : List Mutation) :
    ∀ s : StateDB, (s.applyAll ms).validRevisions = s.validRevisions := by
  induction ms with
  | nil => intro s; rfl
  | cons m rest ih =>
    intro s
    have happ : s.applyAll (m :: rest) = (s.apply m).applyAll rest := rfl
    rw [happ, ih, apply_validRevisions]

theorem SelfDestruct_validRevisions (s : StateDB) (a : Address) :
    (s.SelfDestruct a).validRevisions = s.validRevisions := by
  unfold StateDB.SelfDestruct
  rw [getStateObject_eq]
  cases s.resolve a with
  | none => exact getStateObject_validRevisions s a
  | some o =>
    dsimp only
    split
    · exact getStateObject_validRevisions s a
    · exact getStateObject_validRevisions s a

theorem DbEq_Snapshot (s : StateDB) : DbEq (s.Snapshot).2 s :=
  ⟨rfl, rfl, rfl, fun _ => OptObjEq_refl _ _⟩

/-- Reverting to a valid snapshot taken at the point `s` from a cache whose
journal grew by records of object changes whose undo leads back to `s`. -/
theorem RevertToSnapshot_of_undo (s s' : StateDB) (id : SnapshotId) (es : List journalEntry)
    (hid : id = { journalLength := s.journal.length, logCount := s.logs.length })
    (hvalid : id ∈ s'.validRevisions)
    (hj : s'.journal = s.journal ++ es) (hes : ∀ e ∈ es, e.isObjectChange)
    (hlogs : s'.logs = s.logs) (hd : DbEq (revertEntries es s') s) :
    ∃ r, s'.RevertToSnapshot id = some r ∧ DbEq r s ∧ r.journal = s.journal ∧
      r.logs = s.logs ∧
      r.validRevisions = s'.validRevisions.filter (fun x =>
        decide (x.journalLength ≤ id.journalLength ∧ x.logCount ≤ id.logCount)) := by
  obtain ⟨f1, f2, f3⟩ := revertEntries_fields es hes s'
  obtain ⟨d1, d2, d3, d4⟩ := hd
  have hc : id ∈ s'.validRevisions ∧ id.journalLength ≤ s'.journal.length ∧
      id.logCount ≤ s'.logs.length := by
    refine ⟨hvalid, ?_, ?_⟩
    · rw [hid, hj, List.length_append]
      exact Nat.le_add_right _ _
    · rw [hid, hlogs]
  have hdrop : s'.journal.drop id.journalLength = es := by
    rw [hid, hj]
    exact List.drop_left _ _
  have htake : s'.journal.take id.journalLength = s.journal := by
    rw [hid, hj]
    exact List.take_left _ _
  have hlt : (revertEntries es s').logs.take id.logCount = s.logs := by
    rw [d3, hid]
    exact List.take_length _
  refine ⟨{ revertEntries es s' with
      journal := s.journal
      logs := s.logs
      validRevisions := s'.validRevisions.filter (fun x =>
        decide (x.journalLength ≤ id.journalLength ∧ x.logCount ≤ id.logCount)) },
    by simp only [StateDB.RevertToSnapshot, if_pos hc, hdrop, htake, hlt], ?_, rfl, rfl, rfl⟩
  exact ⟨d1, d2, rfl, d4⟩

theorem stateObject_SetState_GetState (ctx : Ctx) (j : journal) (o : stateObject)
    (k v : Hash) : ((o.SetState ctx j k v).1.GetState ctx k).1 = v := by
  by_cases h : (o.GetState ctx k).1 = v
  · simp only [stateObject.SetState, if_pos h]
    rw [GetState_stable]
    exact h
  · simp only [stateObject.SetState, if_neg h]
    exact GetState_setState_same ctx _ k v

theorem StateDB_SetState_GetState (s : StateDB) (a : Address) (k v : Hash) :
    ((s.SetState a k v).GetState a k).1 = v := by
  rw [StateDB.GetState_fst]
  have hr : (s.SetState a k v).resolve a
      = some ((s.getOrNewStateObject a).1.SetState (s.getOrNewStateObject a).2.ctx
          (s.getOrNewStateObject a).2.journal k v).1 := by
    simp only [StateDB.resolve, StateDB.SetState, resolveIn_set, if_true]
  rw [hr]
  exact stateObject_SetState_GetState _ _ _ k v

theorem New_WF (ctx : Ctx) (txConfig : TxConfig) : (New ctx txConfig).WF := by
  intro a o h
  simp [New, AMap.empty, AMap.get] at h

/-- C1: in the modelled State Cache, after `s = Snapshot()` and any finite
sequence of `SetState`, `SetNonce` and `SetCode` calls on any addresses,
`RevertToSnapshot(s)` returns, and `GetState`, `GetNonce`, `GetCode` and
`GetCodeHash` return for every address and key what they returned when the
snapshot was taken, as do `GetRefund` and the length of `Logs`. -/
theorem C1_revert_restores (s : StateDB) (hwf : s.WF) (ms : List Mutation) :
    ∃ r, ((s.Snapshot).2.applyAll ms).RevertToSnapshot (s.Snapshot).1 = some r ∧
      ∀ addr key,
        (r.GetState addr key).1 = (s.GetState addr key).1 ∧
        (r.GetNonce addr).1 = (s.GetNonce addr).1 ∧
        (r.GetCode addr).1 = (s.GetCode addr).1 ∧
        (r.GetCodeHash addr).1 = (s.GetCodeHash addr).1 ∧
        r.GetRefund = s.GetRefund ∧ r.Logs.length = s.Logs.length := by
  have hwf1 : (s.Snapshot).2.WF := hwf
  obtain ⟨_, hl, es, hj, hes, hd⟩ := StateDB.applyAll_undo ms (s.Snapshot).2 hwf1
  have hvalid : (s.Snapshot).1 ∈ ((s.Snapshot).2.applyAll ms).validRevisions := by
    rw [applyAll_validRevisions]
    simp only [StateDB.Snapshot, List.mem_append, List.mem_singleton, or_true]
  obtain ⟨r, hr, hdr, _, _, _⟩ :=
    RevertToSnapshot_of_undo (s.Snapshot).2 ((s.Snapshot).2.applyAll ms) (s.Snapshot).1 es rfl
      hvalid hj hes hl (hd _ (DbEq_refl _))
  refine ⟨r, hr, fun addr key => ?_⟩
  obtain ⟨g1, _, g3, g4, g5, g6, g7⟩ := DbEq_getters (DbEq_trans hdr (DbEq_Snapshot s)) addr key
  exact ⟨g1, g3, g4, g5, g6, g7⟩

theorem C1_revert_restores_witness :
    ∃ r, (((New emptyCtx emptyTxConfig).Snapshot).2.applyAll
        [Mutation.setState sampleAddress hash1 hash3, Mutation.setNonce sampleAddress 10,
         Mutation.setCode sampleAddress2 hash2 (some [1, 2, 3])]).RevertToSnapshot
        ((New emptyCtx emptyTxConfig).Snapshot).1 = some r ∧
      ∀ addr key,
        (r.GetState addr key).1 = ((New emptyCtx emptyTxConfig).GetState addr key).1 ∧
        (r.GetNonce addr).1 = ((New emptyCtx emptyTxConfig).GetNonce addr).1 ∧
        (r.GetCode addr).1 = ((New emptyCtx emptyTxConfig).GetCode addr).1 ∧
        (r.GetCodeHash addr).1 = ((New emptyCtx emptyTxConfig).GetCodeHash addr).1 ∧
        r.GetRefund = (New emptyCtx emptyTxConfig).GetRefund ∧
        r.Logs.length = (New emptyCtx emptyTxConfig).Logs.length :=
  C1_revert_restores (New emptyCtx emptyTxConfig) (New_WF emptyCtx emptyTxConfig) _

/-- C2: in the modelled State Cache, after `S1 = Snapshot(); SetState(a, k,
v1); S2 = Snapshot(); SetState(a, k, v2)`, `RevertToSnapshot(S2)` returns and
makes `GetState(a, k) = v1`, and a further `RevertToSnapshot(S1)` returns and
makes `GetState(a, k)` the value it had before `S1`. -/
theorem C2_nested_snapshots (s : StateDB) (hwf : s.WF) (a : Address) (k v1 v2 : Hash) :
    ∃ r2, ((((s.Snapshot).2.SetState a k v1).Snapshot).2.SetState a k v2).RevertToSnapshot
        (((s.Snapshot).2.SetState a k v1).Snapshot).1 = some r2 ∧
      (r2.GetState a k).1 = v1 ∧
      ∃ r1, r2.RevertToSnapshot (s.Snapshot).1 = some r1 ∧
        (r1.GetState a k).1 = (s.GetState a k).1 := by
  have hwf1 : (s.Snapshot).2.WF := hwf
  obtain ⟨w1, l1, es1, j1, o1, d1⟩ := StateDB.SetState_undo (s.Snapshot).2 hwf1 a k v1
  have hwf3 : (((s.Snapshot).2.SetState a k v1).Snapshot).2.WF := w1
  obtain ⟨_, l2, es2, j2, o2, d2⟩ :=
    StateDB.SetState_undo (((s.Snapshot).2.SetState a k v1).Snapshot).2 hwf3 a k v2
  have hv2 : (((s.Snapshot).2.SetState a k v1).Snapshot).1
      ∈ ((((s.Snapshot).2.SetState a k v1).Snapshot).2.SetState a k v2).validRevisions := by
    rw [SetState_validRevisions]
    simp only [StateDB.Snapshot, List.mem_append, List.mem_singleton, or_true]
  obtain ⟨r2, hr2, hd2, hj2, hl2, hvr2⟩ :=
    RevertToSnapshot_of_undo (((s.Snapshot).2.SetState a k v1).Snapshot).2 _
      (((s.Snapshot).2.SetState a k v1).Snapshot).1 es2 rfl hv2 j2 o2 l2 d2
  have hd23 : DbEq r2 ((s.Snapshot).2.SetState a k v1) :=
    DbEq_trans hd2 (DbEq_Snapshot _)
  refine ⟨r2, hr2, ?_, ?_⟩
  · rw [(DbEq_getters hd23 a k).1]
    exact StateDB_SetState_GetState (s.Snapshot).2 a k v1
  · have hd1 : DbEq (revertEntries es1 r2) (s.Snapshot).2 :=
      DbEq_trans (revertEntries_congr es1 o1 hd23) d1
    have hj1 : r2.journal = (s.Snapshot).2.journal ++ es1 := hj2.trans j1
    have hv1 : (s.Snapshot).1 ∈ r2.validRevisions := by
      rw [hvr2, SetState_validRevisions, List.mem_filter]
      constructor
      · have e : (((s.Snapshot).2.SetState a k v1).Snapshot).2.validRevisions
            = (s.validRevisions ++ [(s.Snapshot).1])
              ++ [(((s.Snapshot).2.SetState a k v1).Snapshot).1] := by
          show ((s.Snapshot).2.SetState a k v1).validRevisions ++ _ = _
          rw [SetState_validRevisions]
          rfl
        rw [e]
        simp only [List.mem_append, List.mem_singleton, or_true, true_or]
      · have hlen : s.journal.length ≤ ((s.Snapshot).2.SetState a k v1).journal.length := by
          rw [j1, List.length_append]
          exact Nat.le_add_right _ _
        have hlog : s.logs.length ≤ ((s.Snapshot).2.SetState a k v1).logs.length := by
          rw [l1]
          exact Nat.le_refl _
        simp only [StateDB.Snapshot, decide_eq_true_eq]
        exact ⟨hlen, hlog⟩
    obtain ⟨r1, hr1, hdr1, _, _, _⟩ :=
      RevertToSnapshot_of_undo (s.Snapshot).2 r2 (s.Snapshot).1 es1 rfl hv1 hj1 o1
        (hl2.trans l1) hd1
    exact ⟨r1, hr1, (DbEq_getters (DbEq_trans hdr1 (DbEq_Snapshot s)) a k).1⟩

theorem C2_nested_snapshots_witness :
    ∃ r2, (((((New emptyCtx emptyTxConfig).Snapshot).2.SetState sampleAddress hash1
        hash1).Snapshot).2.SetState sampleAddress hash1 hash2).RevertToSnapshot
        ((((New emptyCtx emptyTxConfig).Snapshot).2.SetState sampleAddress hash1
          hash1).Snapshot).1 = some r2 ∧
      (r2.GetState sampleAddress hash1).1 = hash1 ∧
      ∃ r1, r2.RevertToSnapshot ((New emptyCtx emptyTxConfig).Snapshot).1 = some r1 ∧
        (r1.GetState sampleAddress hash1).1
          = ((New emptyCtx emptyTxConfig).GetState sampleAddress hash1).1 :=
  C2_nested_snapshots (New emptyCtx emptyTxConfig) (New_WF emptyCtx emptyTxConfig)
    sampleAddress hash1 hash1 hash2

theorem RevertToSnapshot_validRevisions (s r : StateDB) (id : SnapshotId)
    (h : s.RevertToSnapshot id = some r) : ∀ x ∈ r.validRevisions, x ∈ s.validRevisions := by
  unfold StateDB.RevertToSnapshot at h
  split at h
  · cases h
    intro x hx
    exact (List.mem_filter.mp hx).1
  · cases h

theorem SubRefund_validRevisions (s r : StateDB) (gas : Nat) (h : s.SubRefund gas = some r) :
    r.validRevisions = s.validRevisions := by
  unfold StateDB.SubRefund at h
  split at h
  · cases h
  · cases h
    rfl

/-- The snapshots a cache holds valid after a run are among those it held
before and those the `Snapshot()` calls of the run returned. -/
theorem run_validRevisions (calls : List Call) :
    ∀ (s t : StateDB) (ids : List SnapshotId), s.run calls = some (t, ids) →
      ∀ x ∈ t.validRevisions, x ∈ s.validRevisions ∨ x ∈ ids := by
  induction calls with
  | nil =>
    intro s t ids h x hx
    simp only [StateDB.run, Option.some.injEq, Prod.mk.injEq] at h
    rw [← h.1] at hx
    exact Or.inl hx
  | cons c rest ih =>
    intro s t ids h x hx
    cases c with
    | snapshot =>
      simp only [StateDB.run] at h
      cases hr : (s.Snapshot).2.run rest with
      | none => rw [hr] at h; cases h
      | some p =>
        obtain ⟨t', ids'⟩ := p
        rw [hr] at h
        simp only [Option.some.injEq, Prod.mk.injEq] at h
        obtain ⟨e1, e2⟩ := h
        subst e1
        subst e2
        rcases ih _ _ _ hr x hx with h1 | h1
        · simp only [StateDB.Snapshot, List.mem_append, List.mem_singleton] at h1
          rcases h1 with h1 | h1
          · exact Or.inl h1
          · right
            rw [h1]
            exact List.mem_cons_self _ _
        · exact Or.inr (List.mem_cons_of_mem _ h1)
    | revertToSnapshot id =>
      simp only [StateDB.run] at h
      cases hr : s.RevertToSnapshot id with
      | none => rw [hr] at h; cases h
      | some s1 =>
        rw [hr] at h
        rcases ih _ _ _ h x hx with h1 | h1
        · exact Or.inl (RevertToSnapshot_validRevisions s s1 id hr x h1)
        · exact Or.inr h1
    | mutate m =>
      simp only [StateDB.run] at h
      rcases ih _ _ _ h x hx with h1 | h1
      · rw [apply_validRevisions] at h1
        exact Or.inl h1
      · exact Or.inr h1
    | addRefund gas =>
      simp only [StateDB.run] at h
      rcases ih _ _ _ h x hx with h1 | h1
      · exact Or.inl h1
      · exact Or.inr h1
    | subRefund gas =>
      simp only [StateDB.run] at h
      cases hr : s.SubRefund gas with
      | none => rw [hr] at h; cases h
      | some s1 =>
        rw [hr] at h
        rcases ih _ _ _ h x hx with h1 | h1
        · rw [SubRefund_validRevisions s s1 gas hr] at h1
          exact Or.inl h1
        · exact Or.inr h1
    | selfDestruct a =>
      simp only [StateDB.run] at h
      rcases ih _ _ _ h x hx with h1 | h1
      · rw [SelfDestruct_validRevisions] at h1
        exact Or.inl h1
      · exact Or.inr h1

/-- C9: in the modelled State Cache, after any run of calls on a freshly
constructed cache, `RevertToSnapshot(id)` panics for every id that no
`Snapshot()` call of the run returned, and for every id that the cache no
longer holds valid because it was reverted past; it returns no cache then, so
nothing is reverted. -/
theorem C9_invalid_snapshot_panics (ctx : Ctx) (cfg : TxConfig) (calls : List Call)
    (s : StateDB) (ids : List SnapshotId) (hrun : (New ctx cfg).run calls = some (s, ids))
    (id : SnapshotId) (hid : id ∉ ids ∨ id ∉ s.validRevisions) :
    s.RevertToSnapshot id = none := by
  have hnv : id ∉ s.validRevisions := by
    rcases hid with hid | hid
    · intro hin
      rcases run_validRevisions calls _ _ _ hrun id hin with h1 | h1
      · simp [New] at h1
      · exact hid h1
    · exact hid
  unfold StateDB.RevertToSnapshot
  rw [if_neg (fun h => hnv h.1)]

theorem C9_invalid_snapshot_panics_witness :
    (New emptyCtx emptyTxConfig).RevertToSnapshot { journalLength := 1, logCount := 0 }
      = none ∧
    ((New emptyCtx emptyTxConfig).run
        [Call.snapshot, Call.mutate (Mutation.setNonce sampleAddress 7), Call.snapshot,
         Call.revertToSnapshot { journalLength := 0, logCount := 0 },
         Call.mutate (Mutation.setNonce sampleAddress 8)]).map
      (fun p => (p.2, p.1.journal.length,
        (p.1.RevertToSnapshot { journalLength := 2, logCount := 0 }).isSome))
      = some ([{ journalLength := 0, logCount := 0 }, { journalLength := 2, logCount := 0 }],
          2, false) :=
  ⟨C9_invalid_snapshot_panics emptyCtx emptyTxConfig [] (New emptyCtx emptyTxConfig) [] rfl
    { journalLength := 1, logCount := 0 } (Or.inl (by decide)), by decide⟩

/-- C10: for every refund counter value `r` and every gas amount `g`,
`AddRefund(g)` sets the counter to `r + g`; `SubRefund(g)` sets it to `r - g`
when `g ≤ r`; and `SubRefund(g)` with `g > r` panics rather than wrapping
around or clamping, so whenever `SubRefund(g)` returns, the counter it leaves
plus `g` is the counter it found: `GetRefund()` never returns an underflowed
value. -/
theorem C10_refund_counter (s : StateDB) (g : Nat) :
    (s.AddRefund g).GetRefund = s.GetRefund + g ∧
    (g ≤ s.GetRefund → ∃ s', s.SubRefund g = some s' ∧ s'.GetRefund = s.GetRefund - g) ∧
    (s.GetRefund < g → s.SubRefund g = none) ∧
    (∀ s', s.SubRefund g = some s' → g ≤ s.GetRefund ∧ s'.GetRefund + g = s.GetRefund) := by
  refine ⟨rfl, fun h => ?_, fun h => ?_, fun s' h => ?_⟩
  · have h' : ¬ g > s.refund := Nat.not_lt.mpr h
    exact ⟨{ s with
        journal := s.journal.append (journalEntry.refundChange s.refund)
        refund := s.refund - g },
      by simp only [StateDB.SubRefund, if_neg h'], rfl⟩
  · have h' : g > s.refund := h
    simp only [StateDB.SubRefund, if_pos h']
  · unfold StateDB.SubRefund at h
    by_cases hg : g > s.refund
    · rw [if_pos hg] at h
      cases h
    · rw [if_neg hg] at h
      have hle : g ≤ s.refund := Nat.not_lt.mp hg
      cases h
      exact ⟨hle, Nat.sub_add_cancel hle⟩

theorem C10_refund_counter_witness :
    (((New emptyCtx emptyTxConfig).AddRefund 5).AddRefund 10).GetRefund = 15 ∧
    (∃ s', ((New emptyCtx emptyTxConfig).AddRefund 5).SubRefund 3 = some s' ∧
      s'.GetRefund = 2) ∧
    ((New emptyCtx emptyTxConfig).AddRefund 5).SubRefund 10 = none :=
  ⟨(C10_refund_counter ((New emptyCtx emptyTxConfig).AddRefund 5) 10).1,
    (C10_refund_counter ((New emptyCtx emptyTxConfig).AddRefund 5) 3).2.1 (by decide),
    (C10_refund_counter ((New emptyCtx emptyTxConfig).AddRefund 5) 10).2.2.1 (by decide)⟩

/-! ## The backing store: reads after writes -/

theorem BytesToHash_bytes (h : Hash) : BytesToHash h.bytes = h := by
  obtain ⟨b, hb⟩ := h
  simp only [BytesToHash, setBytes, hb, Nat.sub_self, List.drop_zero, List.replicate_zero,
    List.nil_append]

theorem storageKey_inj (a a' : Address) (k k' : Hash)
    (h : AddressStoragePrefix a ++ k.bytes = AddressStoragePrefix a' ++ k'.bytes) :
    a = a' ∧ k = k' := by
  obtain ⟨ab, ha⟩ := a
  obtain ⟨ab', ha'⟩ := a'
  obtain ⟨kb, hk⟩ := k
  obtain ⟨kb', hk'⟩ := k'
  simp only [AddressStoragePrefix, KeyPrefixStorage, List.append_assoc, List.singleton_append,
    List.cons.injEq, true_and] at h
  have h2 := List.append_inj h (by simp only [List.length_cons, ha, ha'])
  obtain ⟨e1, e2⟩ := h2
  have e3 : ab = ab' := List.tail_eq_of_cons_eq e1
  subst e3
  subst e2
  exact ⟨rfl, rfl⟩

theorem storageKey_ne_codeKey (a : Address) (k : Hash) (ch : Bytes) :
    KeyPrefixCode ++ ch ≠ AddressStoragePrefix a ++ k.bytes := by
  intro h
  simp [AddressStoragePrefix, KeyPrefixStorage, KeyPrefixCode] at h

theorem Keeper_GetState_SetState (c : Ctx) (a a' : Address) (k k' v : Hash) :
    Keeper.GetState (Keeper.SetState c a k (commitValue v)) a' k'
      = if a = a' ∧ k = k' then v else Keeper.GetState c a' k' := by
  by_cases hv : v = zeroHash
  · have hcv : (commitValue v).length = 0 := by simp [commitValue, hv]
    simp only [Keeper.SetState, if_pos hcv, Keeper.GetState, AMap.get_erase]
    by_cases hk : AddressStoragePrefix a ++ k.bytes = AddressStoragePrefix a' ++ k'.bytes
    · have := storageKey_inj a a' k k' hk
      simp only [if_pos hk, if_pos this, hv]
    · have hne : ¬ (a = a' ∧ k = k') := by
        rintro ⟨e1, e2⟩
        exact hk (by rw [e1, e2])
      simp only [if_neg hk, if_neg hne]
  · have hcv : ¬ (commitValue v).length = 0 := by
      simp only [commitValue, if_neg hv, v.len]
      decide
    simp only [Keeper.SetState, if_neg hcv, Keeper.GetState, AMap.get_set]
    by_cases hk : AddressStoragePrefix a ++ k.bytes = AddressStoragePrefix a' ++ k'.bytes
    · have := storageKey_inj a a' k k' hk
      simp only [if_pos hk, if_pos this, if_neg hcv]
      simp only [commitValue, if_neg hv, BytesToHash_bytes]
    · have hne : ¬ (a = a' ∧ k = k') := by
        rintro ⟨e1, e2⟩
        exact hk (by rw [e1, e2])
      simp only [if_neg hk, if_neg hne]

theorem Keeper_SetState_accounts (c : Ctx) (a : Address) (k : Hash) (v : Bytes) :
    (Keeper.SetState c a k v).accounts = c.accounts := by
  unfold Keeper.SetState
  split <;> rfl

theorem Keeper_GetState_SetCode (c : Ctx) (ch code : Bytes) (a : Address) (k : Hash) :
    Keeper.GetState (Keeper.SetCode c ch code) a k = Keeper.GetState c a k := by
  have hne := storageKey_ne_codeKey a k ch
  by_cases hc : code.length = 0
  · simp only [Keeper.SetCode, if_pos hc, Keeper.GetState, AMap.get_erase, if_neg hne]
  · simp only [Keeper.SetCode, if_neg hc, Keeper.GetState, AMap.get_set, if_neg hne]

theorem Keeper_SetCode_accounts (c : Ctx) (ch code : Bytes) :
    (Keeper.SetCode c ch code).accounts = c.accounts := by
  unfold Keeper.SetCode
  split <;> rfl

theorem Keeper_SetAccount_ok (c : Ctx) (a : Address) (acct : Account) :
    ∃ c', Keeper.SetAccount c a acct = Except.ok c' ∧ c'.store = c.store ∧
      (AMap.get c'.accounts a).isSome = true ∧
      ∀ b, (AMap.get c.accounts b).isSome = true → (AMap.get c'.accounts b).isSome = true := by
  refine ⟨_, rfl, rfl, ?_, ?_⟩
  · simp only [AMap.get_set_same, Option.isSome_some]
  · intro b hb
    simp only [AMap.get_set]
    by_cases hab : a = b
    · simp only [if_pos hab, Option.isSome_some]
    · simp only [if_neg hab]
      exact hb

theorem Keeper_GetState_store (c c' : Ctx) (h : c'.store = c.store) (a : Address) (k : Hash) :
    Keeper.GetState c' a k = Keeper.GetState c a k := by
  unfold Keeper.GetState
  rw [h]

/-! ## Commit -/

theorem mem_insertKey (x k : Hash) (l : List Hash) : x ∈ insertKey k l ↔ x = k ∨ x ∈ l := by
  induction l with
  | nil => simp [insertKey]
  | cons h t ih =>
    unfold insertKey
    by_cases hlt : bytesLt h.bytes k.bytes = true
    · simp only [if_pos hlt, List.mem_cons, ih]
      tauto
    · simp only [if_neg hlt, List.mem_cons]

theorem mem_insertAddr (x a : Address) (l : List Address) :
    x ∈ insertAddr a l ↔ x = a ∨ x ∈ l := by
  induction l with
  | nil => simp [insertAddr]
  | cons h t ih =>
    unfold insertAddr
    by_cases hlt : bytesLt h.bytes a.bytes = true
    · simp only [if_pos hlt, List.mem_cons, ih]
      tauto
    · simp only [if_neg hlt, List.mem_cons]

theorem mem_keys_of_get {κ ν : Type} [DecidableEq κ] (m : AMap κ ν) (k : κ) (v : ν)
    (h : AMap.get m k = some v) : k ∈ AMap.keys m := by
  induction m with
  | nil => simp [AMap.get] at h
  | cons hd tl ih =>
    obtain ⟨k0, v0⟩ := hd
    simp only [AMap.get] at h
    simp only [AMap.keys, List.map_cons, List.mem_cons]
    by_cases h0 : k0 = k
    · exact Or.inl h0.symm
    · rw [if_neg h0] at h
      exact Or.inr (ih h)

theorem mem_SortedKeys (m : Storage) (k v : Hash) (h : AMap.get m k = some v) :
    k ∈ Storage.SortedKeys m := by
  have hk := mem_keys_of_get m k v h
  unfold Storage.SortedKeys
  generalize AMap.keys m = l at hk
  induction l with
  | nil => cases hk
  | cons x t ih =>
    simp only [List.foldr, mem_insertKey]
    rcases List.mem_cons.mp hk with e | e
    · exact Or.inl e
    · exact Or.inr (ih e)

theorem mem_sortedAddresses (s : StateDB) (a : Address) (o : stateObject)
    (h : AMap.get s.stateObjects a = some o) : a ∈ s.sortedAddresses := by
  have hk := mem_keys_of_get s.stateObjects a o h
  unfold StateDB.sortedAddresses
  generalize AMap.keys s.stateObjects = l at hk
  induction l with
  | nil => cases hk
  | cons x t ih =>
    simp only [List.foldr, mem_insertAddr]
    rcases List.mem_cons.mp hk with e | e
    · exact Or.inl e
    · exact Or.inr (ih e)

/-- The write of one dirty key during commit. -/
theorem commitStep_GetState (o : stateObject) (c : Ctx) (k : Hash) (a' : Address) (k' : Hash) :
    Keeper.GetState
      (match AMap.get o.dirtyStorage k with
        | some v => Keeper.SetState c o.Address k (commitValue v)
        | none => c) a' k'
      = match AMap.get o.dirtyStorage k with
        | some v => if o.address = a' ∧ k = k' then v else Keeper.GetState c a' k'
        | none => Keeper.GetState c a' k' := by
  cases AMap.get o.dirtyStorage k with
  | none => rfl
  | some v => exact Keeper_GetState_SetState c o.address a' k k' v

theorem commitStep_accounts (o : stateObject) (c : Ctx) (k : Hash) :
    (match AMap.get o.dirtyStorage k with
      | some v => Keeper.SetState c o.Address k (commitValue v)
      | none => c).accounts = c.accounts := by
  cases AMap.get o.dirtyStorage k with
  | none => rfl
  | some v => exact Keeper_SetState_accounts c _ k _

theorem commitStorage_accounts (o : stateObject) (ks : List Hash) :
    ∀ c : Ctx, (ks.foldl (fun c key =>
        match AMap.get o.dirtyStorage key with
        | some v => Keeper.SetState c o.Address key (commitValue v)
        | none => c) c).accounts = c.accounts := by
  induction ks with
  | nil => intro c; rfl
  | cons k rest ih =>
    intro c
    simp only [List.foldl]
    rw [ih, commitStep_accounts]

/-- Commit of the dirty storage of an object leaves alone every slot of
another address and every slot without a dirty entry. -/
theorem commitStorage_frame (o : stateObject) (a' : Address) (k' : Hash)
    (h : o.address ≠ a' ∨ AMap.get o.dirtyStorage k' = none) (ks : List Hash) :
    ∀ c : Ctx, Keeper.GetState (ks.foldl (fun c key =>
        match AMap.get o.dirtyStorage key with
        | some v => Keeper.SetState c o.Address key (commitValue v)
        | none => c) c) a' k' = Keeper.GetState c a' k' := by
  induction ks with
  | nil => intro c; rfl
  | cons k rest ih =>
    intro c
    simp only [List.foldl]
    rw [ih, commitStep_GetState]
    cases hd : AMap.get o.dirtyStorage k with
    | none => rfl
    | some v =>
      have hne : ¬ (o.address = a' ∧ k = k') := by
        rintro ⟨e1, e2⟩
        rcases h with h | h
        · exact h e1
        · rw [← e2, hd] at h
          cases h
      simp only [if_neg hne]

/-- Commit of the dirty storage of an object writes the dirty value of every
key it ranges over. -/
theorem commitStorage_write (o : stateObject) (a' : Address) (k' d : Hash)
    (ha : o.address = a') (hd : AMap.get o.dirtyStorage k' = some d) (ks : List Hash) :
    ∀ c : Ctx, (k' ∈ ks ∨ Keeper.GetState c a' k' = d) →
      Keeper.GetState (ks.foldl (fun c key =>
        match AMap.get o.dirtyStorage key with
        | some v => Keeper.SetState c o.Address key (commitValue v)
        | none => c) c) a' k' = d := by
  induction ks with
  | nil =>
    intro c h
    rcases h with h | h
    · cases h
    · exact h
  | cons k rest ih =>
    intro c h
    simp only [List.foldl]
    apply ih
    by_cases hin : k' ∈ rest
    · exact Or.inl hin
    · right
      rw [commitStep_GetState]
      by_cases hk : k = k'
      · subst hk
        simp only [hd, ha, and_self, if_true]
      · have hg : Keeper.GetState c a' k' = d := by
          rcases h with h | h
          · rcases List.mem_cons.mp h with e | e
            · exact (hk e.symm).elim
            · exact (hin e).elim
          · exact h
        cases AMap.get o.dirtyStorage k with
        | none => exact hg
        | some v =>
          have hne : ¬ (o.address = a' ∧ k = k') := fun e => hk e.2
          simp only [if_neg hne]
          exact hg

/-- Commit of an object that has no override and is not self-destructed
succeeds, writes its dirty storage, and can only add accounts. -/
theorem commitObject_ok (c : Ctx) (o : stateObject) (hov : o.overrideStorage = none)
    (hsd : o.selfDestructed = false) :
    ∃ c', commitObject c o = some (Except.ok c') ∧
      (∀ a' k', Keeper.GetState c' a' k'
        = Keeper.GetState ((Storage.SortedKeys o.dirtyStorage).foldl (fun c key =>
            match AMap.get o.dirtyStorage key with
            | some v => Keeper.SetState c o.Address key (commitValue v)
            | none => c) c) a' k') ∧
      (∀ b, (AMap.get c.accounts b).isSome = true → (AMap.get c'.accounts b).isSome = true) ∧
      (o.originalAccount = none → (AMap.get c'.accounts o.address).isSome = true) := by
  unfold commitObject
  rw [hov]
  simp only [hsd, Bool.false_eq_true, if_false]
  by_cases hdirty : (o.nonceDirty || o.codeDirty) = true
  · simp only [if_pos hdirty]
    obtain ⟨c', h1, h2, h3, h4⟩ := Keeper_SetAccount_ok
      (match o.codeDirty, o.code with
        | true, some code => Keeper.SetCode
            ((Storage.SortedKeys o.dirtyStorage).foldl (fun c key =>
              match AMap.get o.dirtyStorage key with
              | some v => Keeper.SetState c o.Address key (commitValue v)
              | none => c) c) o.CodeHash code
        | _, _ => (Storage.SortedKeys o.dirtyStorage).foldl (fun c key =>
              match AMap.get o.dirtyStorage key with
              | some v => Keeper.SetState c o.Address key (commitValue v)
              | none => c) c) o.Address o.account
    refine ⟨c', by rw [← h1], ?_, ?_, fun _ => h3⟩
    · intro a' k'
      rw [Keeper_GetState_store _ _ h2]
      split
      · exact Keeper_GetState_SetCode _ _ _ _ _
      · rfl
    · intro b hb
      apply h4
      split
      · rw [Keeper_SetCode_accounts, commitStorage_accounts]
        exact hb
      · rw [commitStorage_accounts]
        exact hb
  · simp only [if_neg hdirty]
    refine ⟨_, rfl, fun _ _ => rfl, ?_, ?_⟩
    · intro b hb
      rw [commitStorage_accounts]
      exact hb
    · intro hnone
      exfalso
      apply hdirty
      simp only [stateObject.nonceDirty, hnone, Bool.true_or]

/-- Commit of the objects of a cache that hold no override and are not
self-destructed succeeds; it leaves alone the slots without a dirty entry,
writes the dirty value of every slot of a committed address, and can only add
accounts. -/
theorem commitLoop_ok (objs : AMap Address stateObject)
    (hobjs : ∀ a o, AMap.get objs a = some o →
      o.address = a ∧ o.overrideStorage = none ∧ o.selfDestructed = false)
    (addrs : List Address) :
    ∀ c : Ctx, ∃ c', commitLoop objs addrs c = some (Except.ok c') ∧
      (∀ a' k', (∀ o, AMap.get objs a' = some o → AMap.get o.dirtyStorage k' = none) →
        Keeper.GetState c' a' k' = Keeper.GetState c a' k') ∧
      (∀ a' k' o d, AMap.get objs a' = some o → AMap.get o.dirtyStorage k' = some d →
        (a' ∈ addrs ∨ Keeper.GetState c a' k' = d) → Keeper.GetState c' a' k' = d) ∧
      (∀ b, (AMap.get c.accounts b).isSome = true → (AMap.get c'.accounts b).isSome = true) ∧
      (∀ a o, a ∈ addrs → AMap.get objs a = some o → o.originalAccount = none →
        (AMap.get c'.accounts a).isSome = true) := by
  induction addrs with
  | nil =>
    intro c
    refine ⟨c, rfl, fun _ _ _ => rfl, ?_, fun _ h => h, ?_⟩
    · intro a' k' o d _ _ h
      rcases h with h | h
      · cases h
      · exact h
    · intro a o h
      cases h
  | cons b rest ih =>
    intro c
    cases hb : AMap.get objs b with
    | none =>
      obtain ⟨c', h1, h2, h3, h4, h5⟩ := ih c
      refine ⟨c', by simp only [commitLoop, hb, h1], h2, ?_, h4, ?_⟩
      · intro a' k' o d ho hd h
        apply h3 a' k' o d ho hd
        rcases h with h | h
        · rcases List.mem_cons.mp h with e | e
          · rw [e, hb] at ho
            cases ho
          · exact Or.inl e
        · exact Or.inr h
      · intro a o ha ho hnone
        rcases List.mem_cons.mp ha with e | e
        · rw [e, hb] at ho
          cases ho
        · exact h5 a o e ho hnone
    | some ob =>
      obtain ⟨hba, hbov, hbsd⟩ := hobjs b ob hb
      obtain ⟨c1, g1, g2, g3, g4⟩ := commitObject_ok c ob hbov hbsd
      obtain ⟨c', h1, h2, h3, h4, h5⟩ := ih c1
      refine ⟨c', by simp only [commitLoop, hb, g1, h1], ?_, ?_, fun x hx => h4 x (g3 x hx), ?_⟩
      · intro a' k' hnone
        rw [h2 a' k' hnone, g2]
        apply commitStorage_frame
        by_cases hab : b = a'
        · right
          subst hab
          exact hnone ob hb
        · left
          rw [hba]
          exact hab
      · intro a' k' o d ho hd h
        apply h3 a' k' o d ho hd
        by_cases hab : b = a'
        · right
          subst hab
          rw [hb] at ho
          cases ho
          rw [g2]
          exact commitStorage_write ob b k' d hba hd _ c (Or.inl (mem_SortedKeys _ k' d hd))
        · have hframe : Keeper.GetState c1 a' k' = Keeper.GetState c a' k' := by
            rw [g2]
            apply commitStorage_frame
            left
            rw [hba]
            exact hab
          rcases h with h | h
          · rcases List.mem_cons.mp h with e | e
            · exact (hab e.symm).elim
            · exact Or.inl e
          · exact Or.inr (hframe.trans h)
      · intro a o ha ho hnone
        rcases List.mem_cons.mp ha with e | e
        · subst e
          rw [hb] at ho
          cases ho
          apply h4
          have := g4 hnone
          rw [hba] at this
          exact this
        · exact h5 a o e ho hnone

/-! ## Caches that only `SetState` has touched -/

theorem ObjInv_GetState_snd (ctx : Ctx) (a : Address) (o : stateObject) (k : Hash)
    (h : ObjInv ctx a o) : ObjInv ctx a (o.GetState ctx k).2 := by
  obtain ⟨h1, h2, h3, h4, h5⟩ := h
  obtain ⟨_, f2, f3, _, f5, _⟩ := GetState_fields ctx o k
  refine ⟨(GetState_address ctx o k).trans h1, f5.trans h2, f3.trans h3, ?_, by rw [f2]; exact h5⟩
  unfold stateObject.GetState
  cases AMap.get o.dirtyStorage k with
  | some v => exact h4
  | none =>
    dsimp only
    unfold stateObject.GetCommittedState
    rw [h2]
    dsimp only
    cases ho : AMap.get o.originStorage k with
    | some v => exact h4
    | none =>
      dsimp only
      intro k' v' hk'
      rw [AMap.get_set] at hk'
      by_cases hkk : k = k'
      · subst hkk
        rw [if_pos rfl] at hk'
        cases hk'
        simp only [stateObject.Address, h1]
      · rw [if_neg hkk] at hk'
        exact h4 k' v' hk'

theorem ObjInv_setState (ctx : Ctx) (a : Address) (o : stateObject) (k v : Hash)
    (h : ObjInv ctx a o) : ObjInv ctx a (o.setState k v) := h

theorem ObjInv_SetState (ctx : Ctx) (j : journal) (a : Address) (o : stateObject) (k v : Hash)
    (h : ObjInv ctx a o) : ObjInv ctx a (o.SetState ctx j k v).1 := by
  unfold stateObject.SetState
  by_cases hv : (o.GetState ctx k).1 = v
  · simp only [if_pos hv]
    exact ObjInv_GetState_snd ctx a o k h
  · simp only [if_neg hv]
    exact ObjInv_setState ctx a _ k v (ObjInv_GetState_snd ctx a o k h)

theorem getOrNewStateObject_CacheInv (ctx : Ctx) (s : StateDB) (h : CacheInv ctx s)
    (a : Address) :
    (s.getOrNewStateObject a).2.ctx = ctx ∧
    ObjInv ctx a (s.getOrNewStateObject a).1 ∧
    (∀ b o, AMap.get (s.getOrNewStateObject a).2.stateObjects b = some o → ObjInv ctx b o) ∧
    (∀ b, a ≠ b →
      AMap.get (s.getOrNewStateObject a).2.stateObjects b = AMap.get s.stateObjects b) ∧
    (∀ o, AMap.get s.stateObjects a = some o → (s.getOrNewStateObject a).1 = o) := by
  obtain ⟨hc, hobj⟩ := h
  unfold StateDB.getOrNewStateObject StateDB.getStateObject
  cases hg : AMap.get s.stateObjects a with
  | some o =>
    dsimp only
    exact ⟨hc, hobj a o hg, hobj, fun _ _ => rfl, fun o' ho' => by cases ho'; rfl⟩
  | none =>
    dsimp only
    cases hk : Keeper.GetAccount s.ctx a with
    | some acct =>
      dsimp only
      have hoi : ObjInv ctx a (newObject a (some acct)) := by
        refine ⟨rfl, rfl, rfl, ?_, ?_⟩
        · intro k v hkv
          simp [newObject, AMap.empty, AMap.get] at hkv
        · intro _
          rw [← hc]
          unfold Keeper.GetAccount at hk
          cases hacc : AMap.get s.ctx.accounts a with
          | none => rw [hacc] at hk; cases hk
          | some x => rfl
      refine ⟨hc, hoi, ?_, ?_, fun o' ho' => by cases ho'⟩
      · intro b o hb
        rw [AMap.get_set] at hb
        by_cases hab : a = b
        · subst hab
          rw [if_pos rfl] at hb
          cases hb
          exact hoi
        · rw [if_neg hab] at hb
          exact hobj b o hb
      · intro b hab
        rw [AMap.get_set, if_neg hab]
    | none =>
      dsimp only
      unfold StateDB.createObject StateDB.getStateObject
      simp only [hg, hk]
      have hoi : ObjInv ctx a (newObject a none) := by
        refine ⟨rfl, rfl, rfl, ?_, ?_⟩
        · intro k v hkv
          simp [newObject, AMap.empty, AMap.get] at hkv
        · intro hne
          exact (hne rfl).elim
      refine ⟨hc, hoi, ?_, ?_, fun o' ho' => by cases ho'⟩
      · intro b o hb
        rw [AMap.get_set] at hb
        by_cases hab : a = b
        · subst hab
          rw [if_pos rfl] at hb
          cases hb
          exact hoi
        · rw [if_neg hab] at hb
          exact hobj b o hb
      · intro b hab
        rw [AMap.get_set, if_neg hab]

theorem SetState_CacheInv (ctx : Ctx) (s : StateDB) (h : CacheInv ctx s) (a : Address)
    (k v : Hash) : CacheInv ctx (s.SetState a k v) := by
  obtain ⟨g1, g2, g3, _, _⟩ := getOrNewStateObject_CacheInv ctx s h a
  refine ⟨g1, ?_⟩
  intro b o hb
  simp only [StateDB.SetState, AMap.get_set] at hb
  by_cases hab : a = b
  · subst hab
    rw [if_pos rfl] at hb
    cases hb
    rw [g1]
    exact ObjInv_SetState ctx _ a _ k v g2
  · rw [if_neg hab] at hb
    exact g3 b o hb

theorem stateObject_SetState_GetState_other (ctx : Ctx) (j : journal) (o : stateObject)
    (k k' v : Hash) (hk : k ≠ k') :
    ((o.SetState ctx j k v).1.GetState ctx k').1 = (o.GetState ctx k').1 := by
  unfold stateObject.SetState
  by_cases hv : (o.GetState ctx k).1 = v
  · simp only [if_pos hv]
    exact GetState_stable ctx o k k'
  · simp only [if_neg hv]
    have h := (ObjEq_setState (ObjEq_GetState_snd ctx o k) k v).2.2.2.2.2.2.2.2 k'
    rw [h, GetState_val, GetState_val]
    simp only [stateObject.setState, AMap.get_set, if_neg hk]
    cases AMap.get o.dirtyStorage k' with
    | some d => rfl
    | none =>
      exact GetCommittedState_congr ctx (o.setState k v) o rfl rfl rfl k'

theorem SetState_SlotIs_same (ctx : Ctx) (s : StateDB) (h : CacheInv ctx s) (a : Address)
    (k v : Hash) : SlotIs ctx (s.SetState a k v) a k v := by
  obtain ⟨g1, _, _, _, _⟩ := getOrNewStateObject_CacheInv ctx s h a
  refine ⟨((s.getOrNewStateObject a).1.SetState (s.getOrNewStateObject a).2.ctx
      (s.getOrNewStateObject a).2.journal k v).1,
    by simp only [StateDB.SetState, AMap.get_set_same], ?_⟩
  rw [g1]
  exact stateObject_SetState_GetState ctx _ _ k v

theorem SetState_SlotIs_frame (ctx : Ctx) (s : StateDB) (h : CacheInv ctx s) (a a' : Address)
    (k k' v v' : Hash) (hne : ¬ (a = a' ∧ k = k')) (hp : SlotIs ctx s a' k' v') :
    SlotIs ctx (s.SetState a k v) a' k' v' := by
  obtain ⟨g1, _, _, g4, g5⟩ := getOrNewStateObject_CacheInv ctx s h a
  obtain ⟨o, ho, hv⟩ := hp
  by_cases hab : a = a'
  · subst hab
    have hk : k ≠ k' := fun e => hne ⟨rfl, e⟩
    refine ⟨((s.getOrNewStateObject a).1.SetState (s.getOrNewStateObject a).2.ctx
        (s.getOrNewStateObject a).2.journal k v).1,
      by simp only [StateDB.SetState, AMap.get_set_same], ?_⟩
    rw [g1, g5 o ho, stateObject_SetState_GetState_other ctx _ o k k' v hk]
    exact hv
  · refine ⟨o, ?_, hv⟩
    simp only [StateDB.SetState, AMap.get_set, if_neg hab]
    rw [g4 a' hab]
    exact ho

theorem writeAll_inv (ctx : Ctx) (ws : List (Address × Hash × Hash)) :
    ∀ s : StateDB, CacheInv ctx s →
      CacheInv ctx (s.writeAll ws) ∧
      ∀ a k v, (lastWrite ws a k = some v ∨ (lastWrite ws a k = none ∧ SlotIs ctx s a k v)) →
        SlotIs ctx (s.writeAll ws) a k v := by
  induction ws with
  | nil =>
    intro s h
    refine ⟨h, fun a k v hv => ?_⟩
    rcases hv with hv | hv
    · cases hv
    · exact hv.2
  | cons w rest ih =>
    intro s h
    have h1 := SetState_CacheInv ctx s h w.1 w.2.1 w.2.2
    obtain ⟨i1, i2⟩ := ih (s.SetState w.1 w.2.1 w.2.2) h1
    refine ⟨i1, fun a k v hv => ?_⟩
    apply i2 a k v
    cases hl : lastWrite rest a k with
    | some v0 =>
      left
      rcases hv with hv | hv
      · simp only [lastWrite, hl] at hv
        exact hv
      · simp only [lastWrite, hl] at hv
        cases hv.1
    | none =>
      right
      refine ⟨rfl, ?_⟩
      by_cases hm : w.1 = a ∧ w.2.1 = k
      · rcases hv with hv | hv
        · simp only [lastWrite, hl, if_pos hm] at hv
          cases hv
          obtain ⟨e1, e2⟩ := hm
          rw [← e1, ← e2]
          exact SetState_SlotIs_same ctx s h w.1 w.2.1 w.2.2
        · simp only [lastWrite, hl, if_pos hm] at hv
          cases hv.1
      · rcases hv with hv | hv
        · simp only [lastWrite, hl, if_neg hm] at hv
          cases hv
        · exact SetState_SlotIs_frame ctx s h w.1 a w.2.1 k w.2.2 v hm hv.2

theorem New_CacheInv (ctx : Ctx) (cfg : TxConfig) : CacheInv ctx (New ctx cfg) := by
  refine ⟨rfl, fun a o h => ?_⟩
  simp [New, AMap.empty, AMap.get] at h

/-- What a fresh cache reads from a backing store that has an account for the
address. -/
theorem New_GetState (ctx : Ctx) (cfg : TxConfig) (a : Address) (k : Hash)
    (h : (AMap.get ctx.accounts a).isSome = true) :
    ((New ctx cfg).GetState a k).1 = Keeper.GetState ctx a k ∧
    ((New ctx cfg).GetCommittedState a k).1 = Keeper.GetState ctx a k := by
  rw [StateDB.GetState_fst, StateDB.GetCommittedState_fst]
  cases hacc : AMap.get ctx.accounts a with
  | none => rw [hacc] at h; cases h
  | some acct =>
    have hr : (New ctx cfg).resolve a = some (newObject a (some
        { Nonce := acct.sequence
          CodeHash := if acct.isEth then acct.codeHash.bytes else EmptyCodeHash })) := by
      simp [StateDB.resolve, resolveIn, New, AMap.empty, AMap.get, Keeper.GetAccount, hacc]
    rw [hr]
    constructor <;> rfl

/-- C7: in the modelled State Cache, for every sequence of `SetState` calls on
a fresh cache over any backing store, `Commit` succeeds, and afterwards the
backing store read directly and a fresh cache built on it (`GetState` and
`GetCommittedState`) return, for every written slot, the last value written
to it (the zero hash when that value is the zero hash). -/
theorem C7_commit_round_trip (ctx : Ctx) (cfg cfg' : TxConfig)
    (ws : List (Address × Hash × Hash)) :
    ∃ ctx', ((New ctx cfg).writeAll ws).Commit = some (Except.ok ctx') ∧
      ∀ a k v, lastWrite ws a k = some v →
        Keeper.GetState ctx' a k = v ∧
        ((New ctx' cfg').GetState a k).1 = v ∧
        ((New ctx' cfg').GetCommittedState a k).1 = v := by
  obtain ⟨hinv, hslots⟩ := writeAll_inv ctx ws (New ctx cfg) (New_CacheInv ctx cfg)
  obtain ⟨hctx, hobj⟩ := hinv
  obtain ⟨ctx', h1, h2, h3, h4, h5⟩ := commitLoop_ok ((New ctx cfg).writeAll ws).stateObjects
    (fun a o ho => ⟨(hobj a o ho).1, (hobj a o ho).2.1, (hobj a o ho).2.2.1⟩)
    ((New ctx cfg).writeAll ws).sortedAddresses ((New ctx cfg).writeAll ws).ctx
  refine ⟨ctx', h1, fun a k v hv => ?_⟩
  obtain ⟨o, ho, hval⟩ := hslots a k v (Or.inl hv)
  obtain ⟨i1, i2, _, i4, i5⟩ := hobj a o ho
  have hmem := mem_sortedAddresses _ a o ho
  have hstore : Keeper.GetState ctx' a k = v := by
    cases hd : AMap.get o.dirtyStorage k with
    | some d =>
      rw [GetState_of_dirty ctx o k d hd] at hval
      rw [← hval]
      exact h3 a k o d ho hd (Or.inl hmem)
    | none =>
      rw [h2 a k (fun o' ho' => by rw [ho] at ho'; cases ho'; exact hd), hctx]
      rw [GetState_of_clean ctx o k hd] at hval
      rw [← hval]
      unfold stateObject.GetCommittedState
      rw [i2]
      dsimp only
      cases horig : AMap.get o.originStorage k with
      | some x => exact (i4 k x horig).symm
      | none => simp only [stateObject.Address, i1]
  have hacct : (AMap.get ctx'.accounts a).isSome = true := by
    cases horig : o.originalAccount with
    | none => exact h5 a o hmem ho horig
    | some acct =>
      apply h4
      rw [hctx]
      apply i5
      rw [horig]
      exact fun e => by cases e
  obtain ⟨n1, n2⟩ := New_GetState ctx' cfg' a k hacct
  exact ⟨hstore, n1.trans hstore, n2.trans hstore⟩

theorem C7_commit_round_trip_witness :
    ∃ ctx', ((New emptyCtx emptyTxConfig).writeAll
        [(sampleAddress, hash1, hash1), (sampleAddress2, hash2, hash3),
         (sampleAddress, hash1, zeroHash)]).Commit = some (Except.ok ctx') ∧
      Keeper.GetState ctx' sampleAddress hash1 = zeroHash ∧
      ((New ctx' emptyTxConfig).GetState sampleAddress hash1).1 = zeroHash ∧
      ((New ctx' emptyTxConfig).GetCommittedState sampleAddress hash1).1 = zeroHash :=
  (C7_commit_round_trip emptyCtx emptyTxConfig emptyTxConfig
    [(sampleAddress, hash1, hash1), (sampleAddress2, hash2, hash3),
     (sampleAddress, hash1, zeroHash)]).imp
    (fun _ h => ⟨h.1, h.2 sampleAddress hash1 zeroHash (by decide)⟩)

/-! ## Deleting an account from the backing store -/

theorem mem_insertEntry_self (e : Bytes × Bytes) (l : List (Bytes × Bytes)) :
    e ∈ insertEntry e l := by
  induction l with
  | nil => simp [insertEntry]
  | cons h t ih =>
    unfold insertEntry
    by_cases h1 : bytesLt h.1 e.1 = true
    · simp only [if_pos h1, List.mem_cons]
      exact Or.inr ih
    · by_cases h2 : h.1 = e.1
      · simp only [if_neg h1, if_pos h2, List.mem_cons, true_or]
      · simp only [if_neg h1, if_neg h2, List.mem_cons, true_or]

theorem mem_insertEntry_other (e x : Bytes × Bytes) (l : List (Bytes × Bytes))
    (hx : x ∈ l) (hne : x.1 ≠ e.1) : x ∈ insertEntry e l := by
  induction l with
  | nil => cases hx
  | cons h t ih =>
    unfold insertEntry
    by_cases h1 : bytesLt h.1 e.1 = true
    · simp only [if_pos h1, List.mem_cons]
      rcases List.mem_cons.mp hx with e1 | e1
      · exact Or.inl e1
      · exact Or.inr (ih e1)
    · by_cases h2 : h.1 = e.1
      · simp only [if_neg h1, if_pos h2, List.mem_cons]
        rcases List.mem_cons.mp hx with e1 | e1
        · rw [e1] at hne
          exact (hne h2).elim
        · exact Or.inr e1
      · simp only [if_neg h1, if_neg h2, List.mem_cons]
        exact Or.inr (List.mem_cons.mp hx)

/-- Every visible binding of a store is among the bindings an iterator
yields. -/
theorem mem_sortedEntries (st : KVStore) (k v : Bytes) (h : AMap.get st k = some v) :
    (k, v) ∈ sortedEntries st := by
  induction st with
  | nil => simp [AMap.get] at h
  | cons hd tl ih =>
    obtain ⟨k0, v0⟩ := hd
    simp only [AMap.get] at h
    simp only [sortedEntries, List.foldr]
    by_cases h0 : k0 = k
    · rw [if_pos h0] at h
      cases h
      subst h0
      exact mem_insertEntry_self _ _
    · rw [if_neg h0] at h
      exact mem_insertEntry_other _ _ _ (ih h) (fun e => h0 e.symm)

theorem forEachLoop_always {σ : Type} (f : Hash → Hash → σ → σ) (l : List (Bytes × Bytes)) :
    ∀ acc : σ, forEachLoop (fun key value c => (true, f key value c)) l acc
      = l.foldl (fun c e => f (BytesToHash e.1) (BytesToHash e.2) c) acc := by
  induction l with
  | nil => intro acc; rfl
  | cons e rest ih =>
    intro acc
    simp only [forEachLoop, if_true, List.foldl]
    exact ih _

theorem BytesToHash_storageKey (a : Address) (k : Hash) :
    BytesToHash (AddressStoragePrefix a ++ k.bytes) = k := by
  obtain ⟨ab, ha⟩ := a
  obtain ⟨kb, hk⟩ := k
  have hl : (AddressStoragePrefix ⟨ab, ha⟩ ++ kb).length - 32 = (AddressStoragePrefix ⟨ab, ha⟩).length := by
    simp only [AddressStoragePrefix, KeyPrefixStorage, List.length_append, List.length_cons,
      List.length_nil, ha, hk]
  simp only [BytesToHash, setBytes, hl, List.drop_left, hk, Nat.sub_self, List.replicate_zero,
    List.nil_append]

/-- The deletions of `DeleteAccount` from the store: what is left. -/
theorem deleteStorage_spec (a : Address) (l : List (Bytes × Bytes)) :
    ∀ c : Ctx,
      (l.foldl (fun c e => Keeper.SetState c a (BytesToHash e.1) []) c).accounts = c.accounts ∧
      (l.foldl (fun c e => Keeper.SetState c a (BytesToHash e.1) []) c).balances = c.balances ∧
      (∀ ch, AMap.get (l.foldl (fun c e => Keeper.SetState c a (BytesToHash e.1) []) c).store
          (KeyPrefixCode ++ ch) = AMap.get c.store (KeyPrefixCode ++ ch)) ∧
      (∀ b k, b ≠ a →
        Keeper.GetState (l.foldl (fun c e => Keeper.SetState c a (BytesToHash e.1) []) c) b k
          = Keeper.GetState c b k) ∧
      (∀ k : Hash, (AMap.get c.store (AddressStoragePrefix a ++ k.bytes) = none ∨
            ∃ v, (AddressStoragePrefix a ++ k.bytes, v) ∈ l) →
        AMap.get (l.foldl (fun c e => Keeper.SetState c a (BytesToHash e.1) []) c).store
          (AddressStoragePrefix a ++ k.bytes) = none) := by
  induction l with
  | nil =>
    intro c
    refine ⟨rfl, rfl, fun _ => rfl, fun _ _ _ => rfl, fun k h => ?_⟩
    rcases h with h | ⟨v, hv⟩
    · exact h
    · cases hv
  | cons e rest ih =>
    intro c
    simp only [List.foldl]
    obtain ⟨i1, i2, i3, i4, i5⟩ := ih (Keeper.SetState c a (BytesToHash e.1) [])
    have hstore : (Keeper.SetState c a (BytesToHash e.1) []).store
        = AMap.erase c.store (AddressStoragePrefix a ++ (BytesToHash e.1).bytes) := rfl
    refine ⟨i1, i2, ?_, ?_, ?_⟩
    · intro ch
      rw [i3, hstore, AMap.get_erase,
        if_neg (fun e' => storageKey_ne_codeKey a (BytesToHash e.1) ch e'.symm)]
    · intro b k hb
      rw [i4 b k hb]
      have := Keeper_GetState_SetState c a b (BytesToHash e.1) k zeroHash
      have hcv : commitValue zeroHash = [] := by simp [commitValue]
      rw [hcv] at this
      rw [this, if_neg (fun e' => hb e'.1.symm)]
    · intro k h
      apply i5
      rw [hstore, AMap.get_erase]
      by_cases hk : AddressStoragePrefix a ++ (BytesToHash e.1).bytes
          = AddressStoragePrefix a ++ k.bytes
      · left
        rw [if_pos hk]
      · rw [if_neg hk]
        rcases h with h | ⟨v, hv⟩
        · exact Or.inl h
        · rcases List.mem_cons.mp hv with e1 | e1
          · exfalso
            apply hk
            rw [← e1]
            simp only [BytesToHash_storageKey]
          · exact Or.inr ⟨v, e1⟩

theorem hasPfx_append (p b : Bytes) : hasPfx p (p ++ b) = true := by
  unfold hasPfx
  induction p with
  | nil => simp [List.isPrefixOf]
  | cons x t ih => simp [List.isPrefixOf, ih]

/-- `DeleteAccount` of an Ethereum account succeeds, removes the account and
every storage slot of the address, and leaves the code blobs, the balances and
the storage of every other address untouched. -/
theorem Keeper_DeleteAccount_eth (c : Ctx) (a : Address) (acct : AuthAccount)
    (hacct : AMap.get c.accounts a = some acct) (heth : acct.isEth = true) :
    ∃ c', Keeper.DeleteAccount c a = Except.ok c' ∧
      AMap.get c'.accounts a = none ∧
      (∀ k : Hash, AMap.get c'.store (AddressStoragePrefix a ++ k.bytes) = none) ∧
      (∀ ch, Keeper.GetCode c' ch = Keeper.GetCode c ch) ∧
      (∀ b k, b ≠ a → Keeper.GetState c' b k = Keeper.GetState c b k) := by
  obtain ⟨d1, _, d3, d4, d5⟩ := deleteStorage_spec a
    (KVStorePrefixIterator c.store (AddressStoragePrefix a)) c
  refine ⟨_, by
    simp only [Keeper.DeleteAccount, Keeper.DeleteAccountCtx, hacct, heth, if_true, Keeper.ForEachStorage]
    rw [forEachLoop_always (fun key _ c => Keeper.SetState c a key [])], ?_, ?_, ?_, ?_⟩
  · simp only [AMap.get_erase, if_true]
  · intro k
    apply d5
    cases hg : AMap.get c.store (AddressStoragePrefix a ++ k.bytes) with
    | none => exact Or.inl rfl
    | some v =>
      right
      refine ⟨v, ?_⟩
      simp only [KVStorePrefixIterator, List.mem_filter]
      exact ⟨mem_sortedEntries _ _ _ hg, hasPfx_append _ _⟩
  · intro ch
    exact d3 ch.bytes
  · intro b k hb
    exact d4 b k hb

/-! ## Self-destruct -/

theorem SelfDestruct_New (ctx : Ctx) (cfg : TxConfig) (a : Address) (account : Account)
    (h : Keeper.GetAccount ctx a = some account) :
    ((New ctx cfg).SelfDestruct a).stateObjects
      = [(a, (newObject a (some account)).markSelfDestructed)] ∧
    ((New ctx cfg).SelfDestruct a).ctx.store = ctx.store ∧
    ((New ctx cfg).SelfDestruct a).ctx.accounts = ctx.accounts := by
  have hget : (New ctx cfg).getStateObject a
      = (some (newObject a (some account)),
         { New ctx cfg with stateObjects := [(a, newObject a (some account))] }) := by
    simp [StateDB.getStateObject, New, AMap.empty, AMap.get, AMap.set, h]
  unfold StateDB.SelfDestruct
  rw [hget]
  dsimp only
  split
  · exact ⟨by simp [AMap.set], rfl, rfl⟩
  · exact ⟨by simp [AMap.set], rfl, rfl⟩

theorem New_GetCode_some (ctx : Ctx) (cfg : TxConfig) (a : Address) (code : Bytes)
    (h : ((New ctx cfg).GetCode a).1 = some code) :
    ∃ account acct, Keeper.GetAccount ctx a = some account ∧
      AMap.get ctx.accounts a = some acct ∧ acct.isEth = true ∧
      account.CodeHash ≠ EmptyCodeHash ∧
      Keeper.GetCode ctx (BytesToHash account.CodeHash) = some code := by
  rw [StateDB.GetCode_fst] at h
  have hr : (New ctx cfg).resolve a = match Keeper.GetAccount ctx a with
      | none => none
      | some account => some (newObject a (some account)) := by
    simp [StateDB.resolve, resolveIn, New, AMap.empty, AMap.get]
  rw [hr] at h
  cases hk : Keeper.GetAccount ctx a with
  | none =>
    rw [hk] at h
    cases h
  | some account =>
    rw [hk] at h
    dsimp only at h
    rw [Code_val] at h
    have hc : (newObject a (some account)).code = none := rfl
    have ha : (newObject a (some account)).account = account := rfl
    rw [hc, ha] at h
    dsimp only at h
    by_cases he : account.CodeHash = EmptyCodeHash
    · rw [if_pos he] at h
      cases h
    · rw [if_neg he] at h
      unfold Keeper.GetAccount at hk
      cases hacc : AMap.get ctx.accounts a with
      | none =>
        rw [hacc] at hk
        cases hk
      | some acct =>
        rw [hacc] at hk
        cases hk
        refine ⟨_, acct, rfl, rfl, ?_, he, h⟩
        by_cases hb : acct.isEth = true
        · exact hb
        · exfalso
          apply he
          simp only [hb, if_false]
          rfl

theorem markSelfDestructed_reads (c : Ctx) (a : Address) (account : Account) (k : Hash) :
    ((newObject a (some account)).markSelfDestructed.GetState c k).1 = Keeper.GetState c a k ∧
    ((newObject a (some account)).markSelfDestructed.Code c).1
      = ((newObject a (some account)).Code c).1 := by
  constructor
  · rfl
  · rw [Code_val, Code_val]
    rfl

/-- C8: in the modelled State Cache, for an account `a` of the backing store
whose code the cache reads as `code`: between `SelfDestruct(a)` and `Commit`
the cache still returns the pre-destruct storage values and code; `Commit`
then succeeds and leaves `Exist(a) = false` on a fresh cache, every storage
key of `a` absent from the backing store, and the code still stored under the
account's former code hash. -/
theorem C8_self_destruct (ctx : Ctx) (cfg cfg' : TxConfig) (a : Address) (code : Bytes)
    (hcode : ((New ctx cfg).GetCode a).1 = some code) :
    (∀ k, (((New ctx cfg).SelfDestruct a).GetState a k).1 = ((New ctx cfg).GetState a k).1) ∧
    (((New ctx cfg).SelfDestruct a).GetCode a).1 = some code ∧
    ∃ ctx' account, ((New ctx cfg).SelfDestruct a).Commit = some (Except.ok ctx') ∧
      Keeper.GetAccount ctx a = some account ∧
      (New ctx' cfg').Exist a = false ∧
      (∀ k : Hash, AMap.get ctx'.store (AddressStoragePrefix a ++ k.bytes) = none) ∧
      (∀ k, Keeper.GetState ctx' a k = zeroHash) ∧
      Keeper.GetCode ctx' (BytesToHash account.CodeHash) = some code := by
  obtain ⟨account, acct, hk, hacc, heth, hne, hgc⟩ := New_GetCode_some ctx cfg a code hcode
  obtain ⟨hso, hst, hac⟩ := SelfDestruct_New ctx cfg a account hk
  have hres : ((New ctx cfg).SelfDestruct a).resolve a
      = some (newObject a (some account)).markSelfDestructed := by
    simp [StateDB.resolve, resolveIn, hso, AMap.get]
  have hsome : (AMap.get ctx.accounts a).isSome = true := by rw [hacc]; rfl
  refine ⟨fun k => ?_, ?_, ?_⟩
  · rw [(New_GetState ctx cfg a k hsome).1, StateDB.GetState_fst, hres]
    dsimp only
    rw [(markSelfDestructed_reads _ a account k).1]
    exact Keeper_GetState_store _ _ hst a k
  · rw [StateDB.GetCode_fst, hres]
    dsimp only
    rw [Code_val]
    have hc : (newObject a (some account)).markSelfDestructed.code = none := rfl
    have ha : (newObject a (some account)).markSelfDestructed.account = account := rfl
    rw [hc, ha]
    dsimp only
    rw [if_neg hne]
    unfold Keeper.GetCode at hgc ⊢
    rw [hst]
    exact hgc
  · have hacc1 : AMap.get ((New ctx cfg).SelfDestruct a).ctx.accounts a = some acct := by
      rw [hac]; exact hacc
    obtain ⟨c', d1, d2, d3, d4, _⟩ :=
      Keeper_DeleteAccount_eth ((New ctx cfg).SelfDestruct a).ctx a acct hacc1 heth
    refine ⟨c', account, ?_, hk, ?_, d3, ?_, ?_⟩
    · have hcommit : commitObject ((New ctx cfg).SelfDestruct a).ctx
          (newObject a (some account)).markSelfDestructed
          = some (Keeper.DeleteAccount ((New ctx cfg).SelfDestruct a).ctx a) := rfl
      simp only [StateDB.Commit, StateDB.sortedAddresses, hso, AMap.keys, List.map, List.foldr,
        insertAddr, commitLoop, AMap.get, if_true, hcommit, d1]
    · simp [StateDB.Exist, New, AMap.empty, AMap.get, Keeper.GetAccount, d2]
    · intro k
      simp only [Keeper.GetState, d3 k]
    · rw [d4]
      unfold Keeper.GetCode at hgc ⊢
      rw [hst]
      exact hgc

theorem C8_self_destruct_witness :
    (∀ k, (((New contractCtx emptyTxConfig).SelfDestruct sampleAddress).GetState
        sampleAddress k).1 = ((New contractCtx emptyTxConfig).GetState sampleAddress k).1) ∧
    (((New contractCtx emptyTxConfig).SelfDestruct sampleAddress).GetCode sampleAddress).1
      = some [1, 2, 3] ∧
    ∃ ctx' account,
      ((New contractCtx emptyTxConfig).SelfDestruct sampleAddress).Commit
        = some (Except.ok ctx') ∧
      Keeper.GetAccount contractCtx sampleAddress = some account ∧
      (New ctx' emptyTxConfig).Exist sampleAddress = false ∧
      (∀ k : Hash, AMap.get ctx'.store (AddressStoragePrefix sampleAddress ++ k.bytes) = none) ∧
      (∀ k, Keeper.GetState ctx' sampleAddress k = zeroHash) ∧
      Keeper.GetCode ctx' (BytesToHash account.CodeHash) = some [1, 2, 3] :=
  C8_self_destruct contractCtx emptyTxConfig emptyTxConfig sampleAddress [1, 2, 3] (by decide)

/-! ## State objects: nonce, code and emptiness -/

/-- C13: `SetNonce(n)` appends exactly one nonce-change record carrying the
nonce the object had before the call (also when `n` is the current nonce), and
afterwards `Nonce()` returns `n` while the code hash, the code, the storage
caches, the override, the original account, the address and the flags are
unchanged. -/
theorem C13_SetNonce (j : journal) (s : stateObject) (n : Nat) :
    (s.SetNonce j n).2 = j ++ [journalEntry.nonceChange s.address s.Nonce] ∧
    (s.SetNonce j n).1.Nonce = n ∧
    (s.SetNonce j n).1.CodeHash = s.CodeHash ∧
    (s.SetNonce j n).1.code = s.code ∧
    (s.SetNonce j n).1.originStorage = s.originStorage ∧
    (s.SetNonce j n).1.dirtyStorage = s.dirtyStorage ∧
    (s.SetNonce j n).1.overrideStorage = s.overrideStorage ∧
    (s.SetNonce j n).1.originalAccount = s.originalAccount ∧
    (s.SetNonce j n).1.address = s.address ∧
    (s.SetNonce j n).1.selfDestructed = s.selfDestructed ∧
    (s.SetNonce j n).1.newContract = s.newContract :=
  ⟨rfl, rfl, rfl, rfl, rfl, rfl, rfl, rfl, rfl, rfl, rfl⟩

/-- C14: `Code()` returns the cached bytes when the code cache holds some,
and no code (with `CodeSize() = 0`) when the cache is unset and the code hash
is the empty-code hash, in both cases whatever the backing store holds; only
otherwise is the code fetched from the backing store by the object's code
hash. -/
theorem C14_Code (ctx ctx' : Ctx) (s : stateObject) :
    (∀ c, s.code = some c →
      (s.Code ctx).1 = some c ∧ s.Code ctx' = s.Code ctx) ∧
    (s.code = none → s.CodeHash = EmptyCodeHash →
      (s.Code ctx).1 = none ∧ (s.CodeSize ctx).1 = 0 ∧
      s.Code ctx' = s.Code ctx ∧ s.CodeSize ctx' = s.CodeSize ctx) ∧
    (s.code = none → s.CodeHash ≠ EmptyCodeHash →
      (s.Code ctx).1 = Keeper.GetCode ctx (BytesToHash s.CodeHash)) := by
  refine ⟨fun c hc => ?_, fun hc hh => ?_, fun hc hh => ?_⟩
  · simp only [stateObject.Code, hc, and_self]
  · simp only [stateObject.CodeSize, stateObject.Code, hc, if_pos hh, and_self]
  · simp only [stateObject.Code, hc, if_neg hh]

theorem C14_Code_witness :
    (∀ c, (newObject sampleAddress none).code = some c →
      ((newObject sampleAddress none).Code emptyCtx).1 = some c ∧
      (newObject sampleAddress none).Code contractCtx
        = (newObject sampleAddress none).Code emptyCtx) ∧
    ((newObject sampleAddress none).code = none →
      (newObject sampleAddress none).CodeHash = EmptyCodeHash →
      ((newObject sampleAddress none).Code emptyCtx).1 = none ∧
      ((newObject sampleAddress none).CodeSize emptyCtx).1 = 0 ∧
      (newObject sampleAddress none).Code contractCtx
        = (newObject sampleAddress none).Code emptyCtx ∧
      (newObject sampleAddress none).CodeSize contractCtx
        = (newObject sampleAddress none).CodeSize emptyCtx) ∧
    ((newObject sampleAddress none).code = none →
      (newObject sampleAddress none).CodeHash ≠ EmptyCodeHash →
      ((newObject sampleAddress none).Code emptyCtx).1
        = Keeper.GetCode emptyCtx (BytesToHash (newObject sampleAddress none).CodeHash)) :=
  C14_Code emptyCtx contractCtx (newObject sampleAddress none)

/-- C15: `empty()` is true if and only if the current nonce is 0 and the
current code hash is the canonical empty-code hash; an object created by
`newObject` with no account is empty, and `IsContract()` is false for
`NewEmptyAccount()`. -/
theorem C15_empty (s : stateObject) (a : Address) :
    (s.empty = true ↔ s.account.Nonce = 0 ∧ s.account.CodeHash = EmptyCodeHash) ∧
    (newObject a none).empty = true ∧
    NewEmptyAccount.IsContract = false := by
  refine ⟨?_, ?_, ?_⟩
  · simp only [stateObject.empty, Bool.and_eq_true, decide_eq_true_eq]
  · simp [stateObject.empty, newObject, NewEmptyAccount]
  · simp [Account.IsContract, NewEmptyAccount]

/-- C12, as stated, fails: on an object of the store `contractCtx`, which
holds the code `[1, 2, 3]` under `sampleCodeHash`, `SetCode(sampleCodeHash,
nil)` is followed by a `Code()` that returns `[1, 2, 3]`, not the nil byte
string that was set. -/
theorem C12_counterexample :
    ((((newObject sampleAddress none).SetCode contractCtx [] sampleCodeHash none).1).Code
      contractCtx).1 = some [1, 2, 3] := by
  decide

/-- C12, amended: `SetCode(h, c)` appends exactly one code-change record
carrying the code hash and the code (as returned by `Code()`) the object had
immediately before the call, and afterwards `CodeHash()` returns `h`; `Code()`
returns `c` when `c` is not nil (the empty non-nil byte string included), and
for a nil `c` it returns nil when `h` is the empty-code hash and otherwise
what the backing store holds under `h`. -/
theorem C12_SetCode (ctx : Ctx) (j : journal) (s : stateObject) (h : Hash)
    (c : Option Bytes) :
    (s.SetCode ctx j h c).2
      = j ++ [journalEntry.codeChange s.address s.CodeHash (s.Code ctx).1] ∧
    (s.SetCode ctx j h c).1.CodeHash = h.bytes ∧
    ((s.SetCode ctx j h c).1.Code ctx).1
      = (match c with
         | some b => some b
         | none => if h.bytes = EmptyCodeHash then none else Keeper.GetCode ctx h) := by
  have ha : (s.Code ctx).2.address = s.address := Code_snd_address ctx s
  have hh : (s.Code ctx).2.CodeHash = s.CodeHash := by
    unfold stateObject.CodeHash
    rw [(ObjEq_Code_snd ctx s).2.1]
  refine ⟨?_, rfl, ?_⟩
  · simp only [stateObject.SetCode, journal.append, ha, hh]
  · rw [Code_val]
    cases c with
    | some b => rfl
    | none =>
      simp only [stateObject.SetCode, stateObject.setCode, BytesToHash_bytes]

theorem C12_SetCode_witness :
    ((newObject sampleAddress none).SetCode contractCtx [] sampleCodeHash (some [])).2
      = [] ++ [journalEntry.codeChange (newObject sampleAddress none).address
          (newObject sampleAddress none).CodeHash
          ((newObject sampleAddress none).Code contractCtx).1] ∧
    ((newObject sampleAddress none).SetCode contractCtx [] sampleCodeHash (some [])).1.CodeHash
      = sampleCodeHash.bytes ∧
    (((newObject sampleAddress none).SetCode contractCtx [] sampleCodeHash (some [])).1.Code
        contractCtx).1
      = (match (some [] : Option Bytes) with
         | some b => some b
         | none =>
           if sampleCodeHash.bytes = EmptyCodeHash then none
           else Keeper.GetCode contractCtx sampleCodeHash) :=
  C12_SetCode contractCtx [] (newObject sampleAddress none) sampleCodeHash (some [])

/-! ## State objects: the storage override -/

/-- C11, as stated, fails for the nil map: after `SetStorage(nil)` on an
object of address 101 over the store `contractCtx`, which holds 2 at slot 1,
`GetCommittedState(1)` and `GetState(1)` read 2 from the backing store, not
the zero hash of a key that the map does not hold. -/
theorem C11_counterexample :
    ((((newObject sampleAddress none).SetStorage none).GetCommittedState contractCtx hash1).1
      = hash2) ∧
    ((((newObject sampleAddress none).SetStorage none).GetState contractCtx hash1).1
      = hash2) ∧
    hash2 ≠ zeroHash := by
  decide

/-- C11, amended: after `SetStorage(m)` with a map `m` that is not nil (empty
or not), for every key `k` both `GetState(k)` and `GetCommittedState(k)`
return `m[k]` if `k` is a key of `m` and the zero hash otherwise, whatever the
previous caches held, and the backing store is not read: the results are the
same over any two backing stores. -/
theorem C11_SetStorage (ctx ctx' : Ctx) (s : stateObject) (m : Storage) (k : Hash) :
    ((s.SetStorage (some m)).GetState ctx k).1
      = (match AMap.get m k with
         | some v => v
         | none => zeroHash) ∧
    ((s.SetStorage (some m)).GetCommittedState ctx k).1
      = (match AMap.get m k with
         | some v => v
         | none => zeroHash) ∧
    (s.SetStorage (some m)).GetState ctx' k = (s.SetStorage (some m)).GetState ctx k ∧
    (s.SetStorage (some m)).GetCommittedState ctx' k
      = (s.SetStorage (some m)).GetCommittedState ctx k := by
  have hd : AMap.get (s.SetStorage (some m)).dirtyStorage k = none := rfl
  have hc : ∀ c : Ctx, (s.SetStorage (some m)).GetCommittedState c k
      = (match AMap.get m k with
         | some v => (v, s.SetStorage (some m))
         | none => (zeroHash, s.SetStorage (some m))) := by
    intro c
    simp only [stateObject.GetCommittedState, stateObject.SetStorage]
  have hg : ∀ c : Ctx, (s.SetStorage (some m)).GetState c k
      = (s.SetStorage (some m)).GetCommittedState c k :=
    fun c => GetState_of_clean c _ k hd
  refine ⟨?_, ?_, ?_, ?_⟩
  · rw [hg, hc]
    cases AMap.get m k <;> rfl
  · rw [hc]
    cases AMap.get m k <;> rfl
  · rw [hg, hg, hc, hc]
  · rw [hc, hc]

theorem C11_SetStorage_witness :
    ((dirtyObject.SetStorage (some (AMap.set AMap.empty hash1 hash3))).GetState
        contractCtx hash1).1
      = (match AMap.get (AMap.set AMap.empty hash1 hash3 : Storage) hash1 with
         | some v => v
         | none => zeroHash) ∧
    ((dirtyObject.SetStorage (some (AMap.set AMap.empty hash1 hash3))).GetCommittedState
        contractCtx hash1).1
      = (match AMap.get (AMap.set AMap.empty hash1 hash3 : Storage) hash1 with
         | some v => v
         | none => zeroHash) ∧
    (dirtyObject.SetStorage (some (AMap.set AMap.empty hash1 hash3))).GetState emptyCtx hash1
      = (dirtyObject.SetStorage (some (AMap.set AMap.empty hash1 hash3))).GetState
          contractCtx hash1 ∧
    (dirtyObject.SetStorage (some (AMap.set AMap.empty hash1 hash3))).GetCommittedState
        emptyCtx hash1
      = (dirtyObject.SetStorage (some (AMap.set AMap.empty hash1 hash3))).GetCommittedState
          contractCtx hash1 :=
  C11_SetStorage contractCtx emptyCtx dirtyObject (AMap.set AMap.empty hash1 hash3) hash1

/-! ## The backing store: `SetState` then `GetState` -/

/-- C18: after `Keeper.SetState(a, k, v)`, `Keeper.GetState(a, k)` returns the
zero hash if `v` has length 0 and `common.BytesToHash(v)` otherwise; and
`Keeper.GetState(a, k)` returns the zero hash for every slot that holds no
entry. -/
theorem C18_SetState_GetState (ctx : Ctx) (a : Address) (k : Hash) (v : Bytes) :
    Keeper.GetState (Keeper.SetState ctx a k v) a k
      = (if v.length = 0 then zeroHash else BytesToHash v) ∧
    (AMap.get ctx.store (AddressStoragePrefix a ++ k.bytes) = none →
      Keeper.GetState ctx a k = zeroHash) := by
  constructor
  · by_cases hv : v.length = 0
    · simp only [Keeper.SetState, if_pos hv, Keeper.GetState, AMap.get_erase, if_true]
    · simp only [Keeper.SetState, if_neg hv, Keeper.GetState, AMap.get_set_same]
  · intro h
    simp only [Keeper.GetState, h]

theorem C18_SetState_GetState_witness :
    Keeper.GetState (Keeper.SetState contractCtx sampleAddress hash1 [7]) sampleAddress hash1
      = (if ([7] : Bytes).length = 0 then zeroHash else BytesToHash [7]) ∧
    (AMap.get contractCtx.store (AddressStoragePrefix sampleAddress ++ hash3.bytes) = none →
      Keeper.GetState contractCtx sampleAddress hash3 = zeroHash) :=
  C18_SetState_GetState contractCtx sampleAddress hash3 [7] |>.imp
    (fun _ => (C18_SetState_GetState contractCtx sampleAddress hash1 [7]).1) id

/-! ## The lexicographic order on byte strings -/

theorem bytesLt_irrefl (a : Bytes) : bytesLt a a = false := by
  induction a with
  | nil => rfl
  | cons x t ih => simp only [bytesLt, lt_self_iff_false, if_false, ih]

theorem bytesLt_asymm (a : Bytes) : ∀ b : Bytes, bytesLt a b = true → bytesLt b a = false := by
  induction a with
  | nil =>
    intro b _
    cases b <;> rfl
  | cons x t ih =>
    intro b h
    cases b with
    | nil => simp [bytesLt] at h
    | cons y u =>
      simp only [bytesLt] at h ⊢
      by_cases hxy : x < y
      · simp only [if_neg (lt_asymm hxy), if_pos hxy]
      · by_cases hyx : y < x
        · simp [hxy, hyx] at h
        · simp only [if_neg hxy, if_neg hyx] at h ⊢
          exact ih u h

theorem bytesLt_total (a : Bytes) :
    ∀ b : Bytes, bytesLt a b = false → bytesLt b a = false → a = b := by
  induction a with
  | nil =>
    intro b h _
    cases b with
    | nil => rfl
    | cons y u => simp [bytesLt] at h
  | cons x t ih =>
    intro b h h'
    cases b with
    | nil => simp [bytesLt] at h'
    | cons y u =>
      simp only [bytesLt] at h h'
      by_cases hxy : x < y
      · simp [hxy] at h
      · by_cases hyx : y < x
        · simp [hyx] at h'
        · simp only [if_neg hxy, if_neg hyx] at h h'
          have hx : x = y := le_antisymm (not_lt.mp hyx) (not_lt.mp hxy)
          rw [hx, ih u h h']

theorem bytesLt_trans (a : Bytes) :
    ∀ b c : Bytes, bytesLt a b = true → bytesLt b c = true → bytesLt a c = true := by
  induction a with
  | nil =>
    intro b c h h'
    cases b with
    | nil => simp [bytesLt] at h
    | cons y u =>
      cases c with
      | nil => simp [bytesLt] at h'
      | cons z w => rfl
  | cons x t ih =>
    intro b c h h'
    cases b with
    | nil => simp [bytesLt] at h
    | cons y u =>
      cases c with
      | nil => simp [bytesLt] at h'
      | cons z w =>
        simp only [bytesLt] at h h' ⊢
        by_cases hxy : x < y
        · by_cases hyz : y < z
          · simp only [if_pos (lt_trans hxy hyz)]
          · by_cases hzy : z < y
            · simp [hyz, hzy] at h'
            · have hy : y = z := le_antisymm (not_lt.mp hzy) (not_lt.mp hyz)
              rw [← hy]
              simp only [if_pos hxy]
        · by_cases hyx : y < x
          · simp [hxy, hyx] at h
          · have hx : x = y := le_antisymm (not_lt.mp hyx) (not_lt.mp hxy)
            simp only [if_neg hxy, if_neg hyx] at h
            rw [hx]
            by_cases hyz : y < z
            · simp only [if_pos hyz]
            · by_cases hzy : z < y
              · simp [hyz, hzy] at h'
              · simp only [if_neg hyz, if_neg hzy] at h' ⊢
                exact ih u w h h'

theorem bytesLt_append_left (p a b : Bytes) : bytesLt (p ++ a) (p ++ b) = bytesLt a b := by
  induction p with
  | nil => rfl
  | cons x t ih =>
    show bytesLt (x :: (t ++ a)) (x :: (t ++ b)) = bytesLt a b
    simp only [bytesLt, lt_self_iff_false, if_false, ih]

theorem bytesLt_ne (a b : Bytes) (h : bytesLt a b = true) : a ≠ b := by
  intro e
  rw [e, bytesLt_irrefl] at h
  cases h

theorem Hash_ext (a b : Hash) (h : a.bytes = b.bytes) : a = b := by
  obtain ⟨x, hx⟩ := a
  obtain ⟨y, hy⟩ := b
  simp only at h
  subst h
  rfl

theorem hashLe_isTotal : IsTotal Hash hashLe where
  total a b := by
    unfold hashLe
    by_cases h : bytesLt b.bytes a.bytes = true
    · exact Or.inr (bytesLt_asymm _ _ h)
    · exact Or.inl (Bool.not_eq_true _ ▸ h)

theorem hashLe_isTrans : IsTrans Hash hashLe where
  trans a b c := by
    unfold hashLe
    intro h1 h2
    by_cases h : bytesLt c.bytes a.bytes = true
    · exfalso
      by_cases hcb : bytesLt c.bytes b.bytes = true
      · rw [hcb] at h2
        cases h2
      · by_cases hbc : bytesLt b.bytes c.bytes = true
        · rw [bytesLt_trans _ _ _ hbc h] at h1
          cases h1
        · have e := bytesLt_total _ _ (Bool.not_eq_true _ ▸ hbc) (Bool.not_eq_true _ ▸ hcb)
          rw [e, h] at h1
          cases h1
    · exact Bool.not_eq_true _ ▸ h

theorem hashLe_isAntisymm : IsAntisymm Hash hashLe where
  antisymm a b := by
    unfold hashLe
    intro h1 h2
    exact Hash_ext a b (bytesLt_total _ _ h2 h1)

/-! ## `SortedKeys` -/

theorem insertKey_eq_orderedInsert (k : Hash) (l : List Hash) :
    insertKey k l = List.orderedInsert hashLe k l := by
  induction l with
  | nil => rfl
  | cons h t ih =>
    unfold insertKey
    rw [List.orderedInsert]
    by_cases hlt : bytesLt h.bytes k.bytes = true
    · have hn : ¬ hashLe k h := by
        unfold hashLe
        rw [hlt]
        exact fun e => by cases e
      rw [if_pos hlt, if_neg hn, ih]
    · have hp : hashLe k h := by
        unfold hashLe
        exact Bool.not_eq_true _ ▸ hlt
      rw [if_neg hlt, if_pos hp]

theorem SortedKeys_eq_insertionSort (s : Storage) :
    Storage.SortedKeys s = List.insertionSort hashLe (AMap.keys s) := by
  unfold Storage.SortedKeys
  induction AMap.keys s with
  | nil => rfl
  | cons k t ih => simp only [List.foldr, List.insertionSort, ih, insertKey_eq_orderedInsert]

theorem mem_keys_iff_get {κ ν : Type} [DecidableEq κ] (m : AMap κ ν) (k : κ) :
    k ∈ AMap.keys m ↔ ∃ v, AMap.get m k = some v := by
  constructor
  · intro h
    induction m with
    | nil => cases h
    | cons hd tl ih =>
      obtain ⟨k0, v0⟩ := hd
      simp only [AMap.get]
      by_cases h0 : k0 = k
      · exact ⟨v0, by rw [if_pos h0]⟩
      · rw [if_neg h0]
        simp only [AMap.keys, List.map_cons, List.mem_cons] at h
        rcases h with h | h
        · exact (h0 h.symm).elim
        · exact ih h
  · rintro ⟨v, hv⟩
    exact mem_keys_of_get m k v hv

/-- C16: for a storage map (whose keys are unique, as those of a Go map are),
`SortedKeys` is the list of exactly the keys of the map, each occurring once
(its length is the number of entries), in strictly ascending lexicographic
order of the key bytes; two maps with the same key set yield the same list,
whatever the order of insertion. -/
theorem C16_SortedKeys (s : Storage) (hnd : (AMap.keys s).Nodup) :
    (∀ k, k ∈ Storage.SortedKeys s ↔ ∃ v, AMap.get s k = some v) ∧
    (Storage.SortedKeys s).Nodup ∧
    (Storage.SortedKeys s).length = (AMap.keys s).length ∧
    List.Pairwise (fun a b => bytesLt a.bytes b.bytes = true) (Storage.SortedKeys s) ∧
    ∀ s' : Storage, (AMap.keys s').Nodup →
      (∀ k, (∃ v, AMap.get s' k = some v) ↔ ∃ v, AMap.get s k = some v) →
      Storage.SortedKeys s' = Storage.SortedKeys s := by
  haveI := hashLe_isTotal
  haveI := hashLe_isTrans
  haveI := hashLe_isAntisymm
  have hperm : ∀ m : Storage, List.Perm (Storage.SortedKeys m) (AMap.keys m) := by
    intro m
    rw [SortedKeys_eq_insertionSort]
    exact List.perm_insertionSort hashLe _
  have hsorted : ∀ m : Storage, List.Sorted hashLe (Storage.SortedKeys m) := by
    intro m
    rw [SortedKeys_eq_insertionSort]
    exact List.sorted_insertionSort hashLe _
  have hnd' : (Storage.SortedKeys s).Nodup := (hperm s).nodup_iff.mpr hnd
  refine ⟨fun k => ?_, hnd', (hperm s).length_eq, ?_, ?_⟩
  · rw [(hperm s).mem_iff, mem_keys_iff_get]
  · have hboth := List.Pairwise.and (hsorted s) hnd'
    refine List.Pairwise.imp ?_ hboth
    intro a b hab
    obtain ⟨hle, hne⟩ := hab
    unfold hashLe at hle
    by_cases hlt : bytesLt a.bytes b.bytes = true
    · exact hlt
    · exact (hne (Hash_ext a b (bytesLt_total _ _ (Bool.not_eq_true _ ▸ hlt) hle))).elim
  · intro s' hnds' hkeys
    apply List.eq_of_perm_of_sorted (r := hashLe) _ (hsorted s') (hsorted s)
    refine ((hperm s').trans ?_).trans (hperm s).symm
    rw [List.perm_ext_iff_of_nodup hnds' hnd]
    intro k
    rw [mem_keys_iff_get, mem_keys_iff_get]
    exact hkeys k

theorem C16_SortedKeys_witness :
    (∀ k, k ∈ Storage.SortedKeys sampleStorage ↔ ∃ v, AMap.get sampleStorage k = some v) ∧
    (Storage.SortedKeys sampleStorage).Nodup ∧
    (Storage.SortedKeys sampleStorage).length = (AMap.keys sampleStorage).length ∧
    List.Pairwise (fun a b => bytesLt a.bytes b.bytes = true)
      (Storage.SortedKeys sampleStorage) ∧
    (∀ s' : Storage, (AMap.keys s').Nodup →
      (∀ k, (∃ v, AMap.get s' k = some v) ↔ ∃ v, AMap.get sampleStorage k = some v) →
      Storage.SortedKeys s' = Storage.SortedKeys sampleStorage) ∧
    Storage.SortedKeys sampleStorage = [hash1, hash2] :=
  ⟨(C16_SortedKeys sampleStorage (by decide)).1,
   (C16_SortedKeys sampleStorage (by decide)).2.1,
   (C16_SortedKeys sampleStorage (by decide)).2.2.1,
   (C16_SortedKeys sampleStorage (by decide)).2.2.2.1,
   (C16_SortedKeys sampleStorage (by decide)).2.2.2.2, by decide⟩

/-! ## Execution logs -/

theorem AddLog_txConfig (s : StateDB) (l : Log) : (s.AddLog l).txConfig = s.txConfig := rfl

theorem addLogs_logs (ls : List Log) :
    ∀ s : StateDB, (s.addLogs ls).logs = s.logs ++ stampFrom s.txConfig s.logs.length ls := by
  induction ls with
  | nil =>
    intro s
    simp only [StateDB.addLogs, stampFrom, List.append_nil]
  | cons l rest ih =>
    intro s
    simp only [StateDB.addLogs, stampFrom]
    rw [ih (s.AddLog l), AddLog_txConfig]
    simp only [StateDB.AddLog, List.length_append, List.length_singleton, List.append_assoc,
      List.singleton_append]

theorem stampFrom_at (cfg : TxConfig) (ls : List Log) :
    ∀ (n i : Nat) (l : Log), ls[i]? = some l →
      (stampFrom cfg n ls)[i]?
        = some { l with TxIndex := cfg.TxIndex, Index := cfg.LogIndex + (n + i) } := by
  induction ls with
  | nil =>
    intro n i l h
    simp at h
  | cons x rest ih =>
    intro n i l h
    cases i with
    | zero =>
      simp only [List.getElem?_cons_zero, Option.some.injEq] at h
      subst h
      simp only [stampFrom, List.getElem?_cons_zero, Nat.add_zero]
    | succ i =>
      simp only [List.getElem?_cons_succ] at h
      simp only [stampFrom, List.getElem?_cons_succ]
      rw [ih (n + 1) i l h]
      have e : n + 1 + i = n + (i + 1) := by omega
      rw [e]

theorem stampFrom_index_of_getElem (cfg : TxConfig) (ls : List Log) :
    ∀ (n i : Nat) (x : Log), (stampFrom cfg n ls)[i]? = some x →
      x.Index = cfg.LogIndex + (n + i) ∧ x.TxIndex = cfg.TxIndex := by
  induction ls with
  | nil =>
    intro n i x h
    simp [stampFrom] at h
  | cons y rest ih =>
    intro n i x h
    cases i with
    | zero =>
      simp only [stampFrom, List.getElem?_cons_zero, Option.some.injEq] at h
      subst h
      exact ⟨rfl, rfl⟩
    | succ i =>
      simp only [stampFrom, List.getElem?_cons_succ] at h
      have e : n + 1 + i = n + (i + 1) := by omega
      rw [← e]
      exact ih (n + 1) i x h

theorem stampFrom_length (cfg : TxConfig) (ls : List Log) :
    ∀ n : Nat, (stampFrom cfg n ls).length = ls.length := by
  induction ls with
  | nil => intro n; rfl
  | cons y rest ih =>
    intro n
    simp only [stampFrom, List.length_cons, ih]

theorem stampFrom_increasing (cfg : TxConfig) (ls : List Log) :
    ∀ n : Nat,
      (∀ x ∈ stampFrom cfg n ls, cfg.LogIndex + n ≤ x.Index) ∧
      List.Pairwise (fun a b : Log => a.Index < b.Index) (stampFrom cfg n ls) := by
  induction ls with
  | nil =>
    intro n
    exact ⟨fun x hx => (by cases hx), List.Pairwise.nil⟩
  | cons y rest ih =>
    intro n
    obtain ⟨i1, i2⟩ := ih (n + 1)
    constructor
    · intro x hx
      simp only [stampFrom, List.mem_cons] at hx
      rcases hx with hx | hx
      · rw [hx]
      · have := i1 x hx
        omega
    · simp only [stampFrom, List.pairwise_cons]
      refine ⟨fun x hx => ?_, i2⟩
      have := i1 x hx
      omega

/-- C17: on a cache constructed with starting log index offset `L` and
transaction index `T`, the n-th log added with `AddLog` (n = 0, 1, 2, ...) is
recorded with `Index = L + n` and `TxIndex = T` at the moment it is added (the
log list after the first `n + 1` calls ends with it, and later calls leave it
in place), and `Logs()` returns the recorded logs in the order they were
added, with strictly increasing `Index`. -/
theorem C17_AddLog (ctx : Ctx) (cfg : TxConfig) (ls : List Log) :
    ((New ctx cfg).addLogs ls).Logs.length = ls.length ∧
    (∀ (n : Nat) (l : Log), ls[n]? = some l →
      ((New ctx cfg).addLogs ls).Logs[n]?
        = some { l with TxIndex := cfg.TxIndex, Index := cfg.LogIndex + n }) ∧
    (∀ (n : Nat) (l : Log), ls[n]? = some l →
      (((New ctx cfg).addLogs (ls.take n)).AddLog l).Logs
        = ((New ctx cfg).addLogs (ls.take n)).Logs
          ++ [{ l with TxIndex := cfg.TxIndex, Index := cfg.LogIndex + n }]) ∧
    (∀ (n : Nat) (x : Log),
      ((New ctx cfg).addLogs ls).Logs[n]? = some x →
        x.Index = cfg.LogIndex + n ∧ x.TxIndex = cfg.TxIndex) ∧
    List.Pairwise (fun a b : Log => a.Index < b.Index) ((New ctx cfg).addLogs ls).Logs := by
  have hlogs : ∀ xs : List Log, ((New ctx cfg).addLogs xs).Logs = stampFrom cfg 0 xs := by
    intro xs
    unfold StateDB.Logs
    rw [addLogs_logs]
    rfl
  have hcfg : ∀ xs : List Log, ((New ctx cfg).addLogs xs).txConfig = cfg := by
    intro xs
    have h : ∀ (ys : List Log) (s : StateDB), (s.addLogs ys).txConfig = s.txConfig := by
      intro ys
      induction ys with
      | nil => intro s; rfl
      | cons y rest ih =>
        intro s
        simp only [StateDB.addLogs]
        rw [ih (s.AddLog y), AddLog_txConfig]
    rw [h xs (New ctx cfg)]
    rfl
  refine ⟨?_, fun n l h => ?_, fun n l h => ?_, fun n x h => ?_, ?_⟩
  · rw [hlogs]
    exact stampFrom_length cfg ls 0
  · rw [hlogs, stampFrom_at cfg ls 0 n l h, Nat.zero_add]
  · have hn : n < ls.length := by
      rcases Nat.lt_or_ge n ls.length with hlt | hge
      · exact hlt
      · rw [List.getElem?_eq_none hge] at h
        cases h
    have hlen : ((New ctx cfg).addLogs (ls.take n)).logs.length = n := by
      have := hlogs (ls.take n)
      unfold StateDB.Logs at this
      rw [this, stampFrom_length, List.length_take]
      omega
    simp only [StateDB.Logs, StateDB.AddLog, hcfg, hlen]
  · rw [hlogs] at h
    have := stampFrom_index_of_getElem cfg ls 0 n x h
    rw [Nat.zero_add] at this
    exact this
  · rw [hlogs]
    exact (stampFrom_increasing cfg ls 0).2

theorem C17_AddLog_witness :
    ((New emptyCtx testLogTxConfig).addLogs [sampleLog, sampleLog]).Logs.length = 2 ∧
    ((New emptyCtx testLogTxConfig).addLogs [sampleLog, sampleLog]).Logs[1]?
      = some { sampleLog with TxIndex := 1, Index := 2 } ∧
    List.Pairwise (fun a b : Log => a.Index < b.Index)
      ((New emptyCtx testLogTxConfig).addLogs [sampleLog, sampleLog]).Logs :=
  ⟨(C17_AddLog emptyCtx testLogTxConfig [sampleLog, sampleLog]).1,
   (C17_AddLog emptyCtx testLogTxConfig [sampleLog, sampleLog]).2.1 1 sampleLog rfl,
   (C17_AddLog emptyCtx testLogTxConfig [sampleLog, sampleLog]).2.2.2.2⟩

/-! ## The order of iteration over the store -/

theorem mem_insertEntry (e x : Bytes × Bytes) (l : List (Bytes × Bytes))
    (hx : x ∈ insertEntry e l) : x = e ∨ x ∈ l := by
  induction l with
  | nil =>
    simp only [insertEntry, List.mem_singleton] at hx
    exact Or.inl hx
  | cons h t ih =>
    unfold insertEntry at hx
    by_cases h1 : bytesLt h.1 e.1 = true
    · simp only [if_pos h1, List.mem_cons] at hx
      rcases hx with hx | hx
      · exact Or.inr (List.mem_cons.mpr (Or.inl hx))
      · rcases ih hx with h2 | h2
        · exact Or.inl h2
        · exact Or.inr (List.mem_cons.mpr (Or.inr h2))
    · by_cases h2 : h.1 = e.1
      · simp only [if_neg h1, if_pos h2, List.mem_cons] at hx
        rcases hx with hx | hx
        · exact Or.inl hx
        · exact Or.inr (List.mem_cons.mpr (Or.inr hx))
      · simp only [if_neg h1, if_neg h2, List.mem_cons] at hx
        rcases hx with hx | hx | hx
        · exact Or.inl hx
        · exact Or.inr (List.mem_cons.mpr (Or.inl hx))
        · exact Or.inr (List.mem_cons.mpr (Or.inr hx))

theorem insertEntry_sorted (e : Bytes × Bytes) (l : List (Bytes × Bytes))
    (hs : List.Pairwise (fun x y : Bytes × Bytes => bytesLt x.1 y.1 = true) l) :
    List.Pairwise (fun x y : Bytes × Bytes => bytesLt x.1 y.1 = true) (insertEntry e l) ∧
    ∀ x ∈ insertEntry e l, x = e ∨ (x ∈ l ∧ x.1 ≠ e.1) := by
  induction l with
  | nil =>
    simp only [insertEntry, List.pairwise_cons, List.Pairwise.nil, and_true, List.mem_singleton]
    exact ⟨fun a ha => (by cases ha), fun x hx => Or.inl hx⟩
  | cons h t ih =>
    obtain ⟨hh, ht⟩ := List.pairwise_cons.mp hs
    obtain ⟨ih1, ih2⟩ := ih ht
    unfold insertEntry
    by_cases h1 : bytesLt h.1 e.1 = true
    · simp only [if_pos h1]
      refine ⟨List.pairwise_cons.mpr ⟨fun x hx => ?_, ih1⟩, fun x hx => ?_⟩
      · rcases mem_insertEntry e x t hx with h3 | h3
        · rw [h3]
          exact h1
        · exact hh x h3
      · rcases List.mem_cons.mp hx with h3 | h3
        · refine Or.inr ⟨List.mem_cons.mpr (Or.inl h3), ?_⟩
          rw [h3]
          exact bytesLt_ne _ _ h1
        · rcases ih2 x h3 with h4 | ⟨h4, h5⟩
          · exact Or.inl h4
          · exact Or.inr ⟨List.mem_cons.mpr (Or.inr h4), h5⟩
    · by_cases h2 : h.1 = e.1
      · simp only [if_neg h1, if_pos h2]
        refine ⟨List.pairwise_cons.mpr ⟨fun x hx => ?_, ht⟩, fun x hx => ?_⟩
        · rw [← h2]
          exact hh x hx
        · rcases List.mem_cons.mp hx with h3 | h3
          · exact Or.inl h3
          · refine Or.inr ⟨List.mem_cons.mpr (Or.inr h3), ?_⟩
            have := bytesLt_ne _ _ (hh x h3)
            rw [h2] at this
            exact fun e1 => this e1.symm
      · simp only [if_neg h1, if_neg h2]
        have hlt : bytesLt e.1 h.1 = true := by
          cases hb : bytesLt e.1 h.1 with
          | true => rfl
          | false =>
            have hf : bytesLt h.1 e.1 = false := by
              cases hc : bytesLt h.1 e.1 with
              | true => exact (h1 hc).elim
              | false => rfl
            exact (h2 (bytesLt_total _ _ hf hb)).elim
        refine ⟨List.pairwise_cons.mpr ⟨fun x hx => ?_, hs⟩, fun x hx => ?_⟩
        · rcases List.mem_cons.mp hx with h3 | h3
          · rw [h3]
            exact hlt
          · exact bytesLt_trans _ _ _ hlt (hh x h3)
        · rcases List.mem_cons.mp hx with h3 | h3
          · exact Or.inl h3
          · refine Or.inr ⟨h3, ?_⟩
            rcases List.mem_cons.mp h3 with h4 | h4
            · rw [h4]
              exact h2
            · have := bytesLt_ne _ _ (bytesLt_trans _ _ _ hlt (hh x h4))
              exact fun e1 => this e1.symm

/-- The bindings an iterator yields are in strictly ascending key order. -/
theorem sortedEntries_sorted (st : KVStore) :
    List.Pairwise (fun x y : Bytes × Bytes => bytesLt x.1 y.1 = true) (sortedEntries st) := by
  induction st with
  | nil => exact List.Pairwise.nil
  | cons hd tl ih => exact (insertEntry_sorted hd _ ih).1

/-- Every binding an iterator yields is a visible binding of the store. -/
theorem get_of_mem_sortedEntries (st : KVStore) :
    ∀ x : Bytes × Bytes, x ∈ sortedEntries st → AMap.get st x.1 = some x.2 := by
  induction st with
  | nil =>
    intro x hx
    cases hx
  | cons hd tl ih =>
    intro x hx
    obtain ⟨k0, v0⟩ := hd
    rcases (insertEntry_sorted (k0, v0) _ (sortedEntries_sorted tl)).2 x hx with h1 | ⟨h1, h2⟩
    · rw [h1]
      simp only [AMap.get, if_true]
    · simp only [AMap.get]
      rw [if_neg (fun e1 => h2 e1.symm)]
      exact ih x h1

theorem mem_of_get (st : KVStore) (k v : Bytes) (h : AMap.get st k = some v) :
    (k, v) ∈ storeEntries st := by
  unfold storeEntries
  induction st with
  | nil => simp [AMap.get] at h
  | cons hd tl ih =>
    obtain ⟨k0, v0⟩ := hd
    simp only [AMap.get] at h
    by_cases h0 : k0 = k
    · rw [if_pos h0] at h
      cases h
      subst h0
      exact List.mem_cons_self _ _
    · rw [if_neg h0] at h
      exact List.mem_cons_of_mem _ (ih h)

/-! ## The invocations of the visitor -/

theorem forEachLoop_record {σ : Type} (cb : Hash → Hash → σ → Bool × σ)
    (l : List (Bytes × Bytes)) :
    ∀ (s : σ) (log : List (Hash × Hash × Bool)),
      forEachLoop (recordCb cb) l (s, log)
        = (forEachLoop cb l s, log ++ visitList cb (l.map entryHashes) s) := by
  induction l with
  | nil =>
    intro s log
    simp only [forEachLoop, List.map_nil, visitList, List.append_nil]
  | cons e rest ih =>
    intro s log
    simp only [forEachLoop, recordCb, List.map_cons, visitList, entryHashes]
    by_cases hc : (cb (BytesToHash e.1) (BytesToHash e.2) s).1 = true
    · simp only [hc, if_true]
      rw [ih]
      simp only [entryHashes, List.append_assoc, List.singleton_append]
    · have hf : (cb (BytesToHash e.1) (BytesToHash e.2) s).1 = false := by
        cases hb : (cb (BytesToHash e.1) (BytesToHash e.2) s).1 with
        | true => exact (hc hb).elim
        | false => rfl
      simp only [hf, Bool.false_eq_true, if_false]

theorem visits_eq {σ : Type} (ctx : Ctx) (a : Address) (cb : Hash → Hash → σ → Bool × σ)
    (init : σ) :
    visits ctx a cb init
      = visitList cb
          ((KVStorePrefixIterator ctx.store (AddressStoragePrefix a)).map entryHashes) init := by
  unfold visits Keeper.ForEachStorage
  rw [forEachLoop_record]
  rfl

theorem ForEachStorage_record {σ : Type} (ctx : Ctx) (a : Address)
    (cb : Hash → Hash → σ → Bool × σ) (init : σ) :
    (Keeper.ForEachStorage ctx a (recordCb cb) (init, [])).1
      = Keeper.ForEachStorage ctx a cb init := by
  unfold Keeper.ForEachStorage
  rw [forEachLoop_record]

theorem mem_visitList {σ : Type} (cb : Hash → Hash → σ → Bool × σ) (l : List (Hash × Hash)) :
    ∀ (s : σ) (x : Hash × Hash × Bool), x ∈ visitList cb l s → (x.1, x.2.1) ∈ l := by
  induction l with
  | nil =>
    intro s x hx
    cases hx
  | cons e rest ih =>
    intro s x hx
    simp only [visitList, List.mem_cons] at hx
    rcases hx with hx | hx
    · rw [hx]
      exact List.mem_cons_self _ _
    · by_cases hc : (cb e.1 e.2 s).1 = true
      · rw [if_pos hc] at hx
        exact List.mem_cons_of_mem _ (ih _ x hx)
      · rw [if_neg hc] at hx
        cases hx

theorem visitList_alwaysTrue (l : List (Hash × Hash)) :
    visitList alwaysTrue l () = l.map (fun e => (e.1, e.2, true)) := by
  induction l with
  | nil => rfl
  | cons e rest ih =>
    simp only [visitList, alwaysTrue, if_true, List.map_cons]
    exact congrArg _ ih

theorem visitList_prefix {σ : Type} (cb : Hash → Hash → σ → Bool × σ) (l : List (Hash × Hash)) :
    ∀ s : σ, (visitList cb l s).map (fun x => (x.1, x.2.1)) <+: l := by
  induction l with
  | nil =>
    intro s
    exact List.prefix_refl _
  | cons e rest ih =>
    intro s
    simp only [visitList, List.map_cons]
    by_cases hc : (cb e.1 e.2 s).1 = true
    · rw [if_pos hc]
      exact (List.prefix_cons_inj e).mpr (ih _)
    · rw [if_neg hc]
      exact (List.prefix_cons_inj e).mpr (List.nil_prefix)

theorem visitList_true_before_last {σ : Type} (cb : Hash → Hash → σ → Bool × σ)
    (l : List (Hash × Hash)) :
    ∀ (s : σ) (i : Nat) (x : Hash × Hash × Bool), (visitList cb l s)[i]? = some x →
      i + 1 < (visitList cb l s).length → x.2.2 = true := by
  induction l with
  | nil =>
    intro s i x hx
    simp [visitList] at hx
  | cons e rest ih =>
    intro s i x hx hlen
    simp only [visitList] at hx hlen
    by_cases hc : (cb e.1 e.2 s).1 = true
    · rw [if_pos hc] at hx hlen
      cases i with
      | zero =>
        simp only [List.getElem?_cons_zero, Option.some.injEq] at hx
        rw [← hx]
        exact hc
      | succ i =>
        simp only [List.getElem?_cons_succ] at hx
        simp only [List.length_cons] at hlen
        exact ih _ i x hx (by omega)
    · rw [if_neg hc] at hlen
      simp only [List.length_cons, List.length_nil] at hlen
      omega

theorem visitList_stops_on_false {σ : Type} (cb : Hash → Hash → σ → Bool × σ)
    (l : List (Hash × Hash)) :
    ∀ s : σ, (visitList cb l s).length < l.length →
      ∃ last, (visitList cb l s).getLast? = some last ∧ last.2.2 = false := by
  induction l with
  | nil =>
    intro s h
    simp [visitList] at h
  | cons e rest ih =>
    intro s h
    simp only [visitList] at h ⊢
    by_cases hc : (cb e.1 e.2 s).1 = true
    · rw [if_pos hc] at h ⊢
      simp only [List.length_cons] at h
      obtain ⟨last, h1, h2⟩ := ih (cb e.1 e.2 s).2 (by omega)
      refine ⟨last, ?_, h2⟩
      cases hv : visitList cb rest (cb e.1 e.2 s).2 with
      | nil =>
        rw [hv] at h1
        cases h1
      | cons y ys =>
        rw [hv] at h1
        rw [List.getLast?_cons_cons]
        exact h1
    · rw [if_neg hc]
      refine ⟨_, rfl, ?_⟩
      cases hb : (cb e.1 e.2 s).1 with
      | true => exact (hc hb).elim
      | false => rfl

/-! ## The storage section of a well-formed store -/

theorem key_of_pfx (a : Address) (key : Bytes)
    (hp : hasPfx (AddressStoragePrefix a) key = true) (hl : key.length = 53) :
    key = AddressStoragePrefix a ++ (BytesToHash key).bytes := by
  obtain ⟨t, ht⟩ := List.isPrefixOf_iff_prefix.mp hp
  subst ht
  have hlen : t.length = 32 := by
    simp only [AddressStoragePrefix, KeyPrefixStorage, List.length_append, List.length_cons,
      List.length_nil, a.len] at hl
    omega
  have := BytesToHash_storageKey a ⟨t, hlen⟩
  simp only at this
  rw [this]

theorem storagePfx_of_addressPfx (a : Address) (key : Bytes)
    (hp : hasPfx (AddressStoragePrefix a) key = true) : hasPfx KeyPrefixStorage key = true := by
  have h1 : AddressStoragePrefix a <+: key := List.isPrefixOf_iff_prefix.mp hp
  have h2 : KeyPrefixStorage <+: AddressStoragePrefix a := List.prefix_append _ _
  exact List.isPrefixOf_iff_prefix.mpr (h2.trans h1)

theorem BytesToHash_nil : BytesToHash [] = zeroHash := by
  decide

theorem Keeper_GetState_of_get (ctx : Ctx) (a : Address) (k : Hash) (raw : Bytes)
    (h : AMap.get ctx.store (AddressStoragePrefix a ++ k.bytes) = some raw) :
    Keeper.GetState ctx a k = BytesToHash raw := by
  simp only [Keeper.GetState, h]
  by_cases h0 : raw.length = 0
  · rw [if_pos h0, List.length_eq_zero.mp h0, BytesToHash_nil]
  · rw [if_neg h0]

theorem StoreWF_empty : StoreWF AMap.empty := by
  intro e he
  cases he

theorem StoreWF_set (st : KVStore) (key value : Bytes) (hwf : StoreWF st)
    (hk : hasPfx KeyPrefixStorage key = true → key.length = 53) :
    StoreWF (AMap.set st key value) := by
  unfold StoreWF storeEntries at *
  induction st with
  | nil =>
    intro e he
    simp only [AMap.set, List.mem_singleton] at he
    rw [he]
    exact hk
  | cons hd tl ih =>
    obtain ⟨k0, v0⟩ := hd
    intro e he
    simp only [AMap.set] at he
    by_cases h0 : k0 = key
    · rw [if_pos h0] at he
      rcases List.mem_cons.mp he with h1 | h1
      · rw [h1]
        exact hk
      · exact hwf e (List.mem_cons_of_mem _ h1)
    · rw [if_neg h0] at he
      rcases List.mem_cons.mp he with h1 | h1
      · exact hwf e (by rw [h1]; exact List.mem_cons_self _ _)
      · exact ih (fun x hx => hwf x (List.mem_cons_of_mem _ hx)) e h1

theorem StoreWF_erase (st : KVStore) (key : Bytes) (hwf : StoreWF st) :
    StoreWF (AMap.erase st key) := by
  unfold StoreWF storeEntries at *
  induction st with
  | nil =>
    intro e he
    cases he
  | cons hd tl ih =>
    obtain ⟨k0, v0⟩ := hd
    intro e he
    simp only [AMap.erase] at he
    have iht := ih (fun x hx => hwf x (List.mem_cons_of_mem _ hx))
    by_cases h0 : k0 = key
    · rw [if_pos h0] at he
      exact iht e he
    · rw [if_neg h0] at he
      rcases List.mem_cons.mp he with h1 | h1
      · exact hwf e (by rw [h1]; exact List.mem_cons_self _ _)
      · exact iht e h1

/-- The writes of `Keeper.SetState` keep the storage section of the store
well formed. -/
theorem StoreWF_SetState (ctx : Ctx) (a : Address) (k : Hash) (value : Bytes)
    (hwf : StoreWF ctx.store) : StoreWF (Keeper.SetState ctx a k value).store := by
  unfold Keeper.SetState
  by_cases h0 : value.length = 0
  · rw [if_pos h0]
    exact StoreWF_erase _ _ hwf
  · rw [if_neg h0]
    refine StoreWF_set _ _ _ hwf (fun _ => ?_)
    simp only [AddressStoragePrefix, KeyPrefixStorage, List.length_append, List.length_cons,
      List.length_nil, a.len, k.len]

/-- The writes of `Keeper.SetCode` keep the storage section of the store well
formed. -/
theorem StoreWF_SetCode (ctx : Ctx) (codeHash code : Bytes) (hwf : StoreWF ctx.store) :
    StoreWF (Keeper.SetCode ctx codeHash code).store := by
  unfold Keeper.SetCode
  by_cases h0 : code.length = 0
  · simp only [if_pos h0]
    exact StoreWF_erase _ _ hwf
  · simp only [if_neg h0]
    refine StoreWF_set _ _ _ hwf (fun hp => ?_)
    simp [hasPfx, KeyPrefixStorage, KeyPrefixCode] at hp

theorem iterator_entry (st : KVStore) (a : Address) (hwf : StoreWF st) (e : Bytes × Bytes)
    (he : e ∈ KVStorePrefixIterator st (AddressStoragePrefix a)) :
    e.1 = AddressStoragePrefix a ++ (BytesToHash e.1).bytes ∧ AMap.get st e.1 = some e.2 := by
  obtain ⟨h1, h2⟩ := List.mem_filter.mp he
  have hg := get_of_mem_sortedEntries st e h1
  have hm := mem_of_get st e.1 e.2 hg
  exact ⟨key_of_pfx a e.1 h2 (hwf _ hm (storagePfx_of_addressPfx a e.1 h2)), hg⟩

theorem mem_iterator (st : KVStore) (a : Address) (k : Hash) (raw : Bytes)
    (h : AMap.get st (AddressStoragePrefix a ++ k.bytes) = some raw) :
    (AddressStoragePrefix a ++ k.bytes, raw) ∈ KVStorePrefixIterator st (AddressStoragePrefix a) :=
  List.mem_filter.mpr ⟨mem_sortedEntries st _ _ h, hasPfx_append _ _⟩

/-- The slots `ForEachStorage` iterates over are the slots of the address that
hold an entry, with the value `Keeper.GetState` reads there. -/
theorem mem_slots (st : KVStore) (a : Address) (hwf : StoreWF st) (k v : Hash) :
    (k, v) ∈ (KVStorePrefixIterator st (AddressStoragePrefix a)).map entryHashes ↔
      ∃ raw, AMap.get st (AddressStoragePrefix a ++ k.bytes) = some raw ∧ v = BytesToHash raw := by
  constructor
  · intro h
    obtain ⟨e, he, hev⟩ := List.mem_map.mp h
    obtain ⟨h1, h2⟩ := iterator_entry st a hwf e he
    simp only [entryHashes, Prod.mk.injEq] at hev
    refine ⟨e.2, ?_, hev.2.symm⟩
    rw [← hev.1, ← h1]
    exact h2
  · rintro ⟨raw, h1, h2⟩
    refine List.mem_map.mpr ⟨_, mem_iterator st a k raw h1, ?_⟩
    simp only [entryHashes, BytesToHash_storageKey, h2]

/-- The slots `ForEachStorage` iterates over are in strictly ascending byte
order of the slot key. -/
theorem slots_sorted (st : KVStore) (a : Address) (hwf : StoreWF st) :
    List.Pairwise (fun x y : Hash × Hash => bytesLt x.1.bytes y.1.bytes = true)
      ((KVStorePrefixIterator st (AddressStoragePrefix a)).map entryHashes) := by
  rw [List.pairwise_map]
  have hs : List.Pairwise (fun x y : Bytes × Bytes => bytesLt x.1 y.1 = true)
      (KVStorePrefixIterator st (AddressStoragePrefix a)) :=
    List.Pairwise.filter _ (sortedEntries_sorted st)
  refine List.Pairwise.imp_of_mem ?_ hs
  intro x y hx hy hxy
  obtain ⟨h1, _⟩ := iterator_entry st a hwf x hx
  obtain ⟨h2, _⟩ := iterator_entry st a hwf y hy
  rw [h1, h2, bytesLt_append_left] at hxy
  exact hxy

theorem slots_keys_nodup (st : KVStore) (a : Address) (hwf : StoreWF st) :
    (((KVStorePrefixIterator st (AddressStoragePrefix a)).map entryHashes).map
      (fun x => x.1)).Nodup := by
  unfold List.Nodup
  rw [List.pairwise_map]
  refine List.Pairwise.imp ?_ (slots_sorted st a hwf)
  intro x y hxy he
  rw [he, bytesLt_irrefl] at hxy
  cases hxy

theorem visits_alwaysTrue_keys (ctx : Ctx) (a : Address) :
    (visits ctx a alwaysTrue ()).map (fun x => x.1)
      = ((KVStorePrefixIterator ctx.store (AddressStoragePrefix a)).map entryHashes).map
          (fun x => x.1) := by
  rw [visits_eq, visitList_alwaysTrue, List.map_map]
  rfl

/-- C19: on a store whose storage section is well formed, every pair (k, v)
that `Keeper.ForEachStorage(a, visitor)` passes to the visitor, whatever the
visitor, satisfies `Keeper.GetState(a, k) = v` and k is a slot of a that holds
an entry; with the visitor that always returns true every slot of a that holds
an entry is visited exactly once, and a slot key under which a holds no entry
is not visited. -/
theorem C19_ForEachStorage (ctx : Ctx) (a : Address) (hwf : StoreWF ctx.store) :
    (∀ (σ : Type) (cb : Hash → Hash → σ → Bool × σ) (init : σ) (k v : Hash) (b : Bool),
      (k, v, b) ∈ visits ctx a cb init →
        Keeper.GetState ctx a k = v ∧
        ∃ raw, AMap.get ctx.store (AddressStoragePrefix a ++ k.bytes) = some raw) ∧
    (∀ k : Hash, (∃ raw, AMap.get ctx.store (AddressStoragePrefix a ++ k.bytes) = some raw) →
      ((visits ctx a alwaysTrue ()).map (fun x => x.1)).count k = 1) ∧
    (∀ k : Hash, AMap.get ctx.store (AddressStoragePrefix a ++ k.bytes) = none →
      k ∉ (visits ctx a alwaysTrue ()).map (fun x => x.1)) := by
  refine ⟨?_, ?_, ?_⟩
  · intro σ cb init k v b h
    rw [visits_eq] at h
    have hm := mem_visitList cb _ init (k, v, b) h
    obtain ⟨raw, h1, h2⟩ := (mem_slots ctx.store a hwf k v).mp hm
    exact ⟨by rw [Keeper_GetState_of_get ctx a k raw h1, h2], raw, h1⟩
  · rintro k ⟨raw, h1⟩
    rw [visits_alwaysTrue_keys]
    apply List.count_eq_one_of_mem (slots_keys_nodup ctx.store a hwf)
    exact List.mem_map.mpr
      ⟨(k, BytesToHash raw), (mem_slots ctx.store a hwf k _).mpr ⟨raw, h1, rfl⟩, rfl⟩
  · intro k hnone hk
    rw [visits_alwaysTrue_keys] at hk
    obtain ⟨x, hx, hxk⟩ := List.mem_map.mp hk
    obtain ⟨raw, h1, _⟩ := (mem_slots ctx.store a hwf x.1 x.2).mp hx
    rw [hxk, hnone] at h1
    cases h1

theorem C19_ForEachStorage_witness :
    StoreWF twoSlotCtx.store ∧
    visits twoSlotCtx sampleAddress alwaysTrue ()
      = [(hash1, hash2, true), (hash2, hash3, true)] ∧
    (∀ (σ : Type) (cb : Hash → Hash → σ → Bool × σ) (init : σ) (k v : Hash) (b : Bool),
      (k, v, b) ∈ visits twoSlotCtx sampleAddress cb init →
        Keeper.GetState twoSlotCtx sampleAddress k = v ∧
        ∃ raw, AMap.get twoSlotCtx.store (AddressStoragePrefix sampleAddress ++ k.bytes)
          = some raw) :=
  ⟨by decide, by decide, (C19_ForEachStorage twoSlotCtx sampleAddress (by decide)).1⟩

/-- C20: on a store whose storage section is well formed,
`Keeper.ForEachStorage(a, visitor)` invokes the visitor on the stored slots of
a in strictly ascending byte order of the slot key and stops immediately after
the first invocation that returns false: the invocations are those of
`visitList` on the ascending list of the stored slots, they are an initial
segment of that list, every invocation but the last returned true, the
iteration ends before the last slot only on a false result, and the visitor is
called exactly once when it returns false on the first slot. The recording of
the invocations leaves the visitor's own result unchanged. -/
theorem C20_ForEachStorage_order (σ : Type) (ctx : Ctx) (a : Address)
    (cb : Hash → Hash → σ → Bool × σ) (init : σ) (hwf : StoreWF ctx.store) :
    ∃ slots : List (Hash × Hash),
      (∀ k v : Hash, (k, v) ∈ slots ↔
        ∃ raw, AMap.get ctx.store (AddressStoragePrefix a ++ k.bytes) = some raw ∧
          v = BytesToHash raw) ∧
      List.Pairwise (fun x y : Hash × Hash => bytesLt x.1.bytes y.1.bytes = true) slots ∧
      visits ctx a cb init = visitList cb slots init ∧
      (visits ctx a cb init).map (fun x => (x.1, x.2.1)) <+: slots ∧
      (∀ (i : Nat) (x : Hash × Hash × Bool), (visits ctx a cb init)[i]? = some x →
        i + 1 < (visits ctx a cb init).length → x.2.2 = true) ∧
      ((visits ctx a cb init).length < slots.length →
        ∃ last, (visits ctx a cb init).getLast? = some last ∧ last.2.2 = false) ∧
      (∀ (e : Hash × Hash) (rest : List (Hash × Hash)), slots = e :: rest →
        (cb e.1 e.2 init).1 = false → visits ctx a cb init = [(e.1, e.2, false)]) ∧
      (Keeper.ForEachStorage ctx a (recordCb cb) (init, [])).1
        = Keeper.ForEachStorage ctx a cb init := by
  refine ⟨(KVStorePrefixIterator ctx.store (AddressStoragePrefix a)).map entryHashes,
    mem_slots ctx.store a hwf, slots_sorted ctx.store a hwf, visits_eq ctx a cb init, ?_, ?_, ?_,
    ?_, ForEachStorage_record ctx a cb init⟩
  · rw [visits_eq]
    exact visitList_prefix cb _ init
  · rw [visits_eq]
    exact visitList_true_before_last cb _ init
  · rw [visits_eq]
    exact visitList_stops_on_false cb _ init
  · intro e rest hs hf
    rw [visits_eq, hs]
    simp only [visitList, hf, Bool.false_eq_true, if_false]

theorem C20_ForEachStorage_order_witness :
    StoreWF twoSlotCtx.store ∧
    visits twoSlotCtx sampleAddress alwaysFalse () = [(hash1, hash2, false)] ∧
    ∃ slots : List (Hash × Hash),
      (∀ k v : Hash, (k, v) ∈ slots ↔
        ∃ raw, AMap.get twoSlotCtx.store (AddressStoragePrefix sampleAddress ++ k.bytes)
            = some raw ∧
          v = BytesToHash raw) ∧
      List.Pairwise (fun x y : Hash × Hash => bytesLt x.1.bytes y.1.bytes = true) slots ∧
      visits twoSlotCtx sampleAddress alwaysFalse () = visitList alwaysFalse slots () :=
  ⟨by decide, by decide,
   (C20_ForEachStorage_order Unit twoSlotCtx sampleAddress alwaysFalse () (by decide)).imp
     (fun _ h => ⟨h.1, h.2.1, h.2.2.1⟩)⟩

/-! ## Unique keys of maps built by assignment -/

theorem mem_keys_set {κ ν : Type} [DecidableEq κ] (m : AMap κ ν) (k : κ) (v : ν) (x : κ)
    (hx : x ∈ AMap.keys (AMap.set m k v)) : x = k ∨ x ∈ AMap.keys m := by
  induction m with
  | nil =>
    simp only [AMap.set, AMap.keys, List.map_cons, List.map_nil, List.mem_singleton] at hx
    exact Or.inl hx
  | cons hd tl ih =>
    obtain ⟨k0, v0⟩ := hd
    simp only [AMap.set] at hx
    by_cases h0 : k0 = k
    · rw [if_pos h0] at hx
      simp only [AMap.keys, List.map_cons, List.mem_cons] at hx ⊢
      rcases hx with h1 | h1
      · exact Or.inl h1
      · exact Or.inr (Or.inr h1)
    · rw [if_neg h0] at hx
      simp only [AMap.keys, List.map_cons, List.mem_cons] at hx ⊢
      rcases hx with h1 | h1
      · exact Or.inr (Or.inl h1)
      · rcases ih h1 with h2 | h2
        · exact Or.inl h2
        · exact Or.inr (Or.inr h2)

/-- A map built from the empty map by assignments has unique keys. -/
theorem keys_set_nodup {κ ν : Type} [DecidableEq κ] (m : AMap κ ν) (k : κ) (v : ν)
    (hnd : (AMap.keys m).Nodup) : (AMap.keys (AMap.set m k v)).Nodup := by
  induction m with
  | nil =>
    simp only [AMap.set, AMap.keys, List.map_cons, List.map_nil, List.nodup_cons,
      List.not_mem_nil, not_false_eq_true, List.nodup_nil, and_self]
  | cons hd tl ih =>
    obtain ⟨k0, v0⟩ := hd
    simp only [AMap.keys, List.map_cons, List.nodup_cons] at hnd
    simp only [AMap.set]
    by_cases h0 : k0 = k
    · rw [if_pos h0]
      simp only [AMap.keys, List.map_cons, List.nodup_cons]
      rw [← h0]
      exact hnd
    · rw [if_neg h0]
      simp only [AMap.keys, List.map_cons, List.nodup_cons]
      refine ⟨fun hmem => ?_, ih hnd.2⟩
      rcases mem_keys_set tl k v k0 hmem with h1 | h1
      · exact h0 h1
      · exact hnd.1 h1

/-! ## The backing store: `SetCode` then `GetCode` -/

theorem Keeper_GetCode_SetCode (ctx : Ctx) (ch code : Bytes) (h : Hash) :
    Keeper.GetCode (Keeper.SetCode ctx ch code) h
      = if ch = h.bytes then (if code.length = 0 then none else some code)
        else Keeper.GetCode ctx h := by
  by_cases hc : code.length = 0
  · simp only [Keeper.SetCode, if_pos hc, Keeper.GetCode, AMap.get_erase,
      List.append_cancel_left_eq]
  · simp only [Keeper.SetCode, if_neg hc, Keeper.GetCode, AMap.get_set,
      List.append_cancel_left_eq]

theorem Keeper_GetCode_SetState (ctx : Ctx) (a : Address) (k : Hash) (v : Bytes) (h : Hash) :
    Keeper.GetCode (Keeper.SetState ctx a k v) h = Keeper.GetCode ctx h := by
  have hne := fun e => storageKey_ne_codeKey a k h.bytes (Eq.symm e)
  by_cases hv : v.length = 0
  · simp only [Keeper.SetState, if_pos hv, Keeper.GetCode, AMap.get_erase, if_neg hne]
  · simp only [Keeper.SetState, if_neg hv, Keeper.GetCode, AMap.get_set, if_neg hne]

theorem GetCode_applyWrites (ws : List StoreWrite) (h : Hash) :
    ∀ ctx : Ctx, Keeper.GetCode ctx h = none →
      (∀ code, StoreWrite.setCode h.bytes code ∉ ws) →
      Keeper.GetCode (applyWrites ctx ws) h = none := by
  induction ws with
  | nil =>
    intro ctx h0 _
    exact h0
  | cons w rest ih =>
    intro ctx h0 hn
    simp only [applyWrites, List.foldl_cons]
    refine ih _ ?_ (fun code hm => hn code (List.mem_cons_of_mem _ hm))
    cases w with
    | setState a k v =>
      simp only [StoreWrite.apply, Keeper_GetCode_SetState, h0]
    | setCode ch code =>
      simp only [StoreWrite.apply, Keeper_GetCode_SetCode]
      by_cases hch : ch = h.bytes
      · exact (hn code (by rw [hch]; exact List.mem_cons_self _ _)).elim
      · rw [if_neg hch, h0]

/-- C21: after `Keeper.SetCode(h, c)`, `Keeper.GetCode(h)` returns `c` if `c`
is non-empty and nil if `c` is empty; `Keeper.GetCode(h')` is unchanged for
every other hash `h'`; and `Keeper.GetCode` returns nil for a hash under which
no sequence of keeper writes to an empty store has stored code. -/
theorem C21_SetCode_GetCode (ctx : Ctx) (h : Hash) (c : Bytes) :
    Keeper.GetCode (Keeper.SetCode ctx h.bytes c) h
      = (if c.length = 0 then none else some c) ∧
    (∀ h' : Hash, h' ≠ h →
      Keeper.GetCode (Keeper.SetCode ctx h.bytes c) h' = Keeper.GetCode ctx h') ∧
    (∀ (ws : List StoreWrite) (h' : Hash), (∀ code, StoreWrite.setCode h'.bytes code ∉ ws) →
      Keeper.GetCode (applyWrites emptyCtx ws) h' = none) := by
  refine ⟨?_, fun h' hne => ?_, fun ws h' hn => ?_⟩
  · rw [Keeper_GetCode_SetCode, if_pos rfl]
  · rw [Keeper_GetCode_SetCode, if_neg (fun e => hne (Hash_ext _ _ e.symm))]
  · exact GetCode_applyWrites ws h' emptyCtx rfl hn

/-! ## The backing store: `DeleteAccount` -/

theorem StoreWF_deleteStorage (a : Address) (l : List (Bytes × Bytes)) :
    ∀ c : Ctx, StoreWF c.store →
      StoreWF (l.foldl (fun c e => Keeper.SetState c a (BytesToHash e.1) []) c).store := by
  induction l with
  | nil =>
    intro c h
    exact h
  | cons e rest ih =>
    intro c h
    simp only [List.foldl_cons]
    exact ih _ (StoreWF_SetState c a _ _ h)

/-- Every store written from the empty store through the keeper is well
formed. -/
theorem StoreWF_applyWrites (ws : List StoreWrite) :
    ∀ ctx : Ctx, StoreWF ctx.store → StoreWF (applyWrites ctx ws).store := by
  induction ws with
  | nil =>
    intro ctx h
    exact h
  | cons w rest ih =>
    intro ctx h
    simp only [applyWrites, List.foldl_cons]
    apply ih
    cases w with
    | setState a k v => exact StoreWF_SetState ctx a k v h
    | setCode ch code => exact StoreWF_SetCode ctx ch code h

theorem iterator_empty (st : KVStore) (a : Address) (hwf : StoreWF st)
    (h : ∀ k : Hash, AMap.get st (AddressStoragePrefix a ++ k.bytes) = none) :
    KVStorePrefixIterator st (AddressStoragePrefix a) = [] := by
  apply List.eq_nil_iff_forall_not_mem.mpr
  intro e he
  obtain ⟨h1, h2⟩ := iterator_entry st a hwf e he
  rw [h1, h (BytesToHash e.1)] at h2
  cases h2

theorem Keeper_DeleteAccount_eq (c : Ctx) (a : Address) (acct : AuthAccount)
    (hacct : AMap.get c.accounts a = some acct) (heth : acct.isEth = true) :
    Keeper.DeleteAccount c a
      = Except.ok
          { ((KVStorePrefixIterator c.store (AddressStoragePrefix a)).foldl
              (fun c e => Keeper.SetState c a (BytesToHash e.1) []) c) with
            accounts := AMap.erase
              ((KVStorePrefixIterator c.store (AddressStoragePrefix a)).foldl
                (fun c e => Keeper.SetState c a (BytesToHash e.1) []) c).accounts a } := by
  simp only [Keeper.DeleteAccount, Keeper.DeleteAccountCtx, hacct, heth, if_true, Keeper.ForEachStorage]
  rw [forEachLoop_always (fun key _ c => Keeper.SetState c a key [])]

/-- C22: for an address that holds an Ethereum-type account, over a store
whose storage section is well formed, `Keeper.DeleteAccount(a)` returns no
error, and afterwards the auth account record of `a` no longer exists,
`Keeper.GetState(a, k)` is the zero hash for every key `k`, and
`Keeper.ForEachStorage(a, .)` calls no visitor and returns with the visitor's
state untouched. -/
theorem C22_DeleteAccount (ctx : Ctx) (a : Address) (acct : AuthAccount)
    (hacct : AMap.get ctx.accounts a = some acct) (heth : acct.isEth = true)
    (hwf : StoreWF ctx.store) :
    ∃ c', Keeper.DeleteAccount ctx a = Except.ok c' ∧
      AMap.get c'.accounts a = none ∧
      Keeper.GetAccount c' a = none ∧
      (∀ k : Hash, Keeper.GetState c' a k = zeroHash) ∧
      (∀ (σ : Type) (cb : Hash → Hash → σ → Bool × σ) (init : σ),
        visits c' a cb init = [] ∧ Keeper.ForEachStorage c' a cb init = init) := by
  obtain ⟨_, _, _, _, d5⟩ := deleteStorage_spec a
    (KVStorePrefixIterator ctx.store (AddressStoragePrefix a)) ctx
  have hnone : ∀ k : Hash,
      AMap.get ((KVStorePrefixIterator ctx.store (AddressStoragePrefix a)).foldl
        (fun c e => Keeper.SetState c a (BytesToHash e.1) []) ctx).store
        (AddressStoragePrefix a ++ k.bytes) = none := by
    intro k
    apply d5
    cases hg : AMap.get ctx.store (AddressStoragePrefix a ++ k.bytes) with
    | none => exact Or.inl rfl
    | some v => exact Or.inr ⟨v, mem_iterator ctx.store a k v hg⟩
  have hit := iterator_empty _ a
    (StoreWF_deleteStorage a (KVStorePrefixIterator ctx.store (AddressStoragePrefix a)) ctx hwf)
    hnone
  refine ⟨_, Keeper_DeleteAccount_eq ctx a acct hacct heth, ?_, ?_, ?_, ?_⟩
  · simp only [AMap.get_erase, if_true]
  · simp only [Keeper.GetAccount, AMap.get_erase, if_true]
  · intro k
    simp only [Keeper.GetState, hnone k]
  · intro σ cb init
    constructor
    · rw [visits_eq]
      simp only [hit, List.map_nil, visitList]
    · simp only [Keeper.ForEachStorage, hit, forEachLoop]

theorem C22_DeleteAccount_witness :
    AMap.get contractCtx.accounts sampleAddress
      = some { isEth := true, sequence := 1, codeHash := sampleCodeHash } ∧
    StoreWF contractCtx.store ∧
    ∃ c', Keeper.DeleteAccount contractCtx sampleAddress = Except.ok c' ∧
      AMap.get c'.accounts sampleAddress = none ∧
      Keeper.GetAccount c' sampleAddress = none ∧
      (∀ k : Hash, Keeper.GetState c' sampleAddress k = zeroHash) ∧
      (∀ (σ : Type) (cb : Hash → Hash → σ → Bool × σ) (init : σ),
        visits c' sampleAddress cb init = [] ∧
        Keeper.ForEachStorage c' sampleAddress cb init = init) :=
  ⟨by decide, by decide,
   C22_DeleteAccount contractCtx sampleAddress
     { isEth := true, sequence := 1, codeHash := sampleCodeHash } (by decide) rfl (by decide)⟩

/-- C23: `Keeper.DeleteAccount(a)` either succeeds, and then leaves
`Keeper.GetCode(h)` unchanged for every code hash `h` and
`Keeper.GetState(b, k)` unchanged for every other address `b` and every key
`k`, or it returns the invalid-account error for an account that is not an
Ethereum account, before anything is written. -/
theorem C23_DeleteAccount_frame (ctx : Ctx) (a : Address) :
    (∃ c', Keeper.DeleteAccount ctx a = Except.ok c' ∧
      (∀ h : Hash, Keeper.GetCode c' h = Keeper.GetCode ctx h) ∧
      (∀ (b : Address) (k : Hash), b ≠ a → Keeper.GetState c' b k = Keeper.GetState ctx b k)) ∨
    (Keeper.DeleteAccount ctx a = Except.error KeeperError.ErrInvalidAccount ∧
      ∃ acct, AMap.get ctx.accounts a = some acct ∧ acct.isEth = false) := by
  cases hacct : AMap.get ctx.accounts a with
  | none =>
    left
    exact ⟨ctx, by simp only [Keeper.DeleteAccount, Keeper.DeleteAccountCtx, hacct], fun _ => rfl, fun _ _ _ => rfl⟩
  | some acct =>
    cases heth : acct.isEth with
    | true =>
      left
      obtain ⟨c', h1, _, _, h4, h5⟩ := Keeper_DeleteAccount_eth ctx a acct hacct heth
      exact ⟨c', h1, h4, h5⟩
    | false =>
      right
      refine ⟨?_, acct, rfl, heth⟩
      simp only [Keeper.DeleteAccount, Keeper.DeleteAccountCtx, hacct, heth, Bool.false_eq_true, if_false]

/-! ## Balances -/

theorem AmountOf_NewCoins (d : String) (n : Nat) :
    Coins.AmountOf (NewCoins { Denom := d, Amount := n }) d = n := by
  by_cases h : n = 0
  · subst h
    rfl
  · simp [NewCoins, Coins.AmountOf, h, List.find?]

theorem GetBalance_credit (ctx : Ctx) (a b : Address) (n : Nat) :
    Keeper.GetBalance (credit ctx a n) b
      = if a = b then Keeper.GetBalance ctx a + n else Keeper.GetBalance ctx b := by
  by_cases h : a = b
  · simp only [Keeper.GetBalance, credit, AMap.get_set, if_pos h]
  · simp only [Keeper.GetBalance, credit, AMap.get_set, if_neg h]

theorem debit_insufficient (ctx : Ctx) (a : Address) (n : Nat)
    (h : Keeper.GetBalance ctx a < n) :
    debit ctx a n = (some BankError.ErrInsufficientFunds, ctx) := by
  simp only [debit, if_pos h]

theorem debit_ok (ctx : Ctx) (a : Address) (n : Nat) (h : n ≤ Keeper.GetBalance ctx a) :
    ∃ c, debit ctx a n = (none, c) ∧
      ∀ b, Keeper.GetBalance c b
        = if a = b then Keeper.GetBalance ctx a - n else Keeper.GetBalance ctx b := by
  refine ⟨{ ctx with balances := AMap.set ctx.balances a (Keeper.GetBalance ctx a - n) }, ?_, ?_⟩
  · simp only [debit, if_neg (Nat.not_lt.mpr h)]
  · intro b
    by_cases hab : a = b
    · simp only [Keeper.GetBalance, AMap.get_set, if_pos hab]
    · simp only [Keeper.GetBalance, AMap.get_set, if_neg hab]

theorem move_insufficient (ctx : Ctx) (a b : Address) (n : Nat)
    (h : Keeper.GetBalance ctx a < n) :
    move ctx a b n = (some BankError.ErrInsufficientFunds, ctx) := by
  simp only [move, debit_insufficient ctx a n h]

theorem move_ok (ctx : Ctx) (a b : Address) (n : Nat) (h : n ≤ Keeper.GetBalance ctx a) :
    ∃ c, move ctx a b n = (none, c) ∧
      ∀ x, Keeper.GetBalance c x
        = if b = x then (if a = b then Keeper.GetBalance ctx a else Keeper.GetBalance ctx b + n)
          else if a = x then Keeper.GetBalance ctx a - n else Keeper.GetBalance ctx x := by
  obtain ⟨c1, h1, h2⟩ := debit_ok ctx a n h
  refine ⟨credit c1 b n, by simp only [move, h1], fun x => ?_⟩
  rw [GetBalance_credit, h2 b]
  by_cases hbx : b = x
  · rw [if_pos hbx, if_pos hbx]
    by_cases hab : a = b
    · rw [if_pos hab, if_pos hab]
      omega
    · rw [if_neg hab, if_neg hab]
  · rw [if_neg hbx, if_neg hbx, h2 x]

theorem sdkBank_SubBalance_ok (m : Address) (d : String) (ctx : Ctx) (addr : Address) (n : Nat)
    (h : n ≤ Keeper.GetBalance ctx addr) :
    ∃ c, Keeper.SubBalance (sdkBank m d) ctx addr (NewCoins { Denom := d, Amount := n })
        = (none, c) ∧
      Keeper.GetBalance c addr = Keeper.GetBalance ctx addr - n := by
  obtain ⟨c1, h1, h2⟩ := move_ok ctx addr m n h
  have hm : n ≤ Keeper.GetBalance c1 m := by
    rw [h2 m, if_pos rfl]
    by_cases ham : addr = m
    · rw [if_pos ham]
      exact h
    · rw [if_neg ham]
      omega
  obtain ⟨c2, h3, h4⟩ := debit_ok c1 m n hm
  refine ⟨c2, ?_, ?_⟩
  · simp only [Keeper.SubBalance, sdkBank, if_true, AmountOf_NewCoins, h1, h3]
  · rw [h4 addr, h2 m, h2 addr, if_pos rfl]
    by_cases ham : addr = m
    · rw [if_pos ham, if_pos ham.symm]
    · rw [if_neg ham, if_neg (fun e => ham e.symm), if_neg (fun e => ham e.symm), if_pos rfl]

theorem sdkBank_SubBalance_insufficient (m : Address) (d : String) (ctx : Ctx) (addr : Address)
    (n : Nat) (h : Keeper.GetBalance ctx addr < n) :
    Keeper.SubBalance (sdkBank m d) ctx addr (NewCoins { Denom := d, Amount := n })
      = (some BankError.ErrInsufficientFunds, ctx) := by
  simp only [Keeper.SubBalance, sdkBank, if_true, AmountOf_NewCoins, move_insufficient ctx addr m n h]

theorem sdkBank_AddBalance_ok (m : Address) (d : String) (ctx : Ctx) (addr : Address) (n : Nat) :
    ∃ c, Keeper.AddBalance (sdkBank m d) ctx addr (NewCoins { Denom := d, Amount := n })
        = (none, c) ∧
      Keeper.GetBalance c addr = Keeper.GetBalance ctx addr + n := by
  have hm : n ≤ Keeper.GetBalance (credit ctx m n) m := by
    rw [GetBalance_credit, if_pos rfl]
    omega
  obtain ⟨c1, h1, h2⟩ := move_ok (credit ctx m n) m addr n hm
  refine ⟨c1, ?_, ?_⟩
  · simp only [Keeper.AddBalance, sdkBank, if_true, AmountOf_NewCoins, h1]
  · rw [h2 addr, if_pos rfl, GetBalance_credit, GetBalance_credit, if_pos rfl]
    by_cases ham : m = addr
    · rw [if_pos ham, ham]
    · rw [if_neg ham, if_neg ham]

/-- C24: `Keeper.SubBalance` returns the error of the move from the account to
the module account, with the ledger as that failed move left it and nothing
burned, and `Keeper.AddBalance` returns the mint error with the ledger as the
failed mint left it, whatever the bank keeper; on the ledger of the model
`SubBalance` of more than the account holds returns the insufficient-funds
error and changes nothing, `SubBalance` of at most what it holds succeeds and
lowers the balance by exactly the amount, and `AddBalance` succeeds and raises
it by exactly the amount. -/
theorem C24_balance_errors {ε : Type} (bk : BankKeeper ε) (ctx : Ctx) (addr : Address)
    (coins : Coins) (moduleAddr : Address) (evmDenom : String) (n : Nat) :
    (∀ (e : ε) (c1 : Ctx), bk.SendCoinsFromAccountToModule ctx addr ModuleName coins = (some e, c1) →
      Keeper.SubBalance bk ctx addr coins = (some e, c1)) ∧
    (∀ (e : ε) (c1 : Ctx), bk.MintCoins ctx ModuleName coins = (some e, c1) →
      Keeper.AddBalance bk ctx addr coins = (some e, c1)) ∧
    (Keeper.GetBalance ctx addr < n →
      Keeper.SubBalance (sdkBank moduleAddr evmDenom) ctx addr
          (NewCoins { Denom := evmDenom, Amount := n })
        = (some BankError.ErrInsufficientFunds, ctx)) ∧
    (n ≤ Keeper.GetBalance ctx addr →
      ∃ c, Keeper.SubBalance (sdkBank moduleAddr evmDenom) ctx addr
          (NewCoins { Denom := evmDenom, Amount := n }) = (none, c) ∧
        Keeper.GetBalance c addr + n = Keeper.GetBalance ctx addr) ∧
    (∃ c, Keeper.AddBalance (sdkBank moduleAddr evmDenom) ctx addr
        (NewCoins { Denom := evmDenom, Amount := n }) = (none, c) ∧
      Keeper.GetBalance c addr = Keeper.GetBalance ctx addr + n) := by
  refine ⟨fun e c1 h => ?_, fun e c1 h => ?_, ?_, fun h => ?_, ?_⟩
  · simp only [Keeper.SubBalance, h]
  · simp only [Keeper.AddBalance, h]
  · exact sdkBank_SubBalance_insufficient moduleAddr evmDenom ctx addr n
  · obtain ⟨c, h1, h2⟩ := sdkBank_SubBalance_ok moduleAddr evmDenom ctx addr n h
    exact ⟨c, h1, by omega⟩
  · exact sdkBank_AddBalance_ok moduleAddr evmDenom ctx addr n

theorem C24_balance_errors_witness :
    Keeper.GetBalance contractCtx sampleAddress < 101 ∧
    Keeper.SubBalance (sdkBank sampleAddress2 "aevm") contractCtx sampleAddress
        (NewCoins { Denom := "aevm", Amount := 101 })
      = (some BankError.ErrInsufficientFunds, contractCtx) :=
  ⟨by decide,
   (C24_balance_errors (sdkBank sampleAddress2 "aevm") contractCtx sampleAddress []
     sampleAddress2 "aevm" 101).2.2.1 (by decide)⟩

theorem NewIntFromBigInt_of_lt (i : Int) (h : Int.natAbs i < 2 ^ 256) :
    NewIntFromBigInt i = some i := by
  simp only [NewIntFromBigInt, if_neg (Nat.not_le.mpr h)]

theorem NewCoin_valid (denom : String) (amount : Int) (hd : validDenom denom = true)
    (ha : 0 ≤ amount) :
    NewCoin denom amount = some { Denom := denom, Amount := Int.toNat amount } := by
  simp only [NewCoin, hd, ha, and_self, if_true]

/-- C25, as stated, fails for a target amount `t ≥ 0` that is 2^256 or more
above the balance: the difference does not fit an `sdkmath.Int` and
`Keeper.SetBalance` panics before any ledger call where the claim has it call
`AddBalance` with `t - b`. The same happens, whatever the difference, when the
denomination is not a valid one. -/
theorem C25_counterexample :
    (Keeper.GetBalance emptyCtx sampleAddress = 0 ∧ (0 : Int) ≤ 2 ^ 256 ∧
      Keeper.SetBalance (sdkBank sampleAddress2 "aevm") emptyCtx sampleAddress (2 ^ 256) "aevm"
        = none) ∧
    (Keeper.GetBalance emptyCtx sampleAddress = 0 ∧
      Keeper.SetBalance (sdkBank sampleAddress2 "") emptyCtx sampleAddress 10 "" = none) := by
  refine ⟨⟨by decide, by norm_num, ?_⟩, by decide, ?_⟩
  · have hb : Keeper.GetBalance emptyCtx sampleAddress = 0 := by decide
    have hs : Int.sign ((2 : Int) ^ 256 - ((0 : Nat) : Int)) = 1 :=
      Int.sign_eq_one_iff_pos.mpr (by norm_num)
    have hn : NewIntFromBigInt ((2 : Int) ^ 256 - ((0 : Nat) : Int)) = none := by
      have hle : (2 : Nat) ^ 256 ≤ Int.natAbs ((2 : Int) ^ 256 - ((0 : Nat) : Int)) := by
        rw [Nat.cast_zero, sub_zero, Int.natAbs_pow]
        exact le_refl _
      simp only [NewIntFromBigInt, if_pos hle]
    simp only [Keeper.SetBalance, hb, hs, if_true, hn]
  · have hb : Keeper.GetBalance emptyCtx sampleAddress = 0 := by decide
    have hv : validDenom "" = false := by decide
    have hs : Int.sign ((10 : Int) - ((0 : Nat) : Int)) = 1 := by decide
    have hn : NewIntFromBigInt ((10 : Int) - ((0 : Nat) : Int)) = some 10 :=
      NewIntFromBigInt_of_lt _ (by norm_num)
    have hc : NewCoin "" 10 = none := by
      simp only [NewCoin, hv, Bool.false_eq_true, false_and, if_false]
    simp only [Keeper.SetBalance, hb, hs, if_true, hn, hc]

/-- C25, amended: with `b` the current balance of the address, a valid EVM
denomination and a target amount `t` whose distance from `b` is below 2^256,
`Keeper.SetBalance(addr, t)` is the call of `AddBalance` with exactly `t - b`
when `t > b`, the call of `SubBalance` with exactly `b - t` when `t < b`, and
returns nil without a ledger call when `t = b`, whatever the bank keeper; on
the ledger of the model it returns, and whenever it returns nil the balance of
the address equals `t`. -/
theorem C25_SetBalance {ε : Type} (bk : BankKeeper ε) (ctx : Ctx) (addr : Address) (t : Int)
    (evmDenom : String) (moduleAddr : Address) (hdenom : validDenom evmDenom = true)
    (hrange : Int.natAbs (t - Keeper.GetBalance ctx addr) < 2 ^ 256) :
    ((Keeper.GetBalance ctx addr : Int) < t →
      Keeper.SetBalance bk ctx addr t evmDenom
        = some (Keeper.AddBalance bk ctx addr
            (NewCoins { Denom := evmDenom,
                        Amount := Int.toNat (t - Keeper.GetBalance ctx addr) })) ∧
      (Int.toNat (t - Keeper.GetBalance ctx addr) : Int) = t - Keeper.GetBalance ctx addr) ∧
    (t < (Keeper.GetBalance ctx addr : Int) →
      Keeper.SetBalance bk ctx addr t evmDenom
        = some (Keeper.SubBalance bk ctx addr
            (NewCoins { Denom := evmDenom,
                        Amount := Int.natAbs (t - Keeper.GetBalance ctx addr) })) ∧
      (Int.natAbs (t - Keeper.GetBalance ctx addr) : Int) = Keeper.GetBalance ctx addr - t) ∧
    (t = (Keeper.GetBalance ctx addr : Int) →
      Keeper.SetBalance bk ctx addr t evmDenom = some (none, ctx)) ∧
    (∃ r, Keeper.SetBalance (sdkBank moduleAddr evmDenom) ctx addr t evmDenom = some r ∧
      (r.1 = none → (Keeper.GetBalance r.2 addr : Int) = t)) := by
  have hpos : ∀ {κ : Type} (k : BankKeeper κ), (Keeper.GetBalance ctx addr : Int) < t →
      Keeper.SetBalance k ctx addr t evmDenom
        = some (Keeper.AddBalance k ctx addr
            (NewCoins { Denom := evmDenom,
                        Amount := Int.toNat (t - Keeper.GetBalance ctx addr) })) := by
    intro κ k h
    have hs : Int.sign (t - (Keeper.GetBalance ctx addr : Int)) = 1 :=
      Int.sign_eq_one_iff_pos.mpr (by omega)
    simp only [Keeper.SetBalance, hs, if_true, NewIntFromBigInt_of_lt _ hrange,
      NewCoin_valid evmDenom _ hdenom (show (0 : Int) ≤ t - Keeper.GetBalance ctx addr by omega)]
  have hneg : ∀ {κ : Type} (k : BankKeeper κ), t < (Keeper.GetBalance ctx addr : Int) →
      Keeper.SetBalance k ctx addr t evmDenom
        = some (Keeper.SubBalance k ctx addr
            (NewCoins { Denom := evmDenom,
                        Amount := Int.natAbs (t - Keeper.GetBalance ctx addr) })) := by
    intro κ k h
    have hs : Int.sign (t - (Keeper.GetBalance ctx addr : Int)) = -1 :=
      Int.sign_eq_neg_one_iff_neg.mpr (by omega)
    have hs1 : ¬ ((-1 : Int) = 1) := by decide
    have habs : Int.natAbs ((Int.natAbs (t - Keeper.GetBalance ctx addr) : Nat) : Int) < 2 ^ 256 := by
      rw [Int.natAbs_ofNat]
      exact hrange
    simp only [Keeper.SetBalance, hs, hs1, if_false, if_true, NewIntFromBigInt_of_lt _ habs,
      NewCoin_valid evmDenom _ hdenom (Int.ofNat_nonneg _), Int.toNat_ofNat]
  have hzero : ∀ {κ : Type} (k : BankKeeper κ), t = (Keeper.GetBalance ctx addr : Int) →
      Keeper.SetBalance k ctx addr t evmDenom = some (none, ctx) := by
    intro κ k h
    have hs : Int.sign (t - (Keeper.GetBalance ctx addr : Int)) = 0 := by
      rw [h, Int.sub_self]
      rfl
    have hs1 : ¬ ((0 : Int) = 1) := by decide
    have hs2 : ¬ ((0 : Int) = -1) := by decide
    simp only [Keeper.SetBalance, hs, hs1, hs2, if_false]
  refine ⟨fun h => ⟨hpos bk h, by omega⟩, fun h => ⟨hneg bk h, by omega⟩, hzero bk, ?_⟩
  rcases lt_trichotomy (Keeper.GetBalance ctx addr : Int) t with h | h | h
  · refine ⟨_, hpos _ h, fun _ => ?_⟩
    obtain ⟨c, h1, h2⟩ := sdkBank_AddBalance_ok moduleAddr evmDenom ctx addr
      (Int.toNat (t - Keeper.GetBalance ctx addr))
    rw [h1]
    simp only [h2]
    omega
  · exact ⟨_, hzero _ h.symm, fun _ => h⟩
  · refine ⟨_, hneg _ h, fun hnil => ?_⟩
    by_cases hle : Int.natAbs (t - Keeper.GetBalance ctx addr) ≤ Keeper.GetBalance ctx addr
    · obtain ⟨c, h1, h2⟩ := sdkBank_SubBalance_ok moduleAddr evmDenom ctx addr
        (Int.natAbs (t - Keeper.GetBalance ctx addr)) hle
      rw [h1]
      simp only [h2]
      omega
    · rw [sdkBank_SubBalance_insufficient moduleAddr evmDenom ctx addr _ (by omega)] at hnil
      cases hnil

theorem C25_SetBalance_witness :
    validDenom "aevm" = true ∧
    Int.natAbs ((10 : Int) - Keeper.GetBalance contractCtx sampleAddress) < 2 ^ 256 ∧
    Keeper.SetBalance (sdkBank sampleAddress2 "aevm") contractCtx sampleAddress 10 "aevm"
      = some (Keeper.SubBalance (sdkBank sampleAddress2 "aevm") contractCtx sampleAddress
          (NewCoins { Denom := "aevm", Amount := 90 })) ∧
    (∃ r, Keeper.SetBalance (sdkBank sampleAddress2 "aevm") contractCtx sampleAddress 10 "aevm"
        = some r ∧ (r.1 = none → (Keeper.GetBalance r.2 sampleAddress : Int) = 10)) :=
  ⟨by decide, by decide,
   ((C25_SetBalance (sdkBank sampleAddress2 "aevm") contractCtx sampleAddress 10 "aevm"
     sampleAddress2 (by decide) (by decide)).2.1 (by decide)).1,
   (C25_SetBalance (sdkBank sampleAddress2 "aevm") contractCtx sampleAddress 10 "aevm"
     sampleAddress2 (by decide) (by decide)).2.2.2⟩

/-! ## Decimal arithmetic -/

theorem precisionReuse_pos : (0 : Int) < precisionReuse := by
  unfold precisionReuse
  norm_num

theorem chopRound_mul (x : Int) : chopRound (x * precisionReuse) = x := by
  have hne : precisionReuse ≠ 0 := ne_of_gt precisionReuse_pos
  simp only [chopRound, Int.mul_tmod_left, Int.mul_tdiv_cancel x hne, if_true]

theorem chopPrecisionAndRound_mul (x : Int) : chopPrecisionAndRound (x * precisionReuse) = x := by
  unfold chopPrecisionAndRound
  by_cases h : x * precisionReuse < 0
  · rw [if_pos h, ← Int.neg_mul, chopRound_mul, Int.neg_neg]
  · rw [if_neg h, chopRound_mul]

theorem Mul_FromBigInt (p : LegacyDec) (g : Int) (h : Int.natAbs (p.i * g) < 2 ^ maxDecBitLen) :
    p.Mul (LegacyNewDecFromBigInt g) = some ⟨p.i * g⟩ := by
  have hc : chopPrecisionAndRound (p.i * (g * precisionReuse)) = p.i * g := by
    rw [← Int.mul_assoc, chopPrecisionAndRound_mul]
  have hn : ¬ (2 ^ maxDecBitLen ≤ Int.natAbs (p.i * g)) := Nat.not_le.mpr h
  simp only [LegacyDec.Mul, LegacyNewDecFromBigInt, hc, if_neg hn]

theorem Mul_FromBigInt_overflow (p : LegacyDec) (g : Int)
    (h : 2 ^ maxDecBitLen ≤ Int.natAbs (p.i * g)) :
    p.Mul (LegacyNewDecFromBigInt g) = none := by
  have hc : chopPrecisionAndRound (p.i * (g * precisionReuse)) = p.i * g := by
    rw [← Int.mul_assoc, chopPrecisionAndRound_mul]
  simp only [LegacyDec.Mul, LegacyNewDecFromBigInt, hc, if_pos h]

theorem LT_iff (fee : Int) (p : LegacyDec) (g : Int) :
    (LegacyNewDecFromBigInt fee).LT ⟨p.i * g⟩ = true ↔ (fee : ℚ) < p.toRat * g := by
  have hp : (0 : ℚ) < 10 ^ 18 := by norm_num
  have e : ((precisionReuse : Int) : ℚ) = 10 ^ 18 := by
    unfold precisionReuse
    norm_num
  unfold LegacyDec.LT
  rw [decide_eq_true_eq]
  simp only [LegacyNewDecFromBigInt]
  have hq : (fee : ℚ) < p.toRat * g ↔ (fee : ℚ) * 10 ^ 18 < (p.i : ℚ) * g := by
    unfold LegacyDec.toRat
    rw [div_mul_eq_mul_div, lt_div_iff₀ hp]
  rw [hq, ← e]
  norm_cast

theorem IsZero_iff (p : LegacyDec) : p.IsZero = true ↔ p.toRat = 0 := by
  simp [LegacyDec.IsZero, LegacyDec.toRat]

theorem checkLoop_cons (p : LegacyDec) (baseFee : Option Int) (e : MsgEthereumTx)
    (rest : List Msg) (h : Int.natAbs (p.i * (e.GetGas : Int)) < 2 ^ maxDecBitLen) :
    checkEthMinGasPriceLoop p baseFee (Msg.ethereumTx e :: rest)
      = if (LegacyNewDecFromBigInt (e.GetEffectiveFee baseFee)).LT ⟨p.i * (e.GetGas : Int)⟩ = true
        then some (some AnteError.ErrInsufficientFee)
        else checkEthMinGasPriceLoop p baseFee rest := by
  simp only [checkEthMinGasPriceLoop, Mul_FromBigInt p _ h]

theorem checkLoop_cons_overflow (p : LegacyDec) (baseFee : Option Int) (e : MsgEthereumTx)
    (rest : List Msg) (h : 2 ^ maxDecBitLen ≤ Int.natAbs (p.i * (e.GetGas : Int))) :
    checkEthMinGasPriceLoop p baseFee (Msg.ethereumTx e :: rest) = none := by
  simp only [checkEthMinGasPriceLoop, Mul_FromBigInt_overflow p _ h]

theorem checkLoop_append (p : LegacyDec) (baseFee : Option Int) (pre rest : List Msg)
    (hrange : ∀ msg ∈ pre, ∀ e, msg = Msg.ethereumTx e →
      Int.natAbs (p.i * (e.GetGas : Int)) < 2 ^ maxDecBitLen)
    (hpre : ∀ msg ∈ pre, ∃ e, msg = Msg.ethereumTx e ∧
      p.toRat * (e.GetGas : ℚ) ≤ (e.GetEffectiveFee baseFee : ℚ)) :
    checkEthMinGasPriceLoop p baseFee (pre ++ rest) = checkEthMinGasPriceLoop p baseFee rest := by
  induction pre with
  | nil => rfl
  | cons m t ih =>
    obtain ⟨e, he, hfee⟩ := hpre m (List.mem_cons_self _ _)
    subst he
    have hr := hrange _ (List.mem_cons_self _ _) e rfl
    have hlt : (LegacyNewDecFromBigInt (e.GetEffectiveFee baseFee)).LT
        ⟨p.i * (e.GetGas : Int)⟩ = false := by
      cases hb : (LegacyNewDecFromBigInt (e.GetEffectiveFee baseFee)).LT
          ⟨p.i * (e.GetGas : Int)⟩ with
      | false => rfl
      | true =>
        have := (LT_iff _ _ _).mp hb
        push_cast at this
        exact absurd hfee (not_le.mpr this)
    rw [List.cons_append, checkLoop_cons p baseFee e _ hr, hlt]
    simp only [Bool.false_eq_true, if_false]
    exact ih (fun msg hm => hrange msg (List.mem_cons_of_mem _ hm))
      (fun msg hm => hpre msg (List.mem_cons_of_mem _ hm))

theorem checkLoop_none (p : LegacyDec) (baseFee : Option Int) (msgs : List Msg)
    (hrange : ∀ msg ∈ msgs, ∀ e, msg = Msg.ethereumTx e →
      Int.natAbs (p.i * (e.GetGas : Int)) < 2 ^ maxDecBitLen) :
    checkEthMinGasPriceLoop p baseFee msgs = some none ↔
      ∀ msg ∈ msgs, ∃ e, msg = Msg.ethereumTx e ∧
        p.toRat * (e.GetGas : ℚ) ≤ (e.GetEffectiveFee baseFee : ℚ) := by
  induction msgs with
  | nil => simp [checkEthMinGasPriceLoop]
  | cons m t ih =>
    cases m with
    | other name => simp [checkEthMinGasPriceLoop]
    | ethereumTx e =>
      have hr := hrange _ (List.mem_cons_self _ _) e rfl
      have iht := ih (fun msg hm => hrange msg (List.mem_cons_of_mem _ hm))
      rw [checkLoop_cons p baseFee e t hr]
      simp only [List.mem_cons, forall_eq_or_imp]
      by_cases hb : (LegacyNewDecFromBigInt (e.GetEffectiveFee baseFee)).LT
          ⟨p.i * (e.GetGas : Int)⟩ = true
      · have hlt := (LT_iff _ _ _).mp hb
        push_cast at hlt
        rw [if_pos hb]
        constructor
        · intro h
          cases h
        · rintro ⟨⟨e', he', hfee⟩, _⟩
          cases he'
          exact absurd hfee (not_le.mpr hlt)
      · have hge : p.toRat * (e.GetGas : ℚ) ≤ (e.GetEffectiveFee baseFee : ℚ) := by
          by_contra hc
          apply hb
          apply (LT_iff _ _ _).mpr
          push_cast
          exact not_le.mp hc
        rw [if_neg hb, iht]
        constructor
        · intro h
          exact ⟨⟨e, rfl, hge⟩, h⟩
        · intro h
          exact h.2

/-! ## `CheckEthMinGasPrice` -/

/-- C26, as stated, fails when the product `p * gasLimit` is beyond the range
of the SDK's decimals: with minimum gas price 2^200 and one Ethereum message
of gas limit 2^60 and effective fee 0, lower than the product,
`CheckEthMinGasPrice` does not return `ErrInsufficientFee`: the multiplication
panics. -/
theorem C26_counterexample :
    hugePrice.toRat ≠ 0 ∧
    (∃ e : MsgEthereumTx, hugeGasTx.GetMsgs = [Msg.ethereumTx e] ∧ e.GetGas = 2 ^ 60 ∧
      (e.GetEffectiveFee none : ℚ) < hugePrice.toRat * (e.GetGas : ℚ)) ∧
    CheckEthMinGasPrice hugeGasTx hugePrice none = none := by
  refine ⟨by norm_num [hugePrice, LegacyDec.toRat], ⟨_, rfl, rfl, ?_⟩, ?_⟩
  · norm_num [hugePrice, LegacyDec.toRat]
  · have hz : hugePrice.IsZero = false := by
      simp [LegacyDec.IsZero, hugePrice]
    have hbig : 2 ^ maxDecBitLen ≤ Int.natAbs (hugePrice.i * (((2 ^ 60 : Nat)) : Int)) := by
      unfold maxDecBitLen
      simp only [hugePrice, Int.natAbs_mul, Int.natAbs_pow, Int.natAbs_ofNat]
      norm_num
    simp only [CheckEthMinGasPrice, hz, Bool.false_eq_true, if_false]
    exact checkLoop_cons_overflow hugePrice none _ [] hbig

/-- C26, amended: for a transaction each of whose Ethereum messages has a
product `p * gasLimit` within the range of the SDK's decimals (a numerator
`p * gasLimit * 10^18` of at most 315 bits), `CheckEthMinGasPrice` returns nil
if the minimum gas price `p` is 0; otherwise it returns nil if and only if
every message is a `MsgEthereumTx` whose effective fee at the given base fee
is at least the exact product `p * gasLimit` (equality accepted), and it
returns at the first message that is not so: `ErrInsufficientFee` if that
message is a `MsgEthereumTx` whose effective fee is lower,
`ErrUnknownRequest` if it is not a `MsgEthereumTx`. -/
theorem C26_CheckEthMinGasPrice (tx : Tx) (p : LegacyDec) (baseFee : Option Int)
    (hrange : ∀ msg ∈ tx.GetMsgs, ∀ e, msg = Msg.ethereumTx e →
      Int.natAbs (p.i * (e.GetGas : Int)) < 2 ^ maxDecBitLen) :
    (p.toRat = 0 → CheckEthMinGasPrice tx p baseFee = some none) ∧
    (p.toRat ≠ 0 →
      (CheckEthMinGasPrice tx p baseFee = some none ↔
        ∀ msg ∈ tx.GetMsgs, ∃ e, msg = Msg.ethereumTx e ∧
          p.toRat * (e.GetGas : ℚ) ≤ (e.GetEffectiveFee baseFee : ℚ)) ∧
      (∀ (pre : List Msg) (e : MsgEthereumTx) (post : List Msg),
        tx.GetMsgs = pre ++ Msg.ethereumTx e :: post →
        (∀ msg ∈ pre, ∃ e', msg = Msg.ethereumTx e' ∧
          p.toRat * (e'.GetGas : ℚ) ≤ (e'.GetEffectiveFee baseFee : ℚ)) →
        (e.GetEffectiveFee baseFee : ℚ) < p.toRat * (e.GetGas : ℚ) →
        CheckEthMinGasPrice tx p baseFee = some (some AnteError.ErrInsufficientFee)) ∧
      (∀ (pre : List Msg) (name : String) (post : List Msg),
        tx.GetMsgs = pre ++ Msg.other name :: post →
        (∀ msg ∈ pre, ∃ e', msg = Msg.ethereumTx e' ∧
          p.toRat * (e'.GetGas : ℚ) ≤ (e'.GetEffectiveFee baseFee : ℚ)) →
        CheckEthMinGasPrice tx p baseFee = some (some AnteError.ErrUnknownRequest))) := by
  constructor
  · intro h0
    simp only [CheckEthMinGasPrice, (IsZero_iff p).mpr h0, if_true]
  · intro hne
    have hz : p.IsZero = false := by
      cases hb : p.IsZero with
      | false => rfl
      | true => exact (hne ((IsZero_iff p).mp hb)).elim
    refine ⟨?_, ?_, ?_⟩
    · simp only [CheckEthMinGasPrice, hz, Bool.false_eq_true, if_false]
      exact checkLoop_none p baseFee tx.GetMsgs hrange
    · intro pre e post hmsgs hpre hlow
      have hrpre : ∀ msg ∈ pre, ∀ e', msg = Msg.ethereumTx e' →
          Int.natAbs (p.i * (e'.GetGas : Int)) < 2 ^ maxDecBitLen := by
        intro msg hm e' he'
        exact hrange msg (by rw [hmsgs]; exact List.mem_append_left _ hm) e' he'
      have hre : Int.natAbs (p.i * (e.GetGas : Int)) < 2 ^ maxDecBitLen :=
        hrange (Msg.ethereumTx e)
          (by rw [hmsgs]; exact List.mem_append_right _ (List.mem_cons_self _ _)) e rfl
      simp only [CheckEthMinGasPrice, hz, Bool.false_eq_true, if_false, hmsgs]
      rw [checkLoop_append p baseFee pre _ hrpre hpre, checkLoop_cons p baseFee e post hre]
      have hlt : (LegacyNewDecFromBigInt (e.GetEffectiveFee baseFee)).LT
          ⟨p.i * (e.GetGas : Int)⟩ = true := by
        apply (LT_iff _ _ _).mpr
        push_cast
        exact hlow
      rw [if_pos hlt]
    · intro pre name post hmsgs hpre
      have hrpre : ∀ msg ∈ pre, ∀ e', msg = Msg.ethereumTx e' →
          Int.natAbs (p.i * (e'.GetGas : Int)) < 2 ^ maxDecBitLen := by
        intro msg hm e' he'
        exact hrange msg (by rw [hmsgs]; exact List.mem_append_left _ hm) e' he'
      simp only [CheckEthMinGasPrice, hz, Bool.false_eq_true, if_false, hmsgs]
      rw [checkLoop_append p baseFee pre _ hrpre hpre]
      simp only [checkEthMinGasPriceLoop]

theorem C26_CheckEthMinGasPrice_witness :
    (∀ msg ∈ sampleEthTx.GetMsgs, ∀ e, msg = Msg.ethereumTx e →
      Int.natAbs (halfPrice.i * (e.GetGas : Int)) < 2 ^ maxDecBitLen) ∧
    halfPrice.toRat ≠ 0 ∧ CheckEthMinGasPrice sampleEthTx halfPrice none = some none :=
  have hrange : ∀ msg ∈ sampleEthTx.GetMsgs, ∀ e, msg = Msg.ethereumTx e →
      Int.natAbs (halfPrice.i * (e.GetGas : Int)) < 2 ^ maxDecBitLen := by
    intro msg hm e he
    simp only [sampleEthTx, List.mem_singleton] at hm
    subst hm
    cases he
    unfold maxDecBitLen
    simp only [halfPrice, Int.natAbs_mul, Int.natAbs_pow, Int.natAbs_ofNat]
    norm_num
  ⟨hrange, by norm_num [halfPrice, LegacyDec.toRat],
   ((C26_CheckEthMinGasPrice sampleEthTx halfPrice none hrange).2
      (by norm_num [halfPrice, LegacyDec.toRat])).1.mpr (by
        intro msg hm
        simp only [sampleEthTx, List.mem_singleton] at hm
        subst hm
        exact ⟨_, rfl, by norm_num [halfPrice, LegacyDec.toRat]⟩)⟩

/-! ## `MinGasPriceDecorator.AnteHandle` -/

theorem IsAnyGTE_nil (F : Coins) : Coins.IsAnyGTE F [] = some false := rfl

theorem orErr_eq_none (a b : Option ConfigError) : orErr a b = none ↔ a = none ∧ b = none := by
  cases a <;> simp [orErr]

theorem wrapErr_eq_none (a : Option ConfigError) (d : String) : wrapErr a d = none ↔ a = none := by
  cases a <;> simp [wrapErr]

theorem ValidateBlock_eq_none (b : Option Int) :
    ValidateBlock b = none ↔ ¬ ∃ x, b = some x ∧ x < 0 := by
  cases b with
  | none => simp [ValidateBlock]
  | some x =>
    by_cases h : x < 0
    · simp [ValidateBlock, h]
    · simp [ValidateBlock, h]

theorem ValidateTime_eq_none (t : Option Int) :
    ValidateTime t = none ↔ ¬ ∃ x, t = some x ∧ x < 0 := by
  cases t with
  | none => simp [ValidateTime]
  | some x =>
    by_cases h : x < 0
    · simp [ValidateTime, h]
    · simp [ValidateTime, h]

/-- The function `Validate` returns no error exactly when every check it makes
returns none. -/
theorem Validate_eq_none (cc : ChainConfig) :
    cc.Validate = none ↔
      (∀ v ∈ cc.forkBlocks, ValidateBlock v = none) ∧
      ValidateHash cc.EIP150Hash = none ∧
      (∀ v ∈ cc.forkTimes, ValidateTime v = none) ∧
      (cc.EthereumConfig none).CheckConfigForkOrder = none := by
  have hfo : (match (cc.EthereumConfig none).CheckConfigForkOrder with
      | some description => some (ConfigError.forkOrder description)
      | none => none) = none ↔ (cc.EthereumConfig none).CheckConfigForkOrder = none := by
    cases (cc.EthereumConfig none).CheckConfigForkOrder <;> simp
  simp only [ChainConfig.Validate, orErr_eq_none, wrapErr_eq_none, hfo, ChainConfig.forkBlocks,
    ChainConfig.forkTimes, List.mem_cons, List.mem_singleton, forall_eq_or_imp, forall_eq,
    List.not_mem_nil, false_imp_iff, implies_true, and_true]
  tauto

theorem forkOrderLoop_unset (l : List fork) :
    ∀ lf : fork, lf.block = none → lf.timestamp = none →
      (∃ g ∈ l, g.block ≠ none ∨ g.timestamp ≠ none) →
      forkOrderLoop (some lf) l ≠ none := by
  induction l with
  | nil =>
    rintro lf _ _ ⟨g, hg, _⟩
    cases hg
  | cons cur rest ih =>
    rintro lf hb ht ⟨g, hg, hset⟩
    by_cases hcur : cur.block ≠ none ∨ cur.timestamp ≠ none
    · have hc : checkFork lf cur
          = some "unsupported fork ordering: fork not enabled, but a later fork enabled" := by
        simp only [checkFork, hb, ht, true_and]
        rw [if_pos hcur]
      simp only [forkOrderLoop, hc]
      exact fun h => by cases h
    · have hcb : cur.block = none := by
        by_contra hne
        exact hcur (Or.inl hne)
      have hct : cur.timestamp = none := by
        by_contra hne
        exact hcur (Or.inr hne)
      have hc : checkFork lf cur = none := by
        simp [checkFork, hb, ht, hcb, hct]
      have hrest : ∃ g ∈ rest, g.block ≠ none ∨ g.timestamp ≠ none := by
        rcases List.mem_cons.mp hg with e | e
        · rw [e] at hset
          exact (hcur hset).elim
        · exact ⟨g, e, hset⟩
      simp only [forkOrderLoop, hc]
      by_cases hopt : cur.optional = true
      · simp only [hopt, hcb, hct, Bool.not_true, Option.isSome_none, Bool.or_self,
          Bool.false_eq_true, if_false]
        exact ih lf hb ht hrest
      · have hopt' : cur.optional = false := Bool.not_eq_true _ ▸ hopt
        simp only [hopt', Bool.not_false, Bool.true_or, if_true]
        exact ih cur hcb hct hrest

/-- The fork order check fails when a fork that is not optional is unset and a
later fork is set. -/
theorem forkOrderLoop_required (pre : List fork) (f : fork) (post : List fork)
    (hopt : f.optional = false) (hb : f.block = none) (ht : f.timestamp = none)
    (hset : ∃ g ∈ post, g.block ≠ none ∨ g.timestamp ≠ none) :
    ∀ last : Option fork, forkOrderLoop last (pre ++ f :: post) ≠ none := by
  induction pre with
  | nil =>
    intro last
    simp only [List.nil_append, forkOrderLoop]
    cases hc : (match last with
        | none => none
        | some lf => checkFork lf f) with
    | some err => exact fun h => by cases h
    | none =>
      simp only [hopt, Bool.not_false, Bool.true_or, if_true]
      exact forkOrderLoop_unset post f hb ht hset
  | cons cur rest ih =>
    intro last
    simp only [List.cons_append, forkOrderLoop]
    cases hc : (match last with
        | none => none
        | some lf => checkFork lf cur) with
    | some err => exact fun h => by cases h
    | none => exact ih _

theorem forkOf_block (name : String) (v : Option Int) (opt : Bool) :
    forkOf (v, opt)
      { name := name, block := getBlockValue v, timestamp := none, optional := opt } := by
  refine ⟨rfl, fun h => ?_, fun x h hx => ?_⟩
  · simp only at h
    subst h
    exact ⟨rfl, rfl⟩
  · simp only at h
    subst h
    left
    simp [getBlockValue, not_lt.mpr hx]

theorem forkOf_time (name : String) (v : Option Int) (opt : Bool) :
    forkOf (v, opt)
      { name := name, block := none, timestamp := getTimeValue v, optional := opt } := by
  refine ⟨rfl, fun h => ?_, fun x h hx => ?_⟩
  · simp only at h
    subst h
    exact ⟨rfl, rfl⟩
  · simp only at h
    subst h
    right
    simp [getTimeValue, not_lt.mpr hx]

theorem forkValues_forks (cc : ChainConfig) :
    List.Forall₂ forkOf cc.forkValues (cc.EthereumConfig none).forks := by
  unfold ChainConfig.forkValues params.ChainConfig.forks ChainConfig.EthereumConfig
  refine List.Forall₂.cons (forkOf_block _ _ _) ?_
  refine List.Forall₂.cons (forkOf_block _ _ _) ?_
  refine List.Forall₂.cons (forkOf_block _ _ _) ?_
  refine List.Forall₂.cons (forkOf_block _ _ _) ?_
  refine List.Forall₂.cons (forkOf_block _ _ _) ?_
  refine List.Forall₂.cons (forkOf_block _ _ _) ?_
  refine List.Forall₂.cons (forkOf_block _ _ _) ?_
  refine List.Forall₂.cons (forkOf_block _ _ _) ?_
  refine List.Forall₂.cons (forkOf_block _ _ _) ?_
  refine List.Forall₂.cons (forkOf_block _ _ _) ?_
  refine List.Forall₂.cons (forkOf_block _ _ _) ?_
  refine List.Forall₂.cons (forkOf_block _ _ _) ?_
  refine List.Forall₂.cons (forkOf_block _ _ _) ?_
  refine List.Forall₂.cons (forkOf_block _ _ _) ?_
  refine List.Forall₂.cons (forkOf_block _ _ _) ?_
  refine List.Forall₂.cons (forkOf_time _ _ _) ?_
  refine List.Forall₂.cons (forkOf_time _ _ _) ?_
  refine List.Forall₂.cons (forkOf_time _ _ _) ?_
  exact List.Forall₂.nil

theorem forall2_split {α β : Type} (R : α → β → Prop) (pre : List α) (x : α) (post : List α) :
    ∀ l : List β, List.Forall₂ R (pre ++ x :: post) l →
      ∃ pre' y post', l = pre' ++ y :: post' ∧ R x y ∧ List.Forall₂ R post post' := by
  induction pre with
  | nil =>
    intro l h
    obtain ⟨y, post', hxy, hpost, hl⟩ := List.forall₂_cons_left_iff.mp h
    exact ⟨[], y, post', hl, hxy, hpost⟩
  | cons a t ih =>
    intro l h
    obtain ⟨b, l', _, ht, hl⟩ := List.forall₂_cons_left_iff.mp h
    obtain ⟨pre', y, post', e, hxy, hpost⟩ := ih l' ht
    exact ⟨b :: pre', y, post', by rw [hl, e]; rfl, hxy, hpost⟩

theorem forall2_mem {α β : Type} (R : α → β → Prop) (l : List α) :
    ∀ l' : List β, List.Forall₂ R l l' → ∀ a ∈ l, ∃ b ∈ l', R a b := by
  induction l with
  | nil =>
    intro l' _ a ha
    cases ha
  | cons x t ih =>
    intro l' h a ha
    obtain ⟨y, t', hxy, ht, hl⟩ := List.forall₂_cons_left_iff.mp h
    subst hl
    rcases List.mem_cons.mp ha with e | e
    · subst e
      exact ⟨y, List.mem_cons_self _ _, hxy⟩
    · obtain ⟨b, hb, hr⟩ := ih t' ht a e
      exact ⟨b, List.mem_cons_of_mem _ hb, hr⟩

theorem forkValues_mem (cc : ChainConfig) :
    ∀ g ∈ cc.forkValues, g.1 ∈ cc.forkBlocks ∨ g.1 ∈ cc.forkTimes := by
  intro g hg
  simp only [ChainConfig.forkValues, List.mem_cons, List.mem_singleton, List.not_mem_nil,
    or_false] at hg
  simp only [ChainConfig.forkBlocks, ChainConfig.forkTimes, List.mem_cons, List.mem_singleton,
    List.not_mem_nil, or_false]
  rcases hg with h | h | h | h | h | h | h | h | h | h | h | h | h | h | h | h | h | h <;>
    (rw [h]; simp)

/-- C28, as stated, fails: the chain configuration whose fork block values are
all uninitialized passes `Validate`, and so does the default configuration
with its last fork block, `MergeNetsplitBlock`, left uninitialized. -/
theorem C28_counterexample :
    nilChainConfig.HomesteadBlock = none ∧
    nilChainConfig.Validate = none ∧
    ({ DefaultChainConfig with MergeNetsplitBlock := none } : ChainConfig).Validate = none := by
  decide

/-- C28, amended: an uninitialized (nil) fork value passes `ValidateBlock` and
`ValidateTime`; `ChainConfig.Validate` returns an error for every ChainConfig
in which a fork value that the fork order check does not treat as optional is
uninitialized while a later fork value is initialized. -/
theorem C28_Validate_nil (cc : ChainConfig) (pre post : List (Option Int × Bool))
    (hvals : cc.forkValues = pre ++ (none, false) :: post)
    (hset : ∃ g ∈ post, g.1 ≠ none) :
    cc.Validate ≠ none ∧ ValidateBlock none = none ∧ ValidateTime none = none := by
  refine ⟨fun hval => ?_, rfl, rfl⟩
  obtain ⟨hblocks, _, htimes, horder⟩ := (Validate_eq_none cc).mp hval
  have hrel := forkValues_forks cc
  rw [hvals] at hrel
  obtain ⟨pre', f, post', hforks, ⟨hopt, hunset, _⟩, hpost⟩ :=
    forall2_split forkOf pre (none, false) post _ hrel
  obtain ⟨hb, ht⟩ := hunset rfl
  obtain ⟨g, hg, hgset⟩ := hset
  obtain ⟨g', hg', _, _, hgs⟩ := forall2_mem forkOf post post' hpost g hg
  have hgmem : g ∈ cc.forkValues := by
    rw [hvals]
    exact List.mem_append_right _ (List.mem_cons_of_mem _ hg)
  cases hv : g.1 with
  | none => exact hgset hv
  | some x =>
    have hx : 0 ≤ x := by
      by_contra hneg
      rcases forkValues_mem cc g hgmem with hm | hm
      · exact (ValidateBlock_eq_none g.1).mp (hblocks _ hm) ⟨x, hv, not_le.mp hneg⟩
      · exact (ValidateTime_eq_none g.1).mp (htimes _ hm) ⟨x, hv, not_le.mp hneg⟩
    have := forkOrderLoop_required pre' f post' hopt hb ht ⟨g', hg', hgs x hv hx⟩ none
    apply this
    rw [← hforks]
    exact horder

theorem C28_Validate_nil_witness :
    ({ DefaultChainConfig with HomesteadBlock := none } : ChainConfig).forkValues
      = [] ++ (none, false) ::
          ({ DefaultChainConfig with HomesteadBlock := none } : ChainConfig).forkValues.tail ∧
    ({ DefaultChainConfig with HomesteadBlock := none } : ChainConfig).Validate ≠ none :=
  ⟨rfl,
   (C28_Validate_nil { DefaultChainConfig with HomesteadBlock := none } []
     ({ DefaultChainConfig with HomesteadBlock := none } : ChainConfig).forkValues.tail rfl
     ⟨(some 0, true), by decide, by decide⟩).1⟩

/-- C29: `ValidateBlock(b)` returns an error if and only if `b` is non-nil and
negative, `ValidateTime(t)` returns an error if and only if `t` is non-nil and
negative, and `ChainConfig.Validate` returns an error for every ChainConfig
that has a negative fork block or fork time value. -/
theorem C29_Validate_negative (cc : ChainConfig) (b t : Option Int) :
    (ValidateBlock b ≠ none ↔ ∃ x, b = some x ∧ x < 0) ∧
    (ValidateTime t ≠ none ↔ ∃ x, t = some x ∧ x < 0) ∧
    ((∃ v, (v ∈ cc.forkBlocks ∨ v ∈ cc.forkTimes) ∧ ∃ x, v = some x ∧ x < 0) →
      cc.Validate ≠ none) := by
  refine ⟨?_, ?_, ?_⟩
  · rw [Ne, ValidateBlock_eq_none, not_not]
  · rw [Ne, ValidateTime_eq_none, not_not]
  · rintro ⟨v, hv, hneg⟩ hval
    obtain ⟨hblocks, _, htimes, _⟩ := (Validate_eq_none cc).mp hval
    rcases hv with hm | hm
    · exact (ValidateBlock_eq_none v).mp (hblocks v hm) hneg
    · exact (ValidateTime_eq_none v).mp (htimes v hm) hneg

theorem C29_Validate_negative_witness :
    (∃ v, (v ∈ ({ DefaultChainConfig with LondonBlock := some (-1) } : ChainConfig).forkBlocks ∨
        v ∈ ({ DefaultChainConfig with LondonBlock := some (-1) } : ChainConfig).forkTimes) ∧
      ∃ x, v = some x ∧ x < 0) ∧
    ({ DefaultChainConfig with LondonBlock := some (-1) } : ChainConfig).Validate ≠ none :=
  ⟨⟨some (-1), Or.inl (by decide), -1, rfl, by decide⟩,
   (C29_Validate_negative { DefaultChainConfig with LondonBlock := some (-1) } none none).2.2
     ⟨some (-1), Or.inl (by decide), -1, rfl, by decide⟩⟩

theorem getBlockValue_nil (b : Option Int) : nilWhenUnset b (getBlockValue b) := by
  unfold nilWhenUnset
  cases b with
  | none => simp [getBlockValue]
  | some x =>
    by_cases h : x < 0
    · simp [getBlockValue, h]
    · simp [getBlockValue, h]

theorem getBlockValue_same (b : Option Int) : sameBlock b (getBlockValue b) := by
  intro x hb hx
  subst hb
  simp [getBlockValue, not_lt.mpr hx]

theorem getTimeValue_nil (t : Option Int) : nilWhenUnset t (getTimeValue t) := by
  unfold nilWhenUnset
  cases t with
  | none => simp [getTimeValue]
  | some x =>
    by_cases h : x < 0
    · simp [getTimeValue, h]
    · simp [getTimeValue, h]

/-- C30: in `cc.EthereumConfig(chainID)` every fork block and every fork time
is nil exactly when the value of the same name in `cc` is nil or negative,
every non-negative fork block is converted to the same integer, `ChainID` is
the given chain id, and `DAOForkSupport` is copied unchanged. -/
theorem C30_EthereumConfig (cc : ChainConfig) (chainID : Option Int) :
    nilWhenUnset cc.HomesteadBlock (cc.EthereumConfig chainID).HomesteadBlock ∧
    sameBlock cc.HomesteadBlock (cc.EthereumConfig chainID).HomesteadBlock ∧
    nilWhenUnset cc.DAOForkBlock (cc.EthereumConfig chainID).DAOForkBlock ∧
    sameBlock cc.DAOForkBlock (cc.EthereumConfig chainID).DAOForkBlock ∧
    nilWhenUnset cc.EIP150Block (cc.EthereumConfig chainID).EIP150Block ∧
    sameBlock cc.EIP150Block (cc.EthereumConfig chainID).EIP150Block ∧
    nilWhenUnset cc.EIP155Block (cc.EthereumConfig chainID).EIP155Block ∧
    sameBlock cc.EIP155Block (cc.EthereumConfig chainID).EIP155Block ∧
    nilWhenUnset cc.EIP158Block (cc.EthereumConfig chainID).EIP158Block ∧
    sameBlock cc.EIP158Block (cc.EthereumConfig chainID).EIP158Block ∧
    nilWhenUnset cc.ByzantiumBlock (cc.EthereumConfig chainID).ByzantiumBlock ∧
    sameBlock cc.ByzantiumBlock (cc.EthereumConfig chainID).ByzantiumBlock ∧
    nilWhenUnset cc.ConstantinopleBlock (cc.EthereumConfig chainID).ConstantinopleBlock ∧
    sameBlock cc.ConstantinopleBlock (cc.EthereumConfig chainID).ConstantinopleBlock ∧
    nilWhenUnset cc.PetersburgBlock (cc.EthereumConfig chainID).PetersburgBlock ∧
    sameBlock cc.PetersburgBlock (cc.EthereumConfig chainID).PetersburgBlock ∧
    nilWhenUnset cc.IstanbulBlock (cc.EthereumConfig chainID).IstanbulBlock ∧
    sameBlock cc.IstanbulBlock (cc.EthereumConfig chainID).IstanbulBlock ∧
    nilWhenUnset cc.MuirGlacierBlock (cc.EthereumConfig chainID).MuirGlacierBlock ∧
    sameBlock cc.MuirGlacierBlock (cc.EthereumConfig chainID).MuirGlacierBlock ∧
    nilWhenUnset cc.BerlinBlock (cc.EthereumConfig chainID).BerlinBlock ∧
    sameBlock cc.BerlinBlock (cc.EthereumConfig chainID).BerlinBlock ∧
    nilWhenUnset cc.LondonBlock (cc.EthereumConfig chainID).LondonBlock ∧
    sameBlock cc.LondonBlock (cc.EthereumConfig chainID).LondonBlock ∧
    nilWhenUnset cc.ArrowGlacierBlock (cc.EthereumConfig chainID).ArrowGlacierBlock ∧
    sameBlock cc.ArrowGlacierBlock (cc.EthereumConfig chainID).ArrowGlacierBlock ∧
    nilWhenUnset cc.GrayGlacierBlock (cc.EthereumConfig chainID).GrayGlacierBlock ∧
    sameBlock cc.GrayGlacierBlock (cc.EthereumConfig chainID).GrayGlacierBlock ∧
    nilWhenUnset cc.MergeNetsplitBlock (cc.EthereumConfig chainID).MergeNetsplitBlock ∧
    sameBlock cc.MergeNetsplitBlock (cc.EthereumConfig chainID).MergeNetsplitBlock ∧
    nilWhenUnset cc.ShanghaiTime (cc.EthereumConfig chainID).ShanghaiTime ∧
    nilWhenUnset cc.CancunTime (cc.EthereumConfig chainID).CancunTime ∧
    nilWhenUnset cc.PragueTime (cc.EthereumConfig chainID).PragueTime ∧
    (cc.EthereumConfig chainID).ChainID = chainID ∧
    (cc.EthereumConfig chainID).DAOForkSupport = cc.DAOForkSupport := by
  refine ⟨getBlockValue_nil _, getBlockValue_same _, getBlockValue_nil _, getBlockValue_same _,
    getBlockValue_nil _, getBlockValue_same _, getBlockValue_nil _, getBlockValue_same _,
    getBlockValue_nil _, getBlockValue_same _, getBlockValue_nil _, getBlockValue_same _,
    getBlockValue_nil _, getBlockValue_same _, getBlockValue_nil _, getBlockValue_same _,
    getBlockValue_nil _, getBlockValue_same _, getBlockValue_nil _, getBlockValue_same _,
    getBlockValue_nil _, getBlockValue_same _, getBlockValue_nil _, getBlockValue_same _,
    getBlockValue_nil _, getBlockValue_same _, getBlockValue_nil _, getBlockValue_same _,
    getBlockValue_nil _, getBlockValue_same _, getTimeValue_nil _, getTimeValue_nil _,
    getTimeValue_nil _, rfl, rfl⟩

/-! ## The fee market store: block gas wanted -/

theorem BigEndian_round_trip (g : Nat) (hg : g < 2 ^ 64) :
    BigEndianToUint64 (Uint64ToBigEndian g) = some g := by
  simp only [Uint64ToBigEndian, BigEndianToUint64, byteOf, Option.some.injEq]
  omega

/-- C31: for a 64-bit unsigned gas value `g`, `GetBlockGasWanted` after
`SetBlockGasWanted(g)` returns `g`, also when another value was set before
(the last value set wins), and `GetBlockGasWanted` on a store that holds no
value under the key, the empty store among them, returns 0. -/
theorem C31_BlockGasWanted (store : KVStore) (g g' : Nat) (hg : g < 2 ^ 64) :
    feemarket.Keeper.GetBlockGasWanted (feemarket.Keeper.SetBlockGasWanted store g) = some g ∧
    feemarket.Keeper.GetBlockGasWanted
      (feemarket.Keeper.SetBlockGasWanted (feemarket.Keeper.SetBlockGasWanted store g') g)
      = some g ∧
    (Uint64ToBigEndian g).length = 8 ∧
    (AMap.get store KeyPrefixBlockGasWanted = none →
      feemarket.Keeper.GetBlockGasWanted store = some 0) ∧
    feemarket.Keeper.GetBlockGasWanted AMap.empty = some 0 := by
  have hget : ∀ st : KVStore,
      feemarket.Keeper.GetBlockGasWanted (feemarket.Keeper.SetBlockGasWanted st g) = some g := by
    intro st
    simp only [feemarket.Keeper.GetBlockGasWanted, feemarket.Keeper.SetBlockGasWanted,
      AMap.get_set_same]
    rw [if_neg (by simp [Uint64ToBigEndian])]
    exact BigEndian_round_trip g hg
  refine ⟨hget store, hget _, rfl, fun h => ?_, rfl⟩
  simp only [feemarket.Keeper.GetBlockGasWanted, h]

theorem C31_BlockGasWanted_witness :
    (2500000 : Nat) < 2 ^ 64 ∧
    feemarket.Keeper.GetBlockGasWanted (feemarket.Keeper.SetBlockGasWanted AMap.empty 2500000)
      = some 2500000 :=
  ⟨by decide, (C31_BlockGasWanted AMap.empty 2500000 0 (by decide)).1⟩

/-! ## State objects: the origin cache -/

theorem Code_fields (ctx : Ctx) (s : stateObject) :
    (s.Code ctx).2.overrideStorage = s.overrideStorage ∧
    (s.Code ctx).2.originStorage = s.originStorage ∧
    (s.Code ctx).2.dirtyStorage = s.dirtyStorage ∧
    (s.Code ctx).2.originalAccount = s.originalAccount ∧
    (s.Code ctx).2.account = s.account := by
  unfold stateObject.Code
  cases s.code with
  | some c => exact ⟨rfl, rfl, rfl, rfl, rfl⟩
  | none =>
    dsimp only
    by_cases h : s.CodeHash = EmptyCodeHash
    · rw [if_pos h]
      exact ⟨rfl, rfl, rfl, rfl, rfl⟩
    · rw [if_neg h]
      exact ⟨rfl, rfl, rfl, rfl, rfl⟩

theorem CodeSize_snd (ctx : Ctx) (s : stateObject) : (s.CodeSize ctx).2 = (s.Code ctx).2 := by
  unfold stateObject.CodeSize
  cases h : s.Code ctx with
  | mk c s1 => cases c <;> rfl

theorem GetCommittedState_origin (ctx : Ctx) (s : stateObject) (key k v : Hash)
    (h : AMap.get s.originStorage k = some v) :
    AMap.get (s.GetCommittedState ctx key).2.originStorage k = some v := by
  unfold stateObject.GetCommittedState
  cases s.overrideStorage with
  | some ov =>
    dsimp only
    cases AMap.get ov key <;> exact h
  | none =>
    dsimp only
    cases ho : AMap.get s.originStorage key with
    | some value => exact h
    | none =>
      dsimp only
      rw [AMap.get_set_other _ _ _ _ (fun e => by rw [e, h] at ho; cases ho)]
      exact h

theorem GetState_origin (ctx : Ctx) (s : stateObject) (key k v : Hash)
    (h : AMap.get s.originStorage k = some v) :
    AMap.get (s.GetState ctx key).2.originStorage k = some v := by
  unfold stateObject.GetState
  cases AMap.get s.dirtyStorage key with
  | some d => exact h
  | none => exact GetCommittedState_origin ctx s key k v h

theorem SetState_origin (ctx : Ctx) (j : journal) (s : stateObject) (key value k v : Hash)
    (h : AMap.get s.originStorage k = some v) :
    AMap.get (s.SetState ctx j key value).1.originStorage k = some v := by
  unfold stateObject.SetState
  by_cases hv : (s.GetState ctx key).1 = value
  · simp only [if_pos hv]
    exact GetState_origin ctx s key k v h
  · simp only [if_neg hv, stateObject.setState]
    exact GetState_origin ctx s key k v h

theorem SetState_override (ctx : Ctx) (j : journal) (s : stateObject) (key value : Hash) :
    (s.SetState ctx j key value).1.overrideStorage = s.overrideStorage := by
  unfold stateObject.SetState
  by_cases hv : (s.GetState ctx key).1 = value
  · simp only [if_pos hv]
    exact (GetState_fields ctx s key).2.2.2.2.1
  · simp only [if_neg hv, stateObject.setState]
    exact (GetState_fields ctx s key).2.2.2.2.1

theorem GetCommittedState_cached (ctx : Ctx) (s : stateObject) (k v : Hash)
    (hov : s.overrideStorage = none) (h : AMap.get s.originStorage k = some v) :
    s.GetCommittedState ctx k = (v, s) := by
  simp only [stateObject.GetCommittedState, hov, h]

/-- No operation other than `SetStorage` installs an override or changes a
recorded entry of the origin cache. -/
theorem ObjectOp_origin (op : ObjectOp) (s : stateObject) (k v : Hash)
    (hov : s.overrideStorage = none) (h : AMap.get s.originStorage k = some v) :
    (op.apply s).overrideStorage = none ∧ AMap.get (op.apply s).originStorage k = some v := by
  cases op with
  | getCommittedState ctx key =>
    exact ⟨((GetCommittedState_fields ctx s key).2.2.2.2.1).trans hov,
      GetCommittedState_origin ctx s key k v h⟩
  | getState ctx key =>
    exact ⟨((GetState_fields ctx s key).2.2.2.2.1).trans hov, GetState_origin ctx s key k v h⟩
  | setState ctx key value =>
    exact ⟨(SetState_override ctx [] s key value).trans hov,
      SetState_origin ctx [] s key value k v h⟩
  | code ctx =>
    obtain ⟨h1, h2, _⟩ := Code_fields ctx s
    exact ⟨h1.trans hov, by simp only [ObjectOp.apply, h2, h]⟩
  | codeSize ctx =>
    obtain ⟨h1, h2, _⟩ := Code_fields ctx s
    simp only [ObjectOp.apply, CodeSize_snd]
    exact ⟨h1.trans hov, by rw [h2, h]⟩
  | setCode ctx codeHash code =>
    obtain ⟨h1, h2, _⟩ := Code_fields ctx s
    simp only [ObjectOp.apply, stateObject.SetCode, stateObject.setCode]
    exact ⟨h1.trans hov, by rw [h2, h]⟩
  | setNonce nonce => exact ⟨hov, h⟩
  | markSelfDestructed => exact ⟨hov, h⟩

theorem applyOps_origin (ops : List ObjectOp) :
    ∀ (s : stateObject) (k v : Hash), s.overrideStorage = none →
      AMap.get s.originStorage k = some v →
      (applyOps s ops).overrideStorage = none ∧
      AMap.get (applyOps s ops).originStorage k = some v := by
  induction ops with
  | nil =>
    intro s k v hov h
    exact ⟨hov, h⟩
  | cons op rest ih =>
    intro s k v hov h
    obtain ⟨h1, h2⟩ := ObjectOp_origin op s k v hov h
    exact ih (op.apply s) k v h1 h2

/-- C32: on a state object with no storage override and no origin entry for
`k`, `GetCommittedState(k)` returns the backing store's `GetState(address, k)`
and records it in `originStorage[k]`; after any sequence of operations other
than `SetStorage`, over whatever backing stores, the entry is still recorded
and `GetCommittedState(k)` returns it over any backing store, leaving the
object as it is. -/
theorem C32_origin_cache (ctx ctx' : Ctx) (s : stateObject) (k : Hash) (ops : List ObjectOp)
    (hov : s.overrideStorage = none) (hfirst : AMap.get s.originStorage k = none) :
    (s.GetCommittedState ctx k).1 = Keeper.GetState ctx s.address k ∧
    AMap.get (s.GetCommittedState ctx k).2.originStorage k
      = some (Keeper.GetState ctx s.address k) ∧
    AMap.get (applyOps (s.GetCommittedState ctx k).2 ops).originStorage k
      = some (Keeper.GetState ctx s.address k) ∧
    (applyOps (s.GetCommittedState ctx k).2 ops).GetCommittedState ctx' k
      = (Keeper.GetState ctx s.address k, applyOps (s.GetCommittedState ctx k).2 ops) := by
  have hrun : s.GetCommittedState ctx k
      = (Keeper.GetState ctx s.address k,
         { s with originStorage := AMap.set s.originStorage k (Keeper.GetState ctx s.address k) }) := by
    simp only [stateObject.GetCommittedState, hov, hfirst, stateObject.Address]
  have hrec : AMap.get (s.GetCommittedState ctx k).2.originStorage k
      = some (Keeper.GetState ctx s.address k) := by
    rw [hrun]
    exact AMap.get_set_same _ _ _
  have hov1 : (s.GetCommittedState ctx k).2.overrideStorage = none := by
    rw [hrun]
    exact hov
  obtain ⟨h1, h2⟩ := applyOps_origin ops _ k _ hov1 hrec
  exact ⟨by rw [hrun], hrec, h2, GetCommittedState_cached ctx' _ k _ h1 h2⟩

theorem C32_origin_cache_witness :
    (newObject sampleAddress none).overrideStorage = none ∧
    AMap.get (newObject sampleAddress none).originStorage hash1 = none ∧
    ((applyOps ((newObject sampleAddress none).GetCommittedState contractCtx hash1).2
        [ObjectOp.setState emptyCtx hash1 hash3, ObjectOp.getState emptyCtx hash2]).GetCommittedState
      emptyCtx hash1).1 = Keeper.GetState contractCtx sampleAddress hash1 ∧
    Keeper.GetState contractCtx sampleAddress hash1 = hash2 ∧
    Keeper.GetState emptyCtx sampleAddress hash1 = zeroHash :=
  ⟨rfl, rfl,
   congrArg Prod.fst (C32_origin_cache contractCtx emptyCtx (newObject sampleAddress none) hash1
     [ObjectOp.setState emptyCtx hash1 hash3, ObjectOp.getState emptyCtx hash2] rfl rfl).2.2.2,
   by decide, by decide⟩

/-! ## State objects: the frame of `SetState` -/

theorem GetState_snd_committed (ctx : Ctx) (s : stateObject) (k k2 : Hash) :
    ((s.GetState ctx k).2.GetCommittedState ctx k2).1 = (s.GetCommittedState ctx k2).1 := by
  unfold stateObject.GetState
  cases AMap.get s.dirtyStorage k with
  | some d => rfl
  | none => exact GetCommittedState_stable ctx s k k2

theorem GetCommittedState_snd_origin (ctx : Ctx) (s : stateObject) (k k2 : Hash) (h : k2 ≠ k) :
    AMap.get (s.GetCommittedState ctx k).2.originStorage k2 = AMap.get s.originStorage k2 := by
  unfold stateObject.GetCommittedState
  cases s.overrideStorage with
  | some ov =>
    dsimp only
    cases AMap.get ov k <;> rfl
  | none =>
    dsimp only
    cases AMap.get s.originStorage k with
    | some value => rfl
    | none => exact AMap.get_set_other _ _ _ _ (fun e => h e.symm)

theorem GetState_snd_origin (ctx : Ctx) (s : stateObject) (k k2 : Hash) (h : k2 ≠ k) :
    AMap.get (s.GetState ctx k).2.originStorage k2 = AMap.get s.originStorage k2 := by
  unfold stateObject.GetState
  cases AMap.get s.dirtyStorage k with
  | some d => rfl
  | none => exact GetCommittedState_snd_origin ctx s k k2 h

/-- C33: `SetState(k, v)` leaves `GetCommittedState(k2)` as it was for every
key `k2`, `k` included, and `GetState(k2)` as it was for every `k2` other than
`k`; the dirty entries and the origin entries of the keys other than `k` are
unchanged, and so are the account record, the original account, the code, the
override, the address and the self-destruct and new-contract flags. -/
theorem C33_SetState_frame (ctx : Ctx) (j : journal) (s : stateObject) (k k2 v : Hash) :
    ((s.SetState ctx j k v).1.GetCommittedState ctx k2).1 = (s.GetCommittedState ctx k2).1 ∧
    (k2 ≠ k → ((s.SetState ctx j k v).1.GetState ctx k2).1 = (s.GetState ctx k2).1) ∧
    (k2 ≠ k →
      AMap.get (s.SetState ctx j k v).1.dirtyStorage k2 = AMap.get s.dirtyStorage k2 ∧
      AMap.get (s.SetState ctx j k v).1.originStorage k2 = AMap.get s.originStorage k2) ∧
    (s.SetState ctx j k v).1.account = s.account ∧
    (s.SetState ctx j k v).1.originalAccount = s.originalAccount ∧
    (s.SetState ctx j k v).1.code = s.code ∧
    (s.SetState ctx j k v).1.overrideStorage = s.overrideStorage ∧
    (s.SetState ctx j k v).1.address = s.address ∧
    (s.SetState ctx j k v).1.selfDestructed = s.selfDestructed ∧
    (s.SetState ctx j k v).1.newContract = s.newContract := by
  obtain ⟨f1, f2, f3, f4, f5, f6⟩ := GetState_fields ctx s k
  have fa := GetState_address ctx s k
  have fd := GetState_dirtyStorage ctx s k
  refine ⟨?_, fun h => stateObject_SetState_GetState_other ctx j s k k2 v (fun e => h e.symm),
    fun h => ?_, ?_⟩
  · unfold stateObject.SetState
    by_cases hv : (s.GetState ctx k).1 = v
    · simp only [if_pos hv]
      exact GetState_snd_committed ctx s k k2
    · simp only [if_neg hv]
      rw [GetCommittedState_congr ctx ((s.GetState ctx k).2.setState k v) (s.GetState ctx k).2
        rfl rfl rfl k2]
      exact GetState_snd_committed ctx s k k2
  · unfold stateObject.SetState
    by_cases hv : (s.GetState ctx k).1 = v
    · simp only [if_pos hv]
      exact ⟨by rw [fd], GetState_snd_origin ctx s k k2 h⟩
    · simp only [if_neg hv, stateObject.setState]
      exact ⟨by rw [fd]; exact AMap.get_set_other _ _ _ _ (fun e => h e.symm),
        GetState_snd_origin ctx s k k2 h⟩
  · unfold stateObject.SetState
    by_cases hv : (s.GetState ctx k).1 = v
    · simp only [if_pos hv]
      exact ⟨f1, f2, f6, f5, fa, f3, f4⟩
    · simp only [if_neg hv, stateObject.setState]
      exact ⟨f1, f2, f6, f5, fa, f3, f4⟩

/-! ## State objects: the dirty flags -/

theorem SetState_originalAccount (ctx : Ctx) (j : journal) (s : stateObject) (k v : Hash) :
    (s.SetState ctx j k v).1.originalAccount = s.originalAccount := by
  unfold stateObject.SetState
  by_cases hv : (s.GetState ctx k).1 = v
  · simp only [if_pos hv]
    exact (GetState_fields ctx s k).2.1
  · simp only [if_neg hv, stateObject.setState]
    exact (GetState_fields ctx s k).2.1

/-- C37: an object with no original account, as `newObject` creates from nil,
has `codeDirty()` and `nonceDirty()` true whatever its nonce and code hash;
for an object with original account `A`, as `newObject` creates from `A`,
`nonceDirty()` holds exactly when the current nonce differs from `A.Nonce` and
`codeDirty()` exactly when the current code hash differs from `A.CodeHash`, so
`SetNonce` and `SetCode` back to the original values make the flags false
again; `SetNonce`, `SetCode`, `SetState` and `SetStorage` leave the original
account as it is. -/
theorem C37_dirty_flags (ctx : Ctx) (j : journal) (s : stateObject) (a : Address) (A : Account)
    (n : Nat) (h : Hash) (c : Option Bytes) (k v : Hash) (m : Option Storage) :
    (newObject a none).originalAccount = none ∧
    (newObject a (some A)).originalAccount = some A ∧
    (newObject a (some A)).account = A ∧
    (s.originalAccount = none → s.codeDirty = true ∧ s.nonceDirty = true) ∧
    (s.originalAccount = some A →
      (s.nonceDirty = true ↔ s.account.Nonce ≠ A.Nonce) ∧
      (s.codeDirty = true ↔ s.account.CodeHash ≠ A.CodeHash) ∧
      (s.SetNonce j A.Nonce).1.nonceDirty = false ∧
      (A.CodeHash = h.bytes → (s.SetCode ctx j h c).1.codeDirty = false)) ∧
    (s.SetNonce j n).1.originalAccount = s.originalAccount ∧
    (s.SetCode ctx j h c).1.originalAccount = s.originalAccount ∧
    (s.SetState ctx j k v).1.originalAccount = s.originalAccount ∧
    (s.SetStorage m).originalAccount = s.originalAccount := by
  have hcode : (s.SetCode ctx j h c).1.originalAccount = s.originalAccount := by
    simp only [stateObject.SetCode, stateObject.setCode]
    exact (Code_fields ctx s).2.2.2.1
  refine ⟨rfl, rfl, rfl, fun h0 => ?_, fun hA => ⟨?_, ?_, ?_, fun hh => ?_⟩, rfl, hcode,
    (SetState_originalAccount ctx j s k v), rfl⟩
  · simp only [stateObject.codeDirty, stateObject.nonceDirty, h0, and_self]
  · simp only [stateObject.nonceDirty, hA, decide_eq_true_eq]
  · simp only [stateObject.codeDirty, hA, Bool.not_eq_true', decide_eq_false_iff_not]
  · simp only [stateObject.nonceDirty, stateObject.SetNonce, stateObject.setNonce, hA, ne_eq,
      not_true_eq_false, decide_False]
  · have e1 : (s.SetCode ctx j h c).1.account.CodeHash = h.bytes := by
      simp only [stateObject.SetCode, stateObject.setCode]
    simp only [stateObject.codeDirty, hcode, hA, e1, hh, decide_True, Bool.not_true]

/-! ## The backing store: a zero value is an entry -/

/-- C38: `Keeper.SetState` deletes the slot only for a zero-length value: a
value of length zero leaves no entry and any other value is stored; after
`Keeper.SetState(a, k, v)` with `v` the 32 zero bytes the store holds an entry
for the slot, `Keeper.GetState(a, k)` returns the zero hash, and
`Keeper.ForEachStorage(a, .)` with an always-true visitor visits `k` with the
zero value. -/
theorem C38_zero_value_entry (ctx : Ctx) (a : Address) (k : Hash) :
    (∀ v : Bytes, v.length = 0 →
      AMap.get (Keeper.SetState ctx a k v).store (AddressStoragePrefix a ++ k.bytes) = none) ∧
    (∀ v : Bytes, v.length ≠ 0 →
      AMap.get (Keeper.SetState ctx a k v).store (AddressStoragePrefix a ++ k.bytes) = some v) ∧
    zeroHash.bytes = List.replicate 32 0 ∧
    AMap.get (Keeper.SetState ctx a k zeroHash.bytes).store (AddressStoragePrefix a ++ k.bytes)
      = some zeroHash.bytes ∧
    Keeper.GetState (Keeper.SetState ctx a k zeroHash.bytes) a k = zeroHash ∧
    (k, zeroHash, true) ∈ visits (Keeper.SetState ctx a k zeroHash.bytes) a alwaysTrue () := by
  have hset : ∀ v : Bytes, v.length ≠ 0 →
      AMap.get (Keeper.SetState ctx a k v).store (AddressStoragePrefix a ++ k.bytes) = some v := by
    intro v hv
    simp only [Keeper.SetState, if_neg hv, AMap.get_set_same]
  have hz : zeroHash.bytes.length ≠ 0 := by
    rw [zeroHash.len]
    decide
  refine ⟨fun v hv => ?_, hset, rfl, hset _ hz, ?_, ?_⟩
  · simp only [Keeper.SetState, if_pos hv, AMap.get_erase, if_true]
  · rw [Keeper_GetState_of_get _ a k _ (hset _ hz), BytesToHash_bytes]
  · rw [visits_eq, visitList_alwaysTrue]
    refine List.mem_map.mpr ⟨(k, zeroHash), ?_, rfl⟩
    refine List.mem_map.mpr ⟨_, mem_iterator _ a k _ (hset _ hz), ?_⟩
    simp only [entryHashes, BytesToHash_storageKey, BytesToHash_bytes]

/-! ## The backing store: `DeleteAccount` that does not delete -/

/-- C39: `Keeper.DeleteAccount` changes nothing when it does not delete. For
an address with no auth account it returns nil and leaves the context it was
given, so storage, code and accounts are unchanged and the storage entries
stored under that address remain; for an address whose account is not an
Ethereum account it returns the `ErrInvalidAccount` error and leaves the
context it was given, so that account and all storage are unchanged. -/
theorem C39_DeleteAccount_noop (ctx : Ctx) (a : Address) :
    (AMap.get ctx.accounts a = none →
      Keeper.DeleteAccountCtx ctx a = (ctx, none) ∧
      Keeper.DeleteAccount ctx a = Except.ok ctx ∧
      (∀ (b : Address) (k : Hash),
        Keeper.GetState (Keeper.DeleteAccountCtx ctx a).1 b k = Keeper.GetState ctx b k) ∧
      (∀ h : Hash,
        Keeper.GetCode (Keeper.DeleteAccountCtx ctx a).1 h = Keeper.GetCode ctx h) ∧
      (Keeper.DeleteAccountCtx ctx a).1.accounts = ctx.accounts) ∧
    (∀ acct, AMap.get ctx.accounts a = some acct → acct.isEth = false →
      Keeper.DeleteAccountCtx ctx a = (ctx, some KeeperError.ErrInvalidAccount) ∧
      Keeper.DeleteAccount ctx a = Except.error KeeperError.ErrInvalidAccount ∧
      AMap.get (Keeper.DeleteAccountCtx ctx a).1.accounts a = some acct ∧
      (∀ (b : Address) (k : Hash),
        Keeper.GetState (Keeper.DeleteAccountCtx ctx a).1 b k = Keeper.GetState ctx b k) ∧
      (Keeper.DeleteAccountCtx ctx a).1.store = ctx.store) := by
  constructor
  · intro h
    have e : Keeper.DeleteAccountCtx ctx a = (ctx, none) := by
      simp only [Keeper.DeleteAccountCtx, h]
    refine ⟨e, ?_, ?_, ?_, ?_⟩
    · simp only [Keeper.DeleteAccount, e]
    · intro b k
      rw [e]
    · intro c
      rw [e]
    · rw [e]
  · intro acct h heth
    have e : Keeper.DeleteAccountCtx ctx a = (ctx, some KeeperError.ErrInvalidAccount) := by
      simp only [Keeper.DeleteAccountCtx, h, heth, Bool.false_eq_true, if_false]
    refine ⟨e, ?_, ?_, ?_, ?_⟩
    · simp only [Keeper.DeleteAccount, e]
    · rw [e]
      exact h
    · intro b k
      rw [e]
    · rw [e]

theorem C39_DeleteAccount_noop_witness :
    AMap.get contractCtx.accounts sampleAddress2 = none ∧
    Keeper.DeleteAccountCtx contractCtx sampleAddress2 = (contractCtx, none) ∧
    Keeper.GetState contractCtx sampleAddress2 hash1 = hash3 ∧
    AMap.get plainAccountCtx.accounts sampleAddress
      = some { isEth := false, sequence := 0, codeHash := zeroHash } ∧
    Keeper.DeleteAccountCtx plainAccountCtx sampleAddress
      = (plainAccountCtx, some KeeperError.ErrInvalidAccount) :=
  ⟨by decide, ((C39_DeleteAccount_noop contractCtx sampleAddress2).1 (by decide)).1, by decide,
   by decide,
   ((C39_DeleteAccount_noop plainAccountCtx sampleAddress).2
     { isEth := false, sequence := 0, codeHash := zeroHash } (by decide) rfl).1⟩

/-! ## The conversion of fork times -/

/-- C40: a fork time `t` that is not nil and not negative passes
`ValidateTime` and is converted by `EthereumConfig` (through `getTimeValue`,
for ShanghaiTime, CancunTime and PragueTime alike) to `t mod 2^64`, which
equals `t` exactly when `t < 2^64`. -/
theorem C40_getTimeValue (cc : ChainConfig) (chainID : Option Int) (t : Int) (ht : 0 ≤ t) :
    ValidateTime (some t) = none ∧
    getTimeValue (some t) = some (Int.toNat t % 2 ^ 64) ∧
    (((Int.toNat t % 2 ^ 64 : Nat) : Int) = t ↔ t < 2 ^ 64) ∧
    (((Int.toNat t % 2 ^ 64 : Nat) : Int) = t % 2 ^ 64) ∧
    (cc.ShanghaiTime = some t →
      (cc.EthereumConfig chainID).ShanghaiTime = some (Int.toNat t % 2 ^ 64)) ∧
    (cc.CancunTime = some t →
      (cc.EthereumConfig chainID).CancunTime = some (Int.toNat t % 2 ^ 64)) ∧
    (cc.PragueTime = some t →
      (cc.EthereumConfig chainID).PragueTime = some (Int.toNat t % 2 ^ 64)) := by
  have hv : ValidateTime (some t) = none := by
    simp only [ValidateTime, if_neg (not_lt.mpr ht)]
  have hg : getTimeValue (some t) = some (Int.toNat t % 2 ^ 64) := by
    simp only [getTimeValue, if_neg (not_lt.mpr ht)]
  refine ⟨hv, hg, ?_, ?_, fun h => ?_, fun h => ?_, fun h => ?_⟩
  · constructor
    · intro h
      omega
    · intro h
      omega
  · omega
  · simp only [ChainConfig.EthereumConfig, h, hg]
  · simp only [ChainConfig.EthereumConfig, h, hg]
  · simp only [ChainConfig.EthereumConfig, h, hg]

theorem C40_getTimeValue_witness :
    (0 : Int) ≤ 2 ^ 64 + 5 ∧
    ValidateTime (some (2 ^ 64 + 5)) = none ∧
    getTimeValue (some (2 ^ 64 + 5)) = some 5 :=
  ⟨by decide, (C40_getTimeValue DefaultChainConfig none (2 ^ 64 + 5) (by decide)).1,
   by decide⟩

/-! ## The tracer: reading memory -/

theorem toInt64_of_range (x : Int) (h0 : -2 ^ 63 ≤ x) (h1 : x < 2 ^ 63) : toInt64 x = x := by
  unfold toInt64
  omega

theorem getElem?_drop_pad (m : Bytes) (o n i : Nat) (hi : i < n) (hlen : m.length < o + n)
    (ho : o < m.length) :
    (m.drop o ++ List.replicate (n - (m.length - o)) (0 : Byte))[i]? = some (m.getD (o + i) 0) := by
  by_cases h : o + i < m.length
  · rw [List.getElem?_append_left (by rw [List.length_drop]; omega), List.getElem?_drop,
      List.getD_eq_getElem?_getD, List.getElem?_eq_getElem h]
    rfl
  · rw [List.getElem?_append_right (by rw [List.length_drop]; omega), List.length_drop,
      List.getElem?_replicate, if_pos (by omega), List.getD_eq_getElem?_getD,
      List.getElem?_eq_none (by omega)]
    rfl

/-- C36, as stated, fails: a size beyond what the runtime allocates makes
`make` panic. On a 64-bit runtime, `GetPtr(0, 2^50)` on an empty memory and
`GetPtr(1, 2^50)` on a memory of two bytes panic, although the offset is not
negative, the size is positive and `offset + size < 2^63`. -/
theorem C36_counterexample :
    ((0 : Int) ≤ 0 ∧ (0 : Int) < 2 ^ 50 ∧ (0 : Int) + 2 ^ 50 < 2 ^ 63 ∧
      Memory.GetPtr maxAlloc64 [] 0 (2 ^ 50) = none) ∧
    ((0 : Int) ≤ 1 ∧ (1 : Int) + 2 ^ 50 < 2 ^ 63 ∧
      Memory.GetPtr maxAlloc64 [7, 8] 1 (2 ^ 50) = none) := by
  refine ⟨⟨by decide, by decide, by decide, ?_⟩, by decide, by decide, ?_⟩
  · simp [Memory.GetPtr, makeBytes, maxAlloc64, toInt64]
  · simp [Memory.GetPtr, makeBytes, maxAlloc64, toInt64]

/-- C36, amended: for a memory `m`, an offset that is not negative and a
positive size with `offset + size < 2^63`, where the bytes asked for lie
within the memory (`offset + size ≤ len(m)`) or `size` is no more than the
runtime allocates, `Memory.GetPtr(offset, size)` does not panic and returns
exactly `size` bytes whose i-th byte is `m[offset + i]` when
`offset + i < len(m)` and 0 otherwise; `GetPtr(offset, 0)` returns nil for
every offset. -/
theorem C36_GetPtr (maxAlloc : Nat) (m : Memory) (offset size : Int) (ho : 0 ≤ offset)
    (hs : 0 < size) (hsum : offset + size < 2 ^ 63)
    (halloc : offset + size ≤ (m.length : Int) ∨ size ≤ (maxAlloc : Int)) :
    (∃ out : Bytes, Memory.GetPtr maxAlloc m offset size = some (some out) ∧
      out.length = Int.toNat size ∧
      ∀ i : Nat, i < Int.toNat size → out[i]? = some (m.getD (Int.toNat offset + i) 0)) ∧
    (∀ offset0 : Int, Memory.GetPtr maxAlloc m offset0 0 = some none) := by
  refine ⟨?_, fun offset0 => by simp only [Memory.GetPtr, if_true]⟩
  obtain ⟨o, rfl⟩ := Int.eq_ofNat_of_zero_le ho
  obtain ⟨n, rfl⟩ := Int.eq_ofNat_of_zero_le (le_of_lt hs)
  have hn : 0 < n := by omega
  have hw : toInt64 ((o : Int) + (n : Int)) = (o : Int) + (n : Int) :=
    toInt64_of_range _ (by omega) hsum
  have hsz : ¬ ((n : Int) = 0) := by omega
  simp only [Memory.GetPtr, if_neg hsz, hw, Int.toNat_ofNat]
  by_cases h1 : (o : Int) + (n : Int) ≤ (m.length : Int)
  · have hc : 0 ≤ (o : Int) ∧ 0 ≤ (n : Int) ∧ (o : Int) + (n : Int) ≤ (m.length : Int) :=
      ⟨ho, le_of_lt hs, h1⟩
    have hle : (o : Int) ≤ (o : Int) + (n : Int) := by omega
    have hd : Int.toNat ((o : Int) + (n : Int) - (o : Int)) = n := by omega
    rw [if_pos hc, if_pos hle, hd]
    refine ⟨_, rfl, ?_, fun i hi => ?_⟩
    · rw [List.length_take, List.length_drop]
      omega
    · rw [List.getElem?_take_of_lt hi, List.getElem?_drop, List.getD_eq_getElem?_getD,
        List.getElem?_eq_getElem (by omega)]
      rfl
  · have hc : ¬ (0 ≤ (o : Int) ∧ 0 ≤ (n : Int) ∧ (o : Int) + (n : Int) ≤ (m.length : Int)) :=
      fun h => h1 h.2.2
    have hsize : (n : Int) ≤ (maxAlloc : Int) := halloc.resolve_left h1
    rw [if_neg hc]
    by_cases h2 : (m.length : Int) ≤ (o : Int)
    · have hmk : makeBytes maxAlloc (n : Int) = some (List.replicate n 0) := by
        have hno : ¬ ((n : Int) < 0 ∨ (maxAlloc : Int) < (n : Int)) := by omega
        simp only [makeBytes, if_neg hno, Int.toNat_ofNat]
      rw [if_pos h2, hmk]
      refine ⟨_, rfl, List.length_replicate _ _, fun i hi => ?_⟩
      rw [List.getElem?_replicate, if_pos hi, List.getD_eq_getElem?_getD,
        List.getElem?_eq_none (by omega)]
      rfl
    · have hneg : ¬ ((o : Int) < 0) := by omega
      have hmk : makeBytes maxAlloc ((n : Int) - ((m.drop o).length : Int))
          = some (List.replicate (n - (m.length - o)) 0) := by
        have hno : ¬ ((n : Int) - ((m.drop o).length : Int) < 0
            ∨ (maxAlloc : Int) < (n : Int) - ((m.drop o).length : Int)) := by
          rw [List.length_drop]
          omega
        have hpad : Int.toNat ((n : Int) - ((m.drop o).length : Int)) = n - (m.length - o) := by
          rw [List.length_drop]
          omega
        simp only [makeBytes, if_neg hno, hpad]
      have hap : appendBytes maxAlloc (m.drop o) (List.replicate (n - (m.length - o)) 0)
          = some (m.drop o ++ List.replicate (n - (m.length - o)) 0) := by
        have hno : ¬ (maxAlloc
            < (m.drop o).length + (List.replicate (n - (m.length - o)) (0 : Byte)).length) := by
          rw [List.length_drop, List.length_replicate]
          omega
        simp only [appendBytes, if_neg hno]
      rw [if_neg h2, if_neg hneg]
      simp only [hmk, hap]
      refine ⟨_, rfl, ?_, fun i hi => getElem?_drop_pad m o n i hi (by omega) (by omega)⟩
      rw [List.length_append, List.length_drop, List.length_replicate]
      omega

theorem C36_GetPtr_witness :
    (0 : Int) ≤ 1 ∧ (0 : Int) < 3 ∧ (1 : Int) + 3 < 2 ^ 63 ∧
    Memory.GetPtr maxAlloc64 [7, 8] 1 3 = some (some [8, 0, 0]) ∧
    ((∃ out : Bytes, Memory.GetPtr maxAlloc64 [7, 8] 1 3 = some (some out) ∧
      out.length = Int.toNat 3 ∧
      ∀ i : Nat, i < Int.toNat 3 → out[i]? = some (([7, 8] : Bytes).getD (Int.toNat 1 + i) 0)) ∧
    (∀ offset0 : Int, Memory.GetPtr maxAlloc64 [7, 8] offset0 0 = some none)) :=
  ⟨by decide, by decide, by decide, by decide,
   C36_GetPtr maxAlloc64 [7, 8] 1 3 (by decide) (by decide) (by decide) (Or.inr (by decide))⟩

/-! ## The tracer: `populateStateReverted` -/

theorem Reverting_iff (calls : List pbeth.Call) (i : Nat) (c : pbeth.Call)
    (hc : calls[i]? = some c) :
    Reverting calls i ↔
      (c.StatusFailed = true ∨ (0 < c.ParentIndex ∧ Reverting calls (c.ParentIndex - 1))) := by
  constructor
  · intro h
    cases h with
    | self _ c' h1 h2 =>
      rw [hc] at h1
      cases h1
      exact Or.inl h2
    | parent _ c' h1 h2 h3 =>
      rw [hc] at h1
      cases h1
      exact Or.inr ⟨h2, h3⟩
  · rintro (h | ⟨h1, h2⟩)
    · exact Reverting.self i c hc h
    · exact Reverting.parent i c hc h1 h2

theorem populateLoop_spec (calls : List pbeth.Call)
    (hidx : ∀ (i : Nat) (c : pbeth.Call), calls[i]? = some c →
      c.Index = i + 1 ∧ c.ParentIndex < c.Index) :
    ∀ (rem k : Nat) (cur : List pbeth.Call), k + rem = calls.length →
      cur.length = calls.length →
      (∀ i, k ≤ i → cur[i]? = calls[i]?) →
      (∀ (i : Nat) (c : pbeth.Call), i < k → calls[i]? = some c →
        ∃ r, cur[i]? = some { c with StateReverted := r } ∧ (r = true ↔ Reverting calls i)) →
      ∃ out, populateLoop cur k rem = some out ∧ out.length = calls.length ∧
        ∀ (i : Nat) (c : pbeth.Call), calls[i]? = some c →
          ∃ r, out[i]? = some { c with StateReverted := r } ∧
            (r = true ↔ Reverting calls i) := by
  intro rem
  induction rem with
  | zero =>
    intro k cur hk hlen _ hdone
    refine ⟨cur, rfl, hlen, fun i c hc => hdone i c ?_ hc⟩
    have := (List.getElem?_eq_some_iff.mp hc).1
    omega
  | succ rem ih =>
    intro k cur hk hlen hrest hdone
    have hklt : k < calls.length := by omega
    have hck : calls[k]? = some calls[k] := List.getElem?_eq_getElem hklt
    have hcur : cur[k]? = some calls[k] := by rw [hrest k (Nat.le_refl k), hck]
    obtain ⟨hi1, hi2⟩ := hidx k calls[k] hck
    have hstep : ∃ r, populateStep cur k
        = some (cur.set k { calls[k] with StateReverted := r }) ∧
        (r = true ↔ Reverting calls k) := by
      by_cases hp : 0 < calls[k].ParentIndex
      · have hplt : calls[k].ParentIndex - 1 < k := by omega
        have hcp : calls[calls[k].ParentIndex - 1]? = some calls[calls[k].ParentIndex - 1] :=
          List.getElem?_eq_getElem (by omega)
        obtain ⟨rp, hrp, hrev⟩ := hdone _ _ hplt hcp
        refine ⟨rp || calls[k].StatusFailed, ?_, ?_⟩
        · simp only [populateStep, hcur, if_pos hp, hrp]
        · rw [Reverting_iff calls k _ hck, Bool.or_eq_true, hrev]
          constructor
          · rintro (h | h)
            · exact Or.inr ⟨hp, h⟩
            · exact Or.inl h
          · rintro (h | ⟨_, h⟩)
            · exact Or.inr h
            · exact Or.inl h
      · refine ⟨false || calls[k].StatusFailed, ?_, ?_⟩
        · simp only [populateStep, hcur, if_neg hp]
        · rw [Reverting_iff calls k _ hck, Bool.false_or]
          constructor
          · intro h
            exact Or.inl h
          · rintro (h | ⟨h, _⟩)
            · exact h
            · exact (hp h).elim
    obtain ⟨r, hr, hrev⟩ := hstep
    have hnext := ih (k + 1) (cur.set k { calls[k] with StateReverted := r }) (by omega)
      (by rw [List.length_set]; exact hlen)
      (fun i hi => by
        rw [List.getElem?_set_ne (by omega)]
        exact hrest i (by omega))
      (fun i c hi hc => by
        by_cases hik : i = k
        · subst hik
          rw [hck] at hc
          cases hc
          exact ⟨r, List.getElem?_set_self (by rw [hlen]; exact hklt), hrev⟩
        · rw [List.getElem?_set_ne (fun e => hik e.symm)]
          exact hdone i c (by omega) hc)
    obtain ⟨out, ho1, ho2, ho3⟩ := hnext
    exact ⟨out, by simp only [populateLoop, hr, ho1], ho2, ho3⟩

/-- C34: for calls ordered by execution index (the call at position `i` has
`Index = i + 1` and `ParentIndex < Index`), `populateStateReverted` does not
panic on an index out of range, keeps the calls and their other fields, and
leaves each call with `StateReverted` true if and only if the call itself or
one of its ancestors, following `ParentIndex` up to the root, has
`StatusFailed` true. -/
theorem C34_populateStateReverted (calls : List pbeth.Call)
    (hidx : ∀ (i : Nat) (c : pbeth.Call), calls[i]? = some c →
      c.Index = i + 1 ∧ c.ParentIndex < c.Index) :
    ∃ out, populateStateReverted calls = some out ∧ out.length = calls.length ∧
      ∀ (i : Nat) (c : pbeth.Call), calls[i]? = some c →
        ∃ r, out[i]? = some { c with StateReverted := r } ∧
          (r = true ↔ Reverting calls i) :=
  populateLoop_spec calls hidx calls.length 0 calls (by omega) rfl (fun _ _ => rfl)
    (fun i _ hi _ => by omega)

theorem sampleCalls_ordered :
    ∀ (i : Nat) (c : pbeth.Call), sampleCalls[i]? = some c →
      c.Index = i + 1 ∧ c.ParentIndex < c.Index := by
  intro i c h
  rcases i with _ | _ | _ | _ | i
  · simp only [sampleCalls, List.getElem?_cons_zero, Option.some.injEq] at h
    subst h
    decide
  · simp only [sampleCalls, List.getElem?_cons_succ, List.getElem?_cons_zero,
      Option.some.injEq] at h
    subst h
    decide
  · simp only [sampleCalls, List.getElem?_cons_succ, List.getElem?_cons_zero,
      Option.some.injEq] at h
    subst h
    decide
  · simp only [sampleCalls, List.getElem?_cons_succ, List.getElem?_cons_zero,
      Option.some.injEq] at h
    subst h
    decide
  · simp [sampleCalls] at h

theorem C34_populateStateReverted_witness :
    (populateStateReverted sampleCalls).map (fun out => out.map (fun c => c.StateReverted))
      = some [false, true, true, false] ∧
    ∃ out, populateStateReverted sampleCalls = some out ∧ out.length = sampleCalls.length ∧
      ∀ (i : Nat) (c : pbeth.Call), sampleCalls[i]? = some c →
        ∃ r, out[i]? = some { c with StateReverted := r } ∧
          (r = true ↔ Reverting sampleCalls i) :=
  ⟨by decide, C34_populateStateReverted sampleCalls sampleCalls_ordered⟩

/-! ## The tracer: the call stack -/

theorem Pop_concat (s : CallStack) (st : List pbeth.Call) (c : pbeth.Call)
    (h : s.stack = st ++ [c]) :
    s.Pop = some (c, { s with stack := st, depth := toInt64 (s.depth - 1) }) := by
  simp only [CallStack.Pop, h, List.getLast?_concat, List.dropLast_concat]

theorem Pop_eq_none (s : CallStack) : s.Pop = none ↔ s.stack = [] := by
  unfold CallStack.Pop
  cases hl : s.stack.getLast? with
  | none => simp only [List.getLast?_eq_none_iff.mp hl]
  | some out =>
    obtain ⟨ys, hys⟩ := List.getLast?_eq_some_iff.mp hl
    simp [hys]

theorem Push_stack (s : CallStack) (call : pbeth.Call) :
    (s.Push call).index = (s.index + 1) % 2 ^ 32 ∧
    (s.Push call).depth = toInt64 (s.depth + 1) ∧
    ∃ c, (s.Push call).stack = s.stack ++ [c] ∧
      c.Index = (s.index + 1) % 2 ^ 32 ∧
      c.Depth = Int.toNat (s.depth % 2 ^ 32) ∧
      c.ParentIndex = (match s.stack.getLast? with
        | some p => p.Index
        | none => call.ParentIndex) ∧
      c.StatusFailed = call.StatusFailed ∧ c.StateReverted = call.StateReverted := by
  refine ⟨rfl, rfl, ?_⟩
  unfold CallStack.Push CallStack.Peek
  cases s.stack.getLast? with
  | none => exact ⟨_, rfl, rfl, rfl, rfl, rfl, rfl⟩
  | some p => exact ⟨_, rfl, rfl, rfl, rfl, rfl, rfl⟩

theorem run_inv (ops : List StackOp) :
    ∀ (s : CallStack) (n : Nat), s.index = n → s.depth = (s.stack.length : Int) →
      s.stack.length ≤ n → n + pushes ops < 2 ^ 32 →
      ∀ s', CallStack.run s ops = some s' →
        s'.index = n + pushes ops ∧ s'.depth = (s'.stack.length : Int) ∧
        s'.stack.length ≤ n + pushes ops := by
  induction ops with
  | nil =>
    intro s n h1 h2 h3 _ s' hrun
    simp only [CallStack.run, Option.some.injEq] at hrun
    subst hrun
    exact ⟨h1, h2, h3⟩
  | cons op rest ih =>
    intro s n h1 h2 h3 hn s' hrun
    cases op with
    | push call =>
      simp only [pushes] at hn ⊢
      simp only [CallStack.run] at hrun
      obtain ⟨p1, p2, c, p3, _⟩ := Push_stack s call
      have e := ih (s.Push call) (n + 1)
        (by rw [p1, h1]; exact Nat.mod_eq_of_lt (by omega))
        (by
          rw [p2, p3, h2, List.length_append, List.length_singleton]
          rw [toInt64_of_range _ (by omega) (by omega)]
          omega)
        (by rw [p3, List.length_append, List.length_singleton]; omega)
        (by omega) s' hrun
      have e2 : n + 1 + pushes rest = n + (pushes rest + 1) := by omega
      rw [e2] at e
      exact e
    | pop =>
      simp only [pushes] at hn ⊢
      simp only [CallStack.run] at hrun
      cases hp : s.Pop with
      | none =>
        rw [hp] at hrun
        cases hrun
      | some r =>
        rw [hp] at hrun
        have hne : s.stack ≠ [] := fun e => by
          rw [(Pop_eq_none s).mpr e] at hp
          cases hp
        obtain ⟨st, c, hst⟩ : ∃ st c, s.stack = st ++ [c] :=
          ⟨s.stack.dropLast, s.stack.getLast hne, (List.dropLast_concat_getLast hne).symm⟩
        rw [Pop_concat s st c hst] at hp
        cases hp
        simp only at hrun
        have hl : s.stack.length = st.length + 1 := by
          rw [hst, List.length_append, List.length_singleton]
        exact ih { s with stack := st, depth := toInt64 (s.depth - 1) } n h1
          (by
            show toInt64 (s.depth - 1) = (st.length : Int)
            rw [h2, hl, toInt64_of_range _ (by omega) (by omega)]
            omega)
          (by
            show st.length ≤ n
            omega)
          hn s' hrun

theorem run_none (ops : List StackOp) :
    ∀ s : CallStack, CallStack.run s ops = none →
      ∃ pre post s', ops = pre ++ StackOp.pop :: post ∧ CallStack.run s pre = some s' ∧
        s'.stack = [] := by
  induction ops with
  | nil =>
    intro s h
    cases h
  | cons op rest ih =>
    intro s h
    cases op with
    | push call =>
      simp only [CallStack.run] at h
      obtain ⟨pre, post, s', e1, e2, e3⟩ := ih _ h
      exact ⟨StackOp.push call :: pre, post, s', by rw [e1]; rfl, e2, e3⟩
    | pop =>
      simp only [CallStack.run] at h
      cases hp : s.Pop with
      | none => exact ⟨[], rest, s, rfl, rfl, (Pop_eq_none s).mp hp⟩
      | some r =>
        rw [hp] at h
        obtain ⟨pre, post, s', e1, e2, e3⟩ := ih _ h
        exact ⟨StackOp.pop :: pre, post, s', by rw [e1]; rfl, by simp only [CallStack.run, hp, e2],
          e3⟩

theorem pushPop_iterate (call : pbeth.Call) (n : Nat) :
    Nat.iterate (pushPop call) n NewCallStack = { index := n % 2 ^ 32, stack := [], depth := 0 } := by
  induction n with
  | zero => rfl
  | succ n ih =>
    rw [Function.iterate_succ_apply', ih]
    obtain ⟨p1, p2, c, p3, _⟩ := Push_stack { index := n % 2 ^ 32, stack := [], depth := 0 } call
    have hpop := Pop_concat _ [] c p3
    simp only [pushPop, hpop, p1, p2, CallStack.mk.injEq, and_true, true_and]
    constructor
    · omega
    · decide

/-- C35, as stated, fails: the index of the call stack is a `uint32`, so after
2^32 - 1 calls pushed and popped on a new call stack the next call, the 2^32-th
pushed, gets `Index` 0 and not 2^32. -/
theorem C35_counterexample :
    ((Nat.iterate (pushPop rootCall) (2 ^ 32 - 1) NewCallStack).Push rootCall).stack
      = [{ rootCall with Index := 0 }] := by
  rw [pushPop_iterate]
  decide

/-- C35, amended: after a sequence of `Push` and `Pop` operations on a new
call stack that never pops an empty stack, with the next push the n-th for an
`n` below 2^32: the internal depth equals the stack length, the call pushed
next (passed with `ParentIndex` 0) gets `Index = n`, whatever was popped
before, `Depth` the number of calls on the stack and `ParentIndex` the `Index`
of the call on top of the stack, 0 when the stack is empty; `Pop` returns the
call pushed last and not yet popped and panics exactly on an empty stack;
`Reset` gives the new call stack; and a sequence of operations panics only at
a `Pop` on an empty stack. -/
theorem C35_CallStack (ops : List StackOp) (s : CallStack) (call : pbeth.Call)
    (hrun : CallStack.run NewCallStack ops = some s) (hn : pushes ops + 1 < 2 ^ 32)
    (hcall : call.ParentIndex = 0) :
    s.index = pushes ops ∧
    s.depth = (s.stack.length : Int) ∧
    (∃ c, (s.Push call).stack = s.stack ++ [c] ∧
      c.Index = pushes ops + 1 ∧
      c.Depth = s.stack.length ∧
      c.ParentIndex = (match s.stack.getLast? with
        | some p => p.Index
        | none => 0) ∧
      c.StatusFailed = call.StatusFailed ∧ c.StateReverted = call.StateReverted) ∧
    (s.Pop = none ↔ s.stack = []) ∧
    (∀ (st : List pbeth.Call) (c : pbeth.Call), s.stack = st ++ [c] →
      ∃ s', s.Pop = some (c, s') ∧ s'.stack = st ∧ s'.index = s.index ∧
        s'.depth = (st.length : Int)) ∧
    s.Reset = NewCallStack ∧
    (∀ ops' : List StackOp, CallStack.run NewCallStack ops' = none →
      ∃ pre post s', ops' = pre ++ StackOp.pop :: post ∧
        CallStack.run NewCallStack pre = some s' ∧ s'.stack = []) := by
  obtain ⟨h1, h2, h3⟩ := run_inv ops NewCallStack 0 rfl rfl (Nat.zero_le _) (by omega) s hrun
  rw [Nat.zero_add] at h1 h3
  refine ⟨h1, h2, ?_, Pop_eq_none s, fun st c hst => ?_, by simp [CallStack.Reset, NewCallStack],
    fun ops' h => run_none ops' NewCallStack h⟩
  · obtain ⟨_, _, c, p3, p4, p5, p6, p7, p8⟩ := Push_stack s call
    refine ⟨c, p3, ?_, ?_, ?_, p7, p8⟩
    · rw [p4, h1]
      exact Nat.mod_eq_of_lt hn
    · rw [p5, h2]
      omega
    · rw [p6, hcall]
  · refine ⟨_, Pop_concat s st c hst, rfl, rfl, ?_⟩
    have hl : s.stack.length = st.length + 1 := by
      rw [hst, List.length_append, List.length_singleton]
    show toInt64 (s.depth - 1) = (st.length : Int)
    rw [h2, hl, toInt64_of_range _ (by omega) (by omega)]
    omega

theorem C35_CallStack_witness :
    CallStack.run NewCallStack [StackOp.push rootCall, StackOp.push rootCall, StackOp.pop]
      = some { index := 2, stack := [{ rootCall with Index := 1 }], depth := 1 } ∧
    ({ index := 2, stack := [{ rootCall with Index := 1 }], depth := 1 } : CallStack).index
      = pushes [StackOp.push rootCall, StackOp.push rootCall, StackOp.pop] ∧
    (({ index := 2, stack := [{ rootCall with Index := 1 }], depth := 1 } : CallStack).Push
        rootCall).stack
      = [{ rootCall with Index := 1 }, { rootCall with Index := 3, ParentIndex := 1, Depth := 1 }] :=
  ⟨by decide,
   (C35_CallStack [StackOp.push rootCall, StackOp.push rootCall, StackOp.pop]
     { index := 2, stack := [{ rootCall with Index := 1 }], depth := 1 } rootCall
     (by decide) (by decide) rfl).1,
   by decide⟩

end Ethermint
